import Mathlib

/-!
Verification of the grid-based incremental search engine (maze search
animation demo): grid model, priority queue, the four frontier strategies
(stack / queue / greedy best-first / A*), the single-step search state
machine, template parsing and serialization, and the reset operation.

The definitions below are a shallow embedding of the source program:
JavaScript arrays become `List`, mutation becomes explicit state passing,
thrown exceptions become `Except String`, and `undefined` results become
`Option`.
-/

namespace SearchDemo

/-! ## Basic list helpers (modelling JavaScript array operations) -/

/-- Modify the element at position `n` (identity when out of range). -/
def listModify (f : α → α) : Nat → List α → List α
  | _, [] => []
  | 0, a :: as => f a :: as
  | n + 1, a :: as => a :: listModify f n as

/-- Swap the elements at indices `i` and `j` (identity when either index is
out of range), modelling the destructuring array swap in the source. -/
def swapIdx (l : List α) (i j : Nat) : List α :=
  match l.get? i, l.get? j with
  | some a, some b => (l.set i b).set j a
  | _, _ => l

/-! ## Core data types -/

/-- `enum Action { Up, Down, Left, Right }` -/
inductive Action where
  | Up | Down | Left | Right
deriving DecidableEq, Repr

/-- `type State = [number, number]` (row, column). -/
abbrev State := Int × Int

namespace State

/-- `State.equals`: componentwise equality. -/
def equals (a b : State) : Bool := a.1 == b.1 && a.2 == b.2

end State

/-- `class Node`: an immutable search-tree node with a back-link to its
parent. -/
inductive Node where
  | mk (state : State) (parent : Option Node) (action : Option Action)
      (manhattanDistance : Nat) (pathCost : Nat)
deriving Repr

def Node.state : Node → State
  | .mk s _ _ _ _ => s

def Node.parent : Node → Option Node
  | .mk _ p _ _ _ => p

def Node.action : Node → Option Action
  | .mk _ _ a _ _ => a

def Node.manhattanDistance : Node → Nat
  | .mk _ _ _ m _ => m

def Node.pathCost : Node → Nat
  | .mk _ _ _ _ c => c

/-- `enum MazeCellType { Space, Wall, Start, Goal }` -/
inductive MazeCellType where
  | Space | Wall | Start | Goal
deriving DecidableEq, Repr

/-- `enum MazeCellState { Unexplored, Explored, Frontier, SolutionPath,
Unreachable }` -/
inductive MazeCellState where
  | Unexplored | Explored | Frontier | SolutionPath | Unreachable
deriving DecidableEq, Repr

/-- `interface MazeCell { type; state; label? }` -/
structure MazeCell where
  type : MazeCellType
  state : MazeCellState
  label : Option String := none
deriving DecidableEq, Repr

/-- `type MazeData = MazeCell[][]` -/
abbrev MazeData := List (List MazeCell)

/-- The default used to totalize out-of-range array accesses; every access
performed by the program is in range, so this value is never observed. -/
def dfltCell : MazeCell := ⟨MazeCellType.Space, MazeCellState.Unexplored, none⟩

/-- `maze[row][col]` as a partial lookup. -/
def cellAt? (maze : MazeData) (s : State) : Option MazeCell :=
  if 0 ≤ s.1 ∧ 0 ≤ s.2 then (maze.getD s.1.toNat []).get? s.2.toNat else none

/-- In-place update of `maze[row][col]` (the coordinates are nonnegative
and in range at every call site in the program). -/
def modifyCellAt (maze : MazeData) (s : State) (f : MazeCell → MazeCell) : MazeData :=
  if 0 ≤ s.1 ∧ 0 ≤ s.2 then
    listModify (fun row => listModify f s.2.toNat row) s.1.toNat maze
  else maze

/-- `setCellState(maze, state, cellState)`: `maze[row][col].state = cellState`. -/
def setCellState (maze : MazeData) (s : State) (cs : MazeCellState) : MazeData :=
  modifyCellAt maze s fun c => { c with state := cs }

/-- `setCellLabel(maze, state, label)`: `maze[row][col].label = label`. -/
def setCellLabel (maze : MazeData) (s : State) (label : String) : MazeData :=
  modifyCellAt maze s fun c => { c with label := some label }

/-- `getCellState(maze, state)`. -/
def getCellState (maze : MazeData) (s : State) : MazeCellState :=
  ((cellAt? maze s).map MazeCell.state).getD MazeCellState.Unexplored

/-- `calcManhattanDistance(a, b)`. -/
def calcManhattanDistance (a b : State) : Nat :=
  (a.1 - b.1).natAbs + (a.2 - b.2).natAbs

/-- `enum SolutionType { Pending, NoSolution, Continue, FoundSolution }` -/
inductive SolutionType where
  | Pending | NoSolution | Continue | FoundSolution
deriving DecidableEq, Repr

/-! ## Priority queue (binary heap over a strict comparator)

`PriorityQueue` from the source: `push` appends and sifts up, `pop` swaps
the root with the last element, removes it and sifts down.  The sift loops
are written with an explicit fuel that is always sufficient at the call
sites (sift-up moves strictly toward the root, sift-down strictly away
from it). -/

def parentIdx (i : Nat) : Nat := (i + 1) / 2 - 1

def leftIdx (i : Nat) : Nat := 2 * i + 1

def rightIdx (i : Nat) : Nat := (i + 1) * 2

/-- `_greater(i, j) = comparator(heap[i], heap[j])`; accesses are in range
whenever the source evaluates the comparator. -/
def greaterAt (cmp : α → α → Bool) (l : List α) (i j : Nat) : Bool :=
  match l.get? i, l.get? j with
  | some a, some b => cmp a b
  | _, _ => false

/-- `_siftUp()` loop: while the node is strictly before its parent, swap
them and move up. -/
def siftUpLoop (cmp : α → α → Bool) : List α → Nat → Nat → List α
  | l, _, 0 => l
  | l, node, fuel + 1 =>
    if 0 < node ∧ greaterAt cmp l node (parentIdx node) then
      siftUpLoop cmp (swapIdx l node (parentIdx node)) (parentIdx node) fuel
    else l

/-- `_siftDown()` loop: while some child is strictly before the node, swap
with the preferred child and move down. -/
def siftDownLoop (cmp : α → α → Bool) : List α → Nat → Nat → List α
  | l, _, 0 => l
  | l, node, fuel + 1 =>
    if (leftIdx node < l.length ∧ greaterAt cmp l (leftIdx node) node) ∨
        (rightIdx node < l.length ∧ greaterAt cmp l (rightIdx node) node) then
      let maxChild :=
        if rightIdx node < l.length ∧ greaterAt cmp l (rightIdx node) (leftIdx node) then
          rightIdx node
        else leftIdx node
      siftDownLoop cmp (swapIdx l node maxChild) maxChild fuel
    else l

/-- `push(value)`: append then sift up from the last position. -/
def heapPush (cmp : α → α → Bool) (l : List α) (v : α) : List α :=
  let l' := l ++ [v]
  siftUpLoop cmp l' (l'.length - 1) (l'.length - 1)

/-- `pop()`: return the root (or `undefined` on an empty heap), swap the
root with the last element when the heap has more than one element, remove
the last element, and sift down from the root. -/
def heapPop (cmp : α → α → Bool) (l : List α) : Option α × List α :=
  let popped := l.get? 0
  let l1 := if 0 < l.length - 1 then swapIdx l 0 (l.length - 1) else l
  let l2 := l1.dropLast
  (popped, siftDownLoop cmp l2 0 l2.length)

/-! ## Frontier strategies -/

/-- Greedy best-first comparator: `_h(a) < _h(b)`. -/
def greedyCmp (a b : Node) : Bool :=
  decide (a.manhattanDistance < b.manhattanDistance)

/-- A* comparator: `_f(a) < _f(b)` with `f = g + h`. -/
def aStarCmp (a b : Node) : Bool :=
  decide (a.pathCost + a.manhattanDistance < b.pathCost + b.manhattanDistance)

/-- The four frontier variants with their underlying arrays:
`StackFrontier`, `QueueFrontier`, `GreedBestFrontier`, `AStarFrontier`. -/
inductive Frontier where
  | stack (l : List Node)
  | queue (l : List Node)
  | greedy (heap : List Node)
  | astar (heap : List Node)
deriving Repr

namespace Frontier

/-- The underlying array of nodes. -/
def nodes : Frontier → List Node
  | stack l => l
  | queue l => l
  | greedy h => h
  | astar h => h

/-- `add(node)`: list push for stack/queue, heap push for greedy/A*. -/
def add : Frontier → Node → Frontier
  | stack l, n => stack (l ++ [n])
  | queue l, n => queue (l ++ [n])
  | greedy h, n => greedy (heapPush greedyCmp h n)
  | astar h, n => astar (heapPush aStarCmp h n)

/-- `containers_state(state)`: linear scan for a node whose state equals
the given state. -/
def containers_state : Frontier → State → Bool
  | stack l, s => (l.find? fun x => State.equals x.state s).isSome
  | queue l, s => (l.find? fun x => State.equals x.state s).isSome
  | greedy h, s => (h.find? fun x => State.equals x.state s).isSome
  | astar h, s => (h.find? fun x => State.equals x.state s).isSome

/-- `empty()`. -/
def empty : Frontier → Bool
  | stack l => l.length == 0
  | queue l => l.length == 0
  | greedy h => h.length == 0
  | astar h => h.length == 0

/-- `remove()` with the error behaviour of each variant: stack/queue throw
`"empty frontier"` when empty; greedy/A* delegate to `PriorityQueue.pop`,
which returns `undefined` (here `none`) on an empty heap without failing. -/
def removeE : Frontier → Except String (Option Node × Frontier)
  | stack l =>
    if l.length == 0 then .error "empty frontier"
    else .ok (l.getLast?, stack l.dropLast)
  | queue l =>
    if l.length == 0 then .error "empty frontier"
    else .ok (l.head?, queue l.tail)
  | greedy h => .ok ((heapPop greedyCmp h).1, greedy (heapPop greedyCmp h).2)
  | astar h => .ok ((heapPop aStarCmp h).1, astar (heapPop aStarCmp h).2)

/-- `remove()` as a total function; the error branch is never taken by the
stepper because it checks `empty()` first. -/
def remove (f : Frontier) : Option Node × Frontier :=
  match removeE f with
  | .ok r => r
  | .error _ => (none, f)

/-- `getLabel(n)`: empty for the uninformed strategies, `h` for greedy,
`g+h` for A*. -/
def getLabel : Frontier → Node → String
  | stack _, _ => ""
  | queue _, _ => ""
  | greedy _, n => toString n.manhattanDistance
  | astar _, n => toString n.pathCost ++ "+" ++ toString n.manhattanDistance

end Frontier

/-- Strategy selector (which of the four frontier classes to instantiate). -/
inductive FrontierKind where
  | stack | queue | greedy | astar
deriving DecidableEq, Repr

/-- `new frontierClass()`. -/
def FrontierKind.instantiate : FrontierKind → Frontier
  | .stack => .stack []
  | .queue => .queue []
  | .greedy => .greedy []
  | .astar => .astar []

/-! ## The Maze class -/

/-- The immutable data computed by the `Maze` constructor. -/
structure Maze where
  height : Nat
  width : Nat
  start : State
  goal : State
deriving Repr

/-- The scan in the `Maze` constructor: iterate the cells in row-major
order keeping the start/goal found so far, failing on a duplicate. -/
def scanStep (maze : MazeData) (acc : Option State × Option State) (ij : Nat × Nat) :
    Except String (Option State × Option State) :=
  let cell := (maze.getD ij.1 []).getD ij.2 dfltCell
  if cell.type = MazeCellType.Start then
    match acc.1 with
    | some _ => .error "只能有一个起点"
    | none => .ok (some ((ij.1 : Int), (ij.2 : Int)), acc.2)
  else if cell.type = MazeCellType.Goal then
    match acc.2 with
    | some _ => .error "只能有一个终点"
    | none => .ok (acc.1, some ((ij.1 : Int), (ij.2 : Int)))
  else .ok acc

/-- The `Maze` constructor: record height and width, scan for the unique
start and goal, and fail when either is missing or duplicated. -/
def Maze.make (maze : MazeData) : Except String Maze := do
  let height := maze.length
  let width := (maze.headD []).length
  let pairs := (List.range height).flatMap fun i => (List.range width).map fun j => (i, j)
  let r ← pairs.foldlM (scanStep maze) (none, none)
  match r.1 with
  | none => .error "没有起点"
  | some s =>
    match r.2 with
    | none => .error "没有终点"
    | some g => .ok ⟨height, width, s, g⟩

/-- The `candidates` array built by `Maze.neighbors`: the four moves in
the fixed order Up, Down, Left, Right. -/
def candidateList (s : State) : List (Action × State) :=
  [(Action.Up, (s.1 - 1, s.2)), (Action.Down, (s.1 + 1, s.2)),
    (Action.Left, (s.1, s.2 - 1)), (Action.Right, (s.1, s.2 + 1))]

/-- `Maze.neighbors(state)`: the four candidates filtered to in-bounds
non-wall targets. -/
def neighbors (m : Maze) (maze : MazeData) (s : State) : List (Action × State) :=
  (candidateList s).filter fun c =>
    if c.2.1 < 0 ∨ (m.height : Int) ≤ c.2.1 then false
    else if c.2.2 < 0 ∨ (m.width : Int) ≤ c.2.2 then false
    else decide (((maze.getD c.2.1.toNat []).getD c.2.2.toNat dfltCell).type ≠ MazeCellType.Wall)

/-! ## The search stepper -/

/-- The mutable state read and written by the `next` closure returned by
`Maze.solve`: the maze annotations, the frontier, the explored counter and
the outcome.  `solution` records the node popped at `FoundSolution` (the
closure's local `node` whose parent chain is marked as the solution
path). -/
structure SolveState where
  maze : MazeData
  frontier : Frontier
  numExplored : Nat
  solutionType : SolutionType
  solution : Option Node
deriving Repr

/-- The `while (_node.parent !== null)` walk marking the parent chain. -/
def markParents : MazeData → Node → MazeData
  | maze, .mk _ none _ _ _ => maze
  | maze, .mk _ (some p) _ _ _ =>
    markParents (setCellState maze p.state MazeCellState.SolutionPath) p

/-- One iteration of the neighbor expansion loop in the `next` closure. -/
def expandOne (m : Maze) (node : Node) (acc : MazeData × Frontier)
    (c : Action × State) : MazeData × Frontier :=
  if acc.2.containers_state c.2 = false ∧ getCellState acc.1 c.2 ≠ MazeCellState.Explored then
    let child := Node.mk c.2 (some node) (some c.1)
      (calcManhattanDistance c.2 m.goal) (node.pathCost + 1)
    let frontier' := acc.2.add child
    let maze' := setCellLabel acc.1 child.state (frontier'.getLabel child)
    (setCellState maze' c.2 MazeCellState.Frontier, frontier')
  else acc

/-- The `next` closure of `Maze.solve`: one step of the search. -/
def step (m : Maze) (s : SolveState) : SolveState :=
  if s.frontier.empty then
    { s with solutionType := SolutionType.NoSolution }
  else
    match s.frontier.remove with
    | (none, _) => s
    | (some node, frontier') =>
      if State.equals node.state m.goal then
        let maze1 := setCellState s.maze node.state MazeCellState.SolutionPath
        { maze := markParents maze1 node, frontier := frontier',
          numExplored := s.numExplored + 1,
          solutionType := SolutionType.FoundSolution, solution := some node }
      else
        let maze1 := setCellState s.maze node.state MazeCellState.Explored
        let mf := (neighbors m maze1 node.state).foldl (expandOne m node) (maze1, frontier')
        { maze := mf.1, frontier := mf.2, numExplored := s.numExplored + 1,
          solutionType := s.solutionType, solution := s.solution }

/-- The `next` closure with its exception behaviour made explicit: the only
throw site reachable from `next` is `remove()` on an empty frontier, which
is guarded by the initial `empty()` test. -/
def stepE (m : Maze) (s : SolveState) : Except String SolveState :=
  if s.frontier.empty then
    .ok { s with solutionType := SolutionType.NoSolution }
  else do
    let r ← s.frontier.removeE
    match r with
    | (none, _) => .ok s
    | (some node, frontier') =>
      if State.equals node.state m.goal then
        let maze1 := setCellState s.maze node.state MazeCellState.SolutionPath
        .ok { maze := markParents maze1 node, frontier := frontier',
              numExplored := s.numExplored + 1,
              solutionType := SolutionType.FoundSolution, solution := some node }
      else
        let maze1 := setCellState s.maze node.state MazeCellState.Explored
        let mf := (neighbors m maze1 node.state).foldl (expandOne m node) (maze1, frontier')
        .ok { maze := mf.1, frontier := mf.2, numExplored := s.numExplored + 1,
              solutionType := s.solutionType, solution := s.solution }

/-- The initialization performed by `Maze.solve` before returning `next`:
root node, fresh frontier, start cell marked `Frontier`. -/
def solveInit (m : Maze) (maze : MazeData) (kind : FrontierKind) : SolveState :=
  let root := Node.mk m.start none none (calcManhattanDistance m.start m.goal) 0
  { maze := setCellState maze m.start MazeCellState.Frontier,
    frontier := kind.instantiate.add root,
    numExplored := 0, solutionType := SolutionType.Continue, solution := none }

/-- `n` invocations of the `next` closure. -/
def runSteps (m : Maze) : Nat → SolveState → SolveState
  | 0, s => s
  | n + 1, s => runSteps m n (step m s)

/-! ## Template parsing and serialization -/

/-- The regex `/\r?\n/` consumes one optional `'\r'` before each `'\n'`;
after splitting on `'\n'` this amounts to dropping one trailing `'\r'`. -/
def dropTrailingCR (cs : List Char) : List Char :=
  if cs.getLast? = some '\r' then cs.dropLast else cs

/-- `template.split(/\r?\n/)`. -/
def splitLines (cs : List Char) : List (List Char) :=
  (cs.splitOn '\n').map dropTrailingCR

/-- One character of `buildMaze`: `#`, `A`, `B`, space, or a construction
error. -/
def parseCell (c : Char) : Except String MazeCell :=
  if c = '#' then .ok ⟨MazeCellType.Wall, MazeCellState.Unreachable, none⟩
  else if c = 'A' then .ok ⟨MazeCellType.Start, MazeCellState.Unexplored, none⟩
  else if c = 'B' then .ok ⟨MazeCellType.Goal, MazeCellState.Unexplored, none⟩
  else if c = ' ' then .ok ⟨MazeCellType.Space, MazeCellState.Unexplored, none⟩
  else .error "invalid template"

/-- `buildMaze(template)` on the character list of the template. -/
def buildMazeChars (cs : List Char) : Except String MazeData :=
  (splitLines cs).mapM fun row => row.mapM parseCell

/-- `buildMaze(template)`. -/
def buildMaze (template : String) : Except String MazeData :=
  buildMazeChars template.data

/-- The cell-to-character mapping of `mazeToTemplate`. -/
def cellChar (c : MazeCell) : Char :=
  match c.type with
  | MazeCellType.Wall => '#'
  | MazeCellType.Start => 'A'
  | MazeCellType.Goal => 'B'
  | MazeCellType.Space => ' '

/-- `mazeToTemplate(maze)` as a character list: rows of cell characters
joined by newlines. -/
def mazeTemplateChars (maze : MazeData) : List Char :=
  List.intercalate ['\n'] (maze.map fun row => row.map cellChar)

/-- `mazeToTemplate(maze)`. -/
def mazeToTemplate (maze : MazeData) : String :=
  ⟨mazeTemplateChars maze⟩

/-! ## Reset -/

/-- The per-cell effect of `reset()`: walls become `Unreachable`, all other
cells `Unexplored`, and the label is cleared to the empty string; the cell
type is untouched. -/
def resetCell (c : MazeCell) : MazeCell :=
  { c with
    state := if c.type = MazeCellType.Wall then MazeCellState.Unreachable
      else MazeCellState.Unexplored,
    label := some "" }

/-- `reset()` restricted to its effect on the maze data. -/
def reset (maze : MazeData) : MazeData :=
  maze.map fun row => row.map resetCell

/-- `doStart`'s `demoRunner`: it invokes the `next` closure only while the
outcome is `Continue`; afterwards it stops the animation instead. -/
def demoRunnerStep (m : Maze) (s : SolveState) : SolveState :=
  if s.solutionType = SolutionType.Continue then step m s else s

/-! ## Specification-side notions

These definitions come from the specification's vocabulary (bounds,
adjacency, paths, shortest paths); the theorems below relate them to the
program definitions above. -/

/-- A state lies within the grid bounds recorded by the `Maze`. -/
def InBoundsP (m : Maze) (t : State) : Prop :=
  0 ≤ t.1 ∧ t.1 < (m.height : Int) ∧ 0 ≤ t.2 ∧ t.2 < (m.width : Int)

instance (m : Maze) (t : State) : Decidable (InBoundsP m t) := by
  unfold InBoundsP; infer_instance

/-- The cell type at a state (the totalized `maze[row][col].type`). -/
def typeAt (maze : MazeData) (t : State) : MazeCellType :=
  ((cellAt? maze t).getD dfltCell).type

/-- The cell-type layout of a grid (the part of the grid that the search
never mutates). -/
def typesOf (maze : MazeData) : List (List MazeCellType) :=
  maze.map fun row => row.map MazeCell.type

/-- Spec-side adjacency: two in-bounds non-wall cells one orthogonal move
apart. -/
def AdjacentP (m : Maze) (maze : MazeData) (a b : State) : Prop :=
  InBoundsP m a ∧ InBoundsP m b ∧ typeAt maze a ≠ MazeCellType.Wall ∧
    typeAt maze b ≠ MazeCellType.Wall ∧ calcManhattanDistance a b = 1

instance (m : Maze) (maze : MazeData) (a b : State) : Decidable (AdjacentP m maze a b) := by
  unfold AdjacentP; infer_instance

/-- Spec-side paths: `PathLen m maze a b k` holds when there is a path of
`k` orthogonal moves through in-bounds non-wall cells from `a` to `b`. -/
inductive PathLen (m : Maze) (maze : MazeData) : State → State → Nat → Prop where
  | refl (s : State) (h₁ : InBoundsP m s) (h₂ : typeAt maze s ≠ MazeCellType.Wall) :
      PathLen m maze s s 0
  | cons (s t u : State) (k : Nat) (hadj : AdjacentP m maze s t)
      (hp : PathLen m maze t u k) : PathLen m maze s u (k + 1)

/-- The true minimum number of edges between two states. -/
def IsDistance (m : Maze) (maze : MazeData) (a b : State) (d : Nat) : Prop :=
  IsLeast {k | PathLen m maze a b k} d

/-- Executable path check used to exhibit concrete paths. -/
def listPathB (m : Maze) (maze : MazeData) : List State → Bool
  | [] => false
  | [s] => decide (InBoundsP m s) && decide (typeAt maze s ≠ MazeCellType.Wall)
  | s :: t :: rest => decide (AdjacentP m maze s t) && listPathB m maze (t :: rest)

/-- The number of cells of a given type in a grid. -/
def countType (maze : MazeData) (ty : MazeCellType) : Nat :=
  (maze.map fun row => row.countP fun c => c.type == ty).sum

/-- The cell produced by parsing the template character of a cell: same
type, freshly initialized state, no label. -/
def freshCellOf (c : MazeCell) : MazeCell :=
  { type := c.type,
    state := if c.type = MazeCellType.Wall then MazeCellState.Unreachable
      else MazeCellState.Unexplored,
    label := none }

/-- The heap property of the priority queue: no element is ranked strictly
before its parent by the comparator (equivalently, the parent comes first
or the two are incomparable). -/
def HeapProp (cmp : α → α → Bool) (l : List α) : Prop :=
  ∀ i, 0 < i → i < l.length → greaterAt cmp l i (parentIdx i) = false

/-- An operation on the priority queue. -/
inductive HeapOp (α : Type) where
  | push (v : α)
  | pop

/-- Apply one queue operation to the heap array. -/
def applyHeapOp (cmp : α → α → Bool) (l : List α) : HeapOp α → List α
  | .push v => heapPush cmp l v
  | .pop => (heapPop cmp l).2

/-- The heap array after a sequence of push/pop operations starting from
the empty queue. -/
def runHeapOps (cmp : α → α → Bool) (ops : List (HeapOp α)) : List α :=
  ops.foldl (applyHeapOp cmp) []

/-- The sift-up loop invariant: every non-root element satisfies the heap
property with respect to its parent, except possibly the element at `k`;
moreover the children of `k` are not ranked before `k`'s parent. -/
def UpInv (cmp : α → α → Bool) (l : List α) (k : Nat) : Prop :=
  (∀ i, 0 < i → i < l.length → i ≠ k → greaterAt cmp l i (parentIdx i) = false) ∧
  (0 < k → ∀ i, i < l.length → parentIdx i = k →
    greaterAt cmp l i (parentIdx k) = false)

/-- The sift-down loop invariant: every non-root element satisfies the
heap property with respect to its parent, except possibly the children of
`k`; moreover the children of `k` are not ranked before `k`'s parent. -/
def DownInv (cmp : α → α → Bool) (l : List α) (k : Nat) : Prop :=
  (∀ i, 0 < i → i < l.length → parentIdx i ≠ k → greaterAt cmp l i (parentIdx i) = false) ∧
  (0 < k → ∀ i, i < l.length → parentIdx i = k →
    greaterAt cmp l i (parentIdx k) = false)

/-- The strict natural-number comparator used to exercise the priority
queue on concrete inputs. -/
def natLtB (a b : Nat) : Bool := decide (a < b)

/-! ## Concrete grids used by the counterexamples and witnesses -/

/-- The 2×2 grid with template `"AB\n  "`. -/
def mzC10 : MazeData :=
  match buildMaze "AB\n  " with
  | .ok mz => mz
  | .error _ => []

/-- The `Maze` value constructed over `mzC10`. -/
def mC10 : Maze := ⟨2, 2, (0, 0), (0, 1)⟩

/-- An 8×3 grid on which the A* strategy returns a suboptimal path: two
walls at row 5 force a detour that A* discovers late because a frontier
node is never updated when the same state is rediscovered with a smaller
path cost. -/
def mzCE : MazeData :=
  match buildMaze "   \nA  \n   \n   \n   \n ##\n   \n  B" with
  | .ok mz => mz
  | .error _ => []

/-- The `Maze` value constructed over `mzCE`. -/
def mCE : Maze := ⟨8, 3, (1, 0), (7, 2)⟩

/-- A shortest path (8 edges) between start and goal of `mzCE`. -/
def pathCE : List State :=
  [(1, 0), (2, 0), (3, 0), (4, 0), (5, 0), (6, 0), (7, 0), (7, 1), (7, 2)]

/-! ## Invariants of the search run

These definitions are spec-side vocabulary for stating and proving the
run-level claims: validity of parent chains, the marks maintained on the
grid, the measure that forces termination, and the `demoRunner` loop that
drives the `next` closure. -/

/-- Validity of the parent chain of a node: the chain descends from the
root node at the start cell, each link is one orthogonal move between
in-bounds non-wall cells, and `pathCost` counts the links. -/
def ChainOK (m : Maze) (maze : MazeData) : Node → Prop
  | .mk st none _ _ c =>
    st = m.start ∧ c = 0 ∧ InBoundsP m st ∧ typeAt maze st ≠ MazeCellType.Wall
  | .mk st (some p) _ _ c =>
    InBoundsP m st ∧ typeAt maze st ≠ MazeCellType.Wall ∧
      AdjacentP m maze p.state st ∧ c = p.pathCost + 1 ∧ ChainOK m maze p

/-- The reconstructed solution path: the states of the parent chain, from
the node back to the root. -/
def chainStates : Node → List State
  | .mk st none _ _ _ => [st]
  | .mk st (some p) _ _ _ => st :: chainStates p

/-- A cell already seen by the search: marked `Frontier` or `Explored`. -/
def DiscoveredAt (maze : MazeData) (p : State) : Prop :=
  getCellState maze p = MazeCellState.Frontier ∨
    getCellState maze p = MazeCellState.Explored

instance (maze : MazeData) (p : State) : Decidable (DiscoveredAt maze p) := by
  unfold DiscoveredAt
  infer_instance

/-- A grid none of whose cells is marked `Frontier` or `Explored` yet
(for example a freshly parsed or freshly reset grid). -/
def FreshMarks (maze : MazeData) : Prop :=
  ∀ row ∈ maze, ∀ c ∈ row, c.state ≠ MazeCellState.Frontier ∧
    c.state ≠ MazeCellState.Explored

instance (maze : MazeData) : Decidable (FreshMarks maze) := by
  unfold FreshMarks
  infer_instance

/-- The invariant maintained by the `next` closure while the outcome is
`Continue`, stated over the fixed cell-type layout of the initial grid
`maze0`: the layout is unchanged, every frontier node carries a valid
parent chain, frontier states are pairwise distinct, a cell is marked
`Frontier` exactly when some frontier node sits on it, every `Explored`
cell is a non-wall non-goal cell all of whose neighbors have been
discovered, and the start cell has been discovered. -/
structure SearchInv (m : Maze) (maze0 : MazeData) (s : SolveState) : Prop where
  types : typesOf s.maze = typesOf maze0
  chain : ∀ n ∈ s.frontier.nodes, ChainOK m maze0 n
  nodupStates : (s.frontier.nodes.map Node.state).Nodup
  marks : ∀ p : State, getCellState s.maze p = MazeCellState.Frontier ↔
    ∃ n ∈ s.frontier.nodes, n.state = p
  expl : ∀ p : State, getCellState s.maze p = MazeCellState.Explored →
    InBoundsP m p ∧ typeAt maze0 p ≠ MazeCellType.Wall ∧ p ≠ m.goal ∧
      ∀ q : State, AdjacentP m maze0 p q → DiscoveredAt s.maze q
  startDisc : DiscoveredAt s.maze m.start

/-- The positional facts about start and goal that the `Maze` constructor
establishes. -/
structure MazeFacts (m : Maze) (maze0 : MazeData) : Prop where
  sb : InBoundsP m m.start
  stype : typeAt maze0 m.start = MazeCellType.Start
  gb : InBoundsP m m.goal
  gtype : typeAt maze0 m.goal = MazeCellType.Goal

/-- The additional invariant of the Queue (BFS) frontier: the stored list,
path costs nondecreasing from front to back and spanning at most two
consecutive values, every queued node's cost equal to the true distance of
its state from the start, and level completeness — every state whose
distance is at most the cost at the head of the queue has already been
discovered. -/
structure QueueInv (m : Maze) (maze0 : MazeData) (s : SolveState)
    (q : List Node) : Prop where
  isQueue : s.frontier = Frontier.queue q
  mono : q.Pairwise fun a b => a.pathCost ≤ b.pathCost
  gap : ∀ a ∈ q, ∀ b ∈ q, b.pathCost ≤ a.pathCost + 1
  dist : ∀ n ∈ q, IsDistance m maze0 m.start n.state n.pathCost
  level : ∀ p c, IsDistance m maze0 m.start p c →
    (∀ hd ∈ q.head?, c ≤ hd.pathCost) → DiscoveredAt s.maze p

/-- The invariant carried across `demoRunner` ticks: the search invariant
while running, valid chains and distinct states in the frontier at all
times, and — once the outcome is `FoundSolution` — a recorded solution
node sitting on the goal with a valid parent chain. -/
def RunInv (m : Maze) (maze0 : MazeData) (s : SolveState) : Prop :=
  (s.solutionType = SolutionType.Continue → SearchInv m maze0 s) ∧
  (∀ n ∈ s.frontier.nodes, ChainOK m maze0 n) ∧
  (s.frontier.nodes.map Node.state).Nodup ∧
  (s.solutionType = SolutionType.FoundSolution →
    ∃ nd, s.solution = some nd ∧ nd.state = m.goal ∧ ChainOK m maze0 nd)

/-- The strengthened invariant for the Queue (BFS) strategy on a connected
grid: the queue invariant while running, no `NoSolution` outcome ever, and
at `FoundSolution` a solution node whose cost is the true distance. -/
def RunInvQ (m : Maze) (maze0 : MazeData) (s : SolveState) : Prop :=
  (s.solutionType = SolutionType.Continue →
    SearchInv m maze0 s ∧ ∃ q, QueueInv m maze0 s q) ∧
  (s.solutionType = SolutionType.FoundSolution →
    ∃ nd, s.solution = some nd ∧ nd.state = m.goal ∧ ChainOK m maze0 nd ∧
      IsDistance m maze0 m.start m.goal nd.pathCost) ∧
  s.solutionType ≠ SolutionType.NoSolution ∧
  s.solutionType ≠ SolutionType.Pending

/-- The number of cells currently marked `Explored`. -/
def exploredCount (maze : MazeData) : Nat :=
  (maze.map fun row => row.countP fun c => c.state == MazeCellState.Explored).sum

/-- The total number of cells of the grid. -/
def totalCells (maze : MazeData) : Nat := (maze.map List.length).sum

/-- The in-bounds states whose cell type is not Wall, in row-major
order. -/
def nonWallCells (m : Maze) (maze : MazeData) : List State :=
  ((List.range m.height).flatMap fun i =>
    (List.range m.width).map fun j => (Int.ofNat i, Int.ofNat j)).filter
    fun p => !(typeAt maze p == MazeCellType.Wall)

/-- The `demoRunner` loop of `doStart`: `n` animation ticks, each invoking
the `next` closure only while the outcome is `Continue`. -/
def runDemo (m : Maze) : Nat → SolveState → SolveState
  | 0, s => s
  | n + 1, s => runDemo m n (demoRunnerStep m s)

/-! ## List lemmas -/

theorem length_listModify (f : α → α) (n : Nat) (l : List α) :
    (listModify f n l).length = l.length := by
  induction l generalizing n with
  | nil => cases n <;> rfl
  | cons a as ih =>
    cases n with
    | zero => rfl
    | succ n => simpa [listModify] using ih n

theorem get?_listModify (f : α → α) (n : Nat) (l : List α) (m : Nat) :
    (listModify f n l).get? m = if m = n then (l.get? m).map f else l.get? m := by
  induction l generalizing n m with
  | nil => simp [listModify]
  | cons a as ih =>
    cases n with
    | zero =>
      cases m with
      | zero => simp [listModify]
      | succ m => simp [listModify]
    | succ n =>
      cases m with
      | zero => simp [listModify]
      | succ m => simpa [listModify, Nat.succ_inj] using ih n m

theorem map_listModify_eq (f : α → β) (g : α → α) (hfg : ∀ a, f (g a) = f a)
    (n : Nat) (l : List α) : (listModify g n l).map f = l.map f := by
  induction l generalizing n with
  | nil => cases n <;> rfl
  | cons a as ih =>
    cases n with
    | zero => simp [listModify, hfg]
    | succ n => simp [listModify, ih n]

theorem getD_range_map (l : List α) (d : α) :
    (List.range l.length).map (fun j => l.getD j d) = l := by
  induction l with
  | nil => rfl
  | cons a as ih =>
    rw [List.length_cons, List.range_succ_eq_map, List.map_cons, List.map_map]
    have h2 : ((fun j => (a :: as).getD j d) ∘ Nat.succ) = (fun j => as.getD j d) := by
      funext j
      simp [List.getD]
    rw [h2, ih]
    rfl

/-! ## Cell access lemmas -/

theorem cellAt?_eq_get? (maze : MazeData) (t : State) (ht : 0 ≤ t.1 ∧ 0 ≤ t.2) :
    cellAt? maze t = ((maze.get? t.1.toNat).getD []).get? t.2.toNat := by
  unfold cellAt?
  rw [if_pos ht, List.getD_eq_getD_get?]

theorem cellAt?_modifyCellAt (maze : MazeData) (s t : State) (f : MazeCell → MazeCell) :
    cellAt? (modifyCellAt maze s f) t =
      if t = s then (cellAt? maze t).map f else cellAt? maze t := by
  by_cases ht : 0 ≤ t.1 ∧ 0 ≤ t.2
  · by_cases hs : 0 ≤ s.1 ∧ 0 ≤ s.2
    · rw [cellAt?_eq_get? _ _ ht, cellAt?_eq_get? _ _ ht]
      unfold modifyCellAt
      rw [if_pos hs, get?_listModify]
      by_cases hts : t = s
      · subst hts
        rw [if_pos rfl, if_pos rfl]
        cases hrow : maze.get? t.1.toNat with
        | none => rfl
        | some row =>
          simp only [Option.map_some', Option.getD_some]
          rw [get?_listModify, if_pos rfl]
      · rw [if_neg hts]
        by_cases h1 : t.1.toNat = s.1.toNat
        · have h2n : t.2.toNat ≠ s.2.toNat := by
            have h1' : t.1 = s.1 := by
              have := Int.toNat_of_nonneg ht.1
              have := Int.toNat_of_nonneg hs.1
              omega
            have h2 : t.2 ≠ s.2 := fun h2' => hts (Prod.ext h1' h2')
            intro h
            have := Int.toNat_of_nonneg ht.2
            have := Int.toNat_of_nonneg hs.2
            omega
          rw [h1, if_pos rfl]
          cases hrow : maze.get? s.1.toNat with
          | none => rfl
          | some row =>
            simp only [Option.map_some', Option.getD_some]
            rw [get?_listModify, if_neg h2n]
        · rw [if_neg h1]
    · unfold modifyCellAt
      rw [if_neg hs]
      have hts : t ≠ s := by
        rintro rfl
        exact hs ht
      rw [if_neg hts]
  · unfold cellAt?
    rw [if_neg ht, if_neg ht]
    by_cases hts : t = s
    · rw [if_pos hts]
      rfl
    · rw [if_neg hts]

theorem cellAt?_setCellState (maze : MazeData) (s t : State) (cs : MazeCellState) :
    cellAt? (setCellState maze s cs) t =
      if t = s then (cellAt? maze t).map (fun c => { c with state := cs })
      else cellAt? maze t :=
  cellAt?_modifyCellAt maze s t _

theorem cellAt?_setCellLabel (maze : MazeData) (s t : State) (lab : String) :
    cellAt? (setCellLabel maze s lab) t =
      if t = s then (cellAt? maze t).map (fun c => { c with label := some lab })
      else cellAt? maze t :=
  cellAt?_modifyCellAt maze s t _

theorem getCellState_eq (maze : MazeData) (s : State) :
    getCellState maze s = ((cellAt? maze s).map MazeCell.state).getD MazeCellState.Unexplored :=
  rfl

theorem getCellState_setCellState_self (maze : MazeData) (s : State) (cs : MazeCellState)
    (h : (cellAt? maze s).isSome) :
    getCellState (setCellState maze s cs) s = cs := by
  rw [getCellState_eq, cellAt?_setCellState, if_pos rfl]
  obtain ⟨c, hc⟩ := Option.isSome_iff_exists.mp h
  rw [hc]
  rfl

theorem getCellState_setCellState_ne (maze : MazeData) (s t : State) (cs : MazeCellState)
    (h : t ≠ s) :
    getCellState (setCellState maze s cs) t = getCellState maze t := by
  rw [getCellState_eq, cellAt?_setCellState, if_neg h, getCellState_eq]

theorem getCellState_setCellLabel (maze : MazeData) (s t : State) (lab : String) :
    getCellState (setCellLabel maze s lab) t = getCellState maze t := by
  rw [getCellState_eq, cellAt?_setCellLabel, getCellState_eq]
  by_cases hts : t = s
  · rw [if_pos hts]
    cases cellAt? maze t <;> rfl
  · rw [if_neg hts]

/-! ## Frame lemmas: the search never changes the cell-type layout -/

theorem typesOf_modifyCellAt (maze : MazeData) (s : State) (f : MazeCell → MazeCell)
    (hf : ∀ c, (f c).type = c.type) :
    typesOf (modifyCellAt maze s f) = typesOf maze := by
  unfold modifyCellAt typesOf
  by_cases hs : 0 ≤ s.1 ∧ 0 ≤ s.2
  · rw [if_pos hs]
    refine map_listModify_eq _ _ (fun row => ?_) _ _
    exact map_listModify_eq _ _ hf _ _
  · rw [if_neg hs]

theorem typesOf_setCellState (maze : MazeData) (s : State) (cs : MazeCellState) :
    typesOf (setCellState maze s cs) = typesOf maze :=
  typesOf_modifyCellAt maze s _ fun _ => rfl

theorem typesOf_setCellLabel (maze : MazeData) (s : State) (lab : String) :
    typesOf (setCellLabel maze s lab) = typesOf maze :=
  typesOf_modifyCellAt maze s _ fun _ => rfl

theorem typesOf_markParents : ∀ (n : Node) (maze : MazeData),
    typesOf (markParents maze n) = typesOf maze
  | .mk _ none _ _ _, _ => rfl
  | .mk _ (some p) _ _ _, maze => by
    rw [markParents, typesOf_markParents p, typesOf_setCellState]

theorem typesOf_expandOne (m : Maze) (node : Node) (acc : MazeData × Frontier)
    (c : Action × State) :
    typesOf (expandOne m node acc c).1 = typesOf acc.1 := by
  unfold expandOne
  by_cases h :
      acc.2.containers_state c.2 = false ∧ getCellState acc.1 c.2 ≠ MazeCellState.Explored
  · rw [if_pos h]
    simp only
    rw [typesOf_setCellState, typesOf_setCellLabel]
  · rw [if_neg h]

theorem typesOf_expand_foldl (m : Maze) (node : Node) (l : List (Action × State))
    (acc : MazeData × Frontier) :
    typesOf (l.foldl (expandOne m node) acc).1 = typesOf acc.1 := by
  induction l generalizing acc with
  | nil => rfl
  | cons c cs ih => rw [List.foldl_cons, ih, typesOf_expandOne]

theorem typesOf_step (m : Maze) (s : SolveState) :
    typesOf (step m s).maze = typesOf s.maze := by
  unfold step
  by_cases he : s.frontier.empty = true
  · rw [if_pos he]
  · rw [if_neg he]
    rcases hr : s.frontier.remove with ⟨node?, frontier'⟩
    cases node? with
    | none => rfl
    | some node =>
      dsimp only
      by_cases hg : State.equals node.state m.goal = true
      · rw [if_pos hg]
        dsimp only
        rw [typesOf_markParents, typesOf_setCellState]
      · rw [if_neg hg]
        dsimp only
        rw [typesOf_expand_foldl, typesOf_setCellState]

theorem typesOf_runSteps (m : Maze) (n : Nat) (s : SolveState) :
    typesOf (runSteps m n s).maze = typesOf s.maze := by
  induction n generalizing s with
  | zero => rfl
  | succ n ih => rw [runSteps, ih, typesOf_step]

theorem get?_map_eq (f : α → β) (l : List α) (n : Nat) :
    (l.map f).get? n = (l.get? n).map f := by
  induction l generalizing n with
  | nil => cases n <;> rfl
  | cons a as ih =>
    cases n with
    | zero => rfl
    | succ n => simp only [List.map_cons, List.get?_cons_succ, ih n]

/-- The totalized `maze[row][col].type` agrees with the lookup performed
inside `neighbors` on nonnegative coordinates. -/
theorem typeAt_eq_getD (maze : MazeData) (t : State) (ht : 0 ≤ t.1 ∧ 0 ≤ t.2) :
    typeAt maze t = ((maze.getD t.1.toNat []).getD t.2.toNat dfltCell).type := by
  unfold typeAt
  rw [cellAt?_eq_get? maze t ht, List.getD_eq_getD_get?, List.getD_eq_getD_get?]

/-- `neighbors` reads the maze only through its cell-type layout. -/
theorem neighbors_congr (m : Maze) {maze₁ maze₂ : MazeData}
    (h : typesOf maze₁ = typesOf maze₂) (s : State) :
    neighbors m maze₁ s = neighbors m maze₂ s := by
  unfold neighbors
  refine List.filter_congr fun c _ => ?_
  have key : ∀ maze : MazeData, ∀ r c : Nat,
      ((maze.getD r []).getD c dfltCell).type =
        ((typesOf maze).getD r []).getD c MazeCellType.Space := by
    intro maze r c
    unfold typesOf
    rw [show ([] : List MazeCellType) = List.map MazeCell.type [] from rfl, List.getD_map,
      show MazeCellType.Space = dfltCell.type from rfl, List.getD_map]
  by_cases h1 : c.2.1 < 0 ∨ (m.height : Int) ≤ c.2.1
  · rw [if_pos h1, if_pos h1]
  · rw [if_neg h1, if_neg h1]
    by_cases h2 : c.2.2 < 0 ∨ (m.width : Int) ≤ c.2.2
    · rw [if_pos h2, if_pos h2]
    · rw [if_neg h2, if_neg h2, key, key, h]

/-! ## Totality of the step function -/

/-- `remove()` on a non-empty frontier never raises. -/
theorem removeE_isOk (f : Frontier) (h : f.empty = false) :
    f.removeE = .ok f.remove := by
  cases f with
  | stack l =>
    simp only [Frontier.empty] at h
    simp [Frontier.removeE, Frontier.remove, h]
  | queue l =>
    simp only [Frontier.empty] at h
    simp [Frontier.removeE, Frontier.remove, h]
  | greedy heap => rfl
  | astar heap => rfl

/-- One invocation of the `next` closure never raises: the empty check in
step rule 1 guards the only reachable throw site. -/
theorem stepE_eq_step (m : Maze) (s : SolveState) :
    stepE m s = .ok (step m s) := by
  unfold stepE step
  by_cases he : s.frontier.empty = true
  · rw [if_pos he, if_pos he]
  · rw [if_neg he, if_neg he]
    rw [removeE_isOk s.frontier (by simpa using he)]
    show Except.bind _ _ = _
    rw [Except.bind]
    rcases s.frontier.remove with ⟨node?, frontier'⟩
    cases node? with
    | none => rfl
    | some node =>
      dsimp only
      by_cases hg : State.equals node.state m.goal = true
      · rw [if_pos hg, if_pos hg]
      · rw [if_neg hg, if_neg hg]

/-! ## Claim theorems -/

/-- C4 (counterexample): `remove()` on an empty A* frontier does not fail
with the "empty frontier" error; it returns a value (`undefined`, modelled
as `none`), because `PriorityQueue.pop` on an empty heap returns
`undefined` without any emptiness check. -/
theorem C4_counterexample :
    (Frontier.astar []).empty = true ∧
      (Frontier.astar []).removeE = .ok (none, Frontier.astar []) :=
  ⟨rfl, rfl⟩

/-- C4 (amended): calling `remove()` on an empty frontier fails with the
"empty frontier" error for the Stack and Queue variants; for the Greedy
and A* variants it instead returns `undefined` (no error), since
`PriorityQueue.pop` silently returns `undefined` on an empty heap. -/
theorem C4_remove_empty_behaviour :
    (∀ l : List Node, (Frontier.stack l).empty = true →
      (Frontier.stack l).removeE = .error "empty frontier") ∧
    (∀ l : List Node, (Frontier.queue l).empty = true →
      (Frontier.queue l).removeE = .error "empty frontier") ∧
    (∀ l : List Node, (Frontier.greedy l).empty = true →
      (Frontier.greedy l).removeE = .ok (none, Frontier.greedy l)) ∧
    (∀ l : List Node, (Frontier.astar l).empty = true →
      (Frontier.astar l).removeE = .ok (none, Frontier.astar l)) := by
  refine ⟨fun l hl => ?_, fun l hl => ?_, fun l hl => ?_, fun l hl => ?_⟩
  · simp only [Frontier.removeE]
    rw [if_pos (by simpa [Frontier.empty] using hl)]
  · simp only [Frontier.removeE]
    rw [if_pos (by simpa [Frontier.empty] using hl)]
  · have hnil : l = [] := by
      have := hl
      unfold Frontier.empty at this
      simpa using this
    subst hnil
    rfl
  · have hnil : l = [] := by
      have := hl
      unfold Frontier.empty at this
      simpa using this
    subst hnil
    rfl

/-- C4 (witness): the four behaviours at the concrete empty frontiers. -/
theorem C4_remove_empty_witness :
    (Frontier.stack []).removeE = .error "empty frontier" ∧
    (Frontier.queue []).removeE = .error "empty frontier" ∧
    (Frontier.greedy []).removeE = .ok (none, Frontier.greedy []) ∧
    (Frontier.astar []).removeE = .ok (none, Frontier.astar []) :=
  ⟨C4_remove_empty_behaviour.1 [] rfl, C4_remove_empty_behaviour.2.1 [] rfl,
    C4_remove_empty_behaviour.2.2.1 [] rfl, C4_remove_empty_behaviour.2.2.2 [] rfl⟩

/-- C5: `neighbors(state)` returns exactly the candidates among
Up=(row-1,col), Down=(row+1,col), Left=(row,col-1), Right=(row,col+1)
that are in bounds and whose cell type is not Wall, preserving the fixed
order Up, Down, Left, Right (it is a sublist of the ordered candidate
list). -/
theorem C5_neighbors_exact (m : Maze) (maze : MazeData) (s : State) :
    (neighbors m maze s).Sublist (candidateList s) ∧
    ∀ a : Action, ∀ t : State,
      ((a, t) ∈ neighbors m maze s ↔
        ((a, t) ∈ candidateList s ∧ InBoundsP m t ∧
          typeAt maze t ≠ MazeCellType.Wall)) := by
  constructor
  · exact List.filter_sublist _
  · intro a t
    unfold neighbors
    rw [List.mem_filter]
    refine and_congr_right fun _ => ?_
    show (if t.1 < 0 ∨ (m.height : Int) ≤ t.1 then false
      else if t.2 < 0 ∨ (m.width : Int) ≤ t.2 then false
      else decide (((maze.getD t.1.toNat []).getD t.2.toNat dfltCell).type
        ≠ MazeCellType.Wall)) = true ↔ _
    by_cases h1 : t.1 < 0 ∨ (m.height : Int) ≤ t.1
    · rw [if_pos h1]
      constructor
      · intro hf
        exact absurd hf (by simp)
      · rintro ⟨hib, -⟩
        exfalso
        unfold InBoundsP at hib
        omega
    · rw [if_neg h1]
      by_cases h2 : t.2 < 0 ∨ (m.width : Int) ≤ t.2
      · rw [if_pos h2]
        constructor
        · intro hf
          exact absurd hf (by simp)
        · rintro ⟨hib, -⟩
          exfalso
          unfold InBoundsP at hib
          omega
      · rw [if_neg h2, decide_eq_true_iff,
          ← typeAt_eq_getD maze t ⟨by omega, by omega⟩]
        constructor
        · intro hty
          exact ⟨⟨by omega, by omega, by omega, by omega⟩, hty⟩
        · rintro ⟨-, hty⟩
          exact hty

/-- The effect of `reset` on every cell. -/
theorem cellAt?_reset (maze : MazeData) (p : State) :
    cellAt? (reset maze) p = (cellAt? maze p).map resetCell := by
  by_cases hp : 0 ≤ p.1 ∧ 0 ≤ p.2
  · rw [cellAt?_eq_get? _ _ hp, cellAt?_eq_get? _ _ hp]
    unfold reset
    rw [get?_map_eq]
    cases maze.get? p.1.toNat with
    | none => rfl
    | some row =>
      simp only [Option.map_some', Option.getD_some]
      rw [get?_map_eq]
  · unfold cellAt?
    rw [if_neg hp, if_neg hp]
    rfl

/-- C6: after any number of steps of any search, `reset` sets every cell's
state to `Unexplored` (`Unreachable` for walls), clears its label to the
empty string, and leaves its type unchanged. -/
theorem C6_reset_restores (m : Maze) (maze : MazeData) (kind : FrontierKind)
    (n : Nat) (p : State) (c : MazeCell)
    (h : cellAt? ((runSteps m n (solveInit m maze kind)).maze) p = some c) :
    cellAt? (reset ((runSteps m n (solveInit m maze kind)).maze)) p =
      some { type := c.type,
             state := if c.type = MazeCellType.Wall then MazeCellState.Unreachable
               else MazeCellState.Unexplored,
             label := some "" } := by
  rw [cellAt?_reset, h]
  rfl

/-- C6 (witness): after one queue step on the 2×2 grid, resetting restores
the start cell (which the step marked `Explored`) to `Unexplored` with a
cleared label and unchanged type. -/
theorem C6_reset_restores_witness :
    cellAt? (reset ((runSteps mC10 1 (solveInit mC10 mzC10 FrontierKind.queue)).maze)) (0, 0) =
      some ⟨MazeCellType.Start, MazeCellState.Unexplored, some ""⟩ :=
  C6_reset_restores mC10 mzC10 FrontierKind.queue 1 (0, 0)
    ⟨MazeCellType.Start, MazeCellState.Explored, none⟩ rfl

/-- C10: the `next` closure has no terminal-state guard of its own.  On
the 2×2 grid `"AB\n  "` with the Queue strategy, step 3 reaches
`FoundSolution` with a non-empty frontier and cell (0,1) marked
`SolutionPath`; invoking the closure a fourth time pops another node,
increments the explored count, and overwrites the `SolutionPath`
annotation of cell (0,1) with `Frontier`.  The terminal outcome is
absorbing only through the external `demoRunner` wrapper, which invokes
the closure solely while the outcome is `Continue`. -/
theorem C10_step_past_terminal :
    Maze.make mzC10 = .ok mC10 ∧
    (runSteps mC10 3 (solveInit mC10 mzC10 FrontierKind.queue)).solutionType
      = SolutionType.FoundSolution ∧
    (runSteps mC10 3 (solveInit mC10 mzC10 FrontierKind.queue)).frontier.empty = false ∧
    getCellState (runSteps mC10 3 (solveInit mC10 mzC10 FrontierKind.queue)).maze (0, 1)
      = MazeCellState.SolutionPath ∧
    (step mC10 (runSteps mC10 3 (solveInit mC10 mzC10 FrontierKind.queue))).numExplored
      = (runSteps mC10 3 (solveInit mC10 mzC10 FrontierKind.queue)).numExplored + 1 ∧
    getCellState
      (step mC10 (runSteps mC10 3 (solveInit mC10 mzC10 FrontierKind.queue))).maze (0, 1)
      = MazeCellState.Frontier ∧
    demoRunnerStep mC10 (runSteps mC10 3 (solveInit mC10 mzC10 FrontierKind.queue))
      = runSteps mC10 3 (solveInit mC10 mzC10 FrontierKind.queue) :=
  ⟨rfl, rfl, rfl, rfl, rfl, rfl, rfl⟩

/-! ## Template round-trip -/

theorem cellChar_ne_newline (c : MazeCell) : cellChar c ≠ '\n' := by
  unfold cellChar
  rcases c with ⟨ty, st, lb⟩
  cases ty <;> (dsimp only; decide)

theorem cellChar_ne_cr (c : MazeCell) : cellChar c ≠ '\r' := by
  unfold cellChar
  rcases c with ⟨ty, st, lb⟩
  cases ty <;> (dsimp only; decide)

theorem parseCell_cellChar (c : MazeCell) :
    parseCell (cellChar c) = .ok (freshCellOf c) := by
  rcases c with ⟨ty, st, lb⟩
  cases ty <;> rfl

theorem splitLines_mazeTemplateChars (maze : MazeData) (h : maze ≠ []) :
    splitLines (mazeTemplateChars maze) = maze.map fun row => row.map cellChar := by
  unfold splitLines mazeTemplateChars
  rw [List.splitOn_intercalate _ '\n' ?memh ?neh]
  case memh =>
    intro l hl hc
    rw [List.mem_map] at hl
    obtain ⟨row, -, rfl⟩ := hl
    rw [List.mem_map] at hc
    obtain ⟨c, -, hcc⟩ := hc
    exact cellChar_ne_newline c hcc
  case neh =>
    simpa using h
  have hdrop : ∀ l ∈ maze.map (fun row => row.map cellChar), dropTrailingCR l = l := by
    intro l hl
    rw [List.mem_map] at hl
    obtain ⟨row, -, rfl⟩ := hl
    unfold dropTrailingCR
    rw [if_neg]
    intro hlast
    have hmem : '\r' ∈ row.map cellChar :=
      List.mem_of_mem_getLast? (by rw [hlast]; rfl)
    rw [List.mem_map] at hmem
    obtain ⟨c, -, hcc⟩ := hmem
    exact cellChar_ne_cr c hcc
  calc (maze.map fun row => row.map cellChar).map dropTrailingCR
      = (maze.map fun row => row.map cellChar).map id := List.map_congr_left hdrop
    _ = maze.map fun row => row.map cellChar := List.map_id _

theorem mapM_parseCell_row (row : List MazeCell) :
    (row.map cellChar).mapM parseCell = .ok (row.map freshCellOf) := by
  induction row with
  | nil => rfl
  | cons c cs ih =>
    rw [List.map_cons, List.mapM_cons, parseCell_cellChar c]
    rw [show (Except.ok (freshCellOf c) : Except String MazeCell)
        = pure (freshCellOf c) from rfl]
    rw [pure_bind, ih]
    rfl

/-- C7: parsing the serialized template of any non-empty grid yields a
grid with the same dimensions and the identical cell-type layout, with
every cell's exploration state freshly initialized from its type and no
label (cell state and label are not carried through the template
format). -/
theorem C7_template_roundtrip (maze : MazeData) (h : maze ≠ []) :
    buildMaze (mazeToTemplate maze) = .ok (maze.map fun row => row.map freshCellOf) := by
  show buildMazeChars (mazeTemplateChars maze) = _
  unfold buildMazeChars
  rw [splitLines_mazeTemplateChars maze h]
  induction maze with
  | nil => rfl
  | cons row rows ih =>
    rw [List.map_cons, List.mapM_cons, mapM_parseCell_row row]
    by_cases hrows : rows = []
    · subst hrows
      rfl
    · rw [show (Except.ok (row.map freshCellOf) : Except String (List MazeCell))
          = pure (row.map freshCellOf) from rfl]
      rw [pure_bind]
      have ih' := ih hrows
      rw [List.map_cons]
      rw [ih']
      rfl

/-- C7 (witness): the round trip at the concrete 2×2 grid. -/
theorem C7_template_roundtrip_witness :
    buildMaze (mazeToTemplate mzC10) = .ok (mzC10.map fun row => row.map freshCellOf) :=
  C7_template_roundtrip mzC10 (by decide)

/-! ## Constructor error characterization -/

theorem beqSG : (MazeCellType.Start == MazeCellType.Goal) = false := by decide

theorem beqGS : (MazeCellType.Goal == MazeCellType.Start) = false := by decide

theorem isSomeToNat_some (x : α) : (some x).isSome.toNat = 1 := rfl

theorem isSomeToNat_none : (none : Option α).isSome.toNat = 0 := rfl

theorem scanFold_ok_iff (maze : MazeData) (ps : List (Nat × Nat)) :
    ∀ acc : Option State × Option State,
      (∃ r, ps.foldlM (scanStep maze) acc = .ok r) ↔
        (acc.1.isSome.toNat +
            (ps.map fun ij => (maze.getD ij.1 []).getD ij.2 dfltCell).countP
              (fun c => c.type == MazeCellType.Start) ≤ 1 ∧
          acc.2.isSome.toNat +
            (ps.map fun ij => (maze.getD ij.1 []).getD ij.2 dfltCell).countP
              (fun c => c.type == MazeCellType.Goal) ≤ 1) := by
  induction ps with
  | nil =>
    intro acc
    simp only [List.foldlM_nil, List.map_nil, List.countP_nil, Nat.add_zero]
    constructor
    · intro
      constructor <;> (cases acc.1 <;> cases acc.2 <;> simp)
    · intro
      exact ⟨acc, rfl⟩
  | cons ij ps ih =>
    intro acc
    rw [List.foldlM_cons, List.map_cons, List.countP_cons, List.countP_cons]
    show (∃ r, Except.bind (scanStep maze acc ij) _ = .ok r) ↔ _
    by_cases hS :
        ((maze.getD ij.1 []).getD ij.2 dfltCell).type = MazeCellType.Start
    · have e1 : (if (((maze.getD ij.1 []).getD ij.2 dfltCell).type
          == MazeCellType.Start) = true then 1 else 0) = 1 := by
        rw [hS]
        rfl
      have e2 : (if (((maze.getD ij.1 []).getD ij.2 dfltCell).type
          == MazeCellType.Goal) = true then 1 else 0) = 0 := by
        rw [hS]
        rfl
      rw [e1, e2, Nat.add_zero]
      rcases acc with ⟨s?, g?⟩
      cases s? with
      | some s₀ =>
        have hstep : scanStep maze (some s₀, g?) ij = .error "只能有一个起点" := by
          unfold scanStep
          rw [if_pos hS]
        rw [hstep]
        constructor
        · rintro ⟨r, hr⟩
          exact Except.noConfusion hr
        · rintro ⟨h1, -⟩
          rw [isSomeToNat_some] at h1
          omega
      | none =>
        have hstep : scanStep maze ((none : Option State), g?) ij =
            .ok (some ((ij.1 : Int), (ij.2 : Int)), g?) := by
          unfold scanStep
          rw [if_pos hS]
        rw [hstep]
        show (∃ r, ps.foldlM (scanStep maze) _ = .ok r) ↔ _
        rw [ih]
        rw [show ((some ((ij.1 : Int), (ij.2 : Int)), g?) :
            Option State × Option State).1.isSome.toNat = 1 from rfl]
        rw [show ((some ((ij.1 : Int), (ij.2 : Int)), g?) :
            Option State × Option State).2 = g? from rfl]
        rw [isSomeToNat_none]
        omega
    · by_cases hG :
          ((maze.getD ij.1 []).getD ij.2 dfltCell).type = MazeCellType.Goal
      · have e1 : (if (((maze.getD ij.1 []).getD ij.2 dfltCell).type
            == MazeCellType.Start) = true then 1 else 0) = 0 := by
          rw [hG]
          rfl
        have e2 : (if (((maze.getD ij.1 []).getD ij.2 dfltCell).type
            == MazeCellType.Goal) = true then 1 else 0) = 1 := by
          rw [hG]
          rfl
        rw [e1, e2, Nat.add_zero]
        rcases acc with ⟨s?, g?⟩
        cases g? with
        | some g₀ =>
          have hstep : scanStep maze (s?, some g₀) ij = .error "只能有一个终点" := by
            unfold scanStep
            rw [if_neg hS, if_pos hG]
          rw [hstep]
          constructor
          · rintro ⟨r, hr⟩
            exact Except.noConfusion hr
          · rintro ⟨-, h2⟩
            rw [isSomeToNat_some] at h2
            omega
        | none =>
          have hstep : scanStep maze (s?, (none : Option State)) ij =
              .ok (s?, some ((ij.1 : Int), (ij.2 : Int))) := by
            unfold scanStep
            rw [if_neg hS, if_pos hG]
          rw [hstep]
          show (∃ r, ps.foldlM (scanStep maze) _ = .ok r) ↔ _
          rw [ih]
          rw [show ((s?, some ((ij.1 : Int), (ij.2 : Int))) :
              Option State × Option State).2.isSome.toNat = 1 from rfl]
          rw [show ((s?, some ((ij.1 : Int), (ij.2 : Int))) :
              Option State × Option State).1 = s? from rfl]
          rw [isSomeToNat_none]
          omega
      · have e1 : (if (((maze.getD ij.1 []).getD ij.2 dfltCell).type
            == MazeCellType.Start) = true then 1 else 0) = 0 := by
          have : (((maze.getD ij.1 []).getD ij.2 dfltCell).type
              == MazeCellType.Start) = false := by
            simpa using hS
          rw [this]
          rfl
        have e2 : (if (((maze.getD ij.1 []).getD ij.2 dfltCell).type
            == MazeCellType.Goal) = true then 1 else 0) = 0 := by
          have : (((maze.getD ij.1 []).getD ij.2 dfltCell).type
              == MazeCellType.Goal) = false := by
            simpa using hG
          rw [this]
          rfl
        rw [e1, e2, Nat.add_zero, Nat.add_zero]
        have hstep : scanStep maze acc ij = .ok acc := by
          unfold scanStep
          rw [if_neg hS, if_neg hG]
        rw [hstep]
        show (∃ r, ps.foldlM (scanStep maze) acc = .ok r) ↔ _
        exact ih acc

theorem scanFold_isSome (maze : MazeData) (ps : List (Nat × Nat)) :
    ∀ (acc r : Option State × Option State),
      ps.foldlM (scanStep maze) acc = .ok r →
        ((r.1.isSome = true ↔ acc.1.isSome = true ∨
            0 < (ps.map fun ij => (maze.getD ij.1 []).getD ij.2 dfltCell).countP
              (fun c => c.type == MazeCellType.Start)) ∧
          (r.2.isSome = true ↔ acc.2.isSome = true ∨
            0 < (ps.map fun ij => (maze.getD ij.1 []).getD ij.2 dfltCell).countP
              (fun c => c.type == MazeCellType.Goal))) := by
  induction ps with
  | nil =>
    intro acc r hr
    simp only [List.foldlM_nil] at hr
    cases hr
    simp
  | cons ij ps ih =>
    intro acc r hr
    rw [List.foldlM_cons] at hr
    rw [List.map_cons, List.countP_cons, List.countP_cons]
    by_cases hS :
        ((maze.getD ij.1 []).getD ij.2 dfltCell).type = MazeCellType.Start
    · have e1 : (if (((maze.getD ij.1 []).getD ij.2 dfltCell).type
          == MazeCellType.Start) = true then 1 else 0) = 1 := by
        rw [hS]
        rfl
      have e2 : (if (((maze.getD ij.1 []).getD ij.2 dfltCell).type
          == MazeCellType.Goal) = true then 1 else 0) = 0 := by
        rw [hS]
        rfl
      rw [e1, e2, Nat.add_zero]
      rcases acc with ⟨s?, g?⟩
      cases s? with
      | some s₀ =>
        have hstep : scanStep maze (some s₀, g?) ij = .error "只能有一个起点" := by
          unfold scanStep
          rw [if_pos hS]
        rw [hstep] at hr
        exact Except.noConfusion hr
      | none =>
        have hstep : scanStep maze ((none : Option State), g?) ij =
            .ok (some ((ij.1 : Int), (ij.2 : Int)), g?) := by
          unfold scanStep
          rw [if_pos hS]
        rw [hstep] at hr
        have hih := ih _ _ hr
        constructor
        · constructor
          · intro
            exact Or.inr (by omega)
          · intro
            exact hih.1.mpr (Or.inl rfl)
        · exact hih.2
    · by_cases hG :
          ((maze.getD ij.1 []).getD ij.2 dfltCell).type = MazeCellType.Goal
      · have e1 : (if (((maze.getD ij.1 []).getD ij.2 dfltCell).type
            == MazeCellType.Start) = true then 1 else 0) = 0 := by
          rw [hG]
          rfl
        have e2 : (if (((maze.getD ij.1 []).getD ij.2 dfltCell).type
            == MazeCellType.Goal) = true then 1 else 0) = 1 := by
          rw [hG]
          rfl
        rw [e1, e2, Nat.add_zero]
        rcases acc with ⟨s?, g?⟩
        cases g? with
        | some g₀ =>
          have hstep : scanStep maze (s?, some g₀) ij = .error "只能有一个终点" := by
            unfold scanStep
            rw [if_neg hS, if_pos hG]
          rw [hstep] at hr
          exact Except.noConfusion hr
        | none =>
          have hstep : scanStep maze (s?, (none : Option State)) ij =
              .ok (s?, some ((ij.1 : Int), (ij.2 : Int))) := by
            unfold scanStep
            rw [if_neg hS, if_pos hG]
          rw [hstep] at hr
          have hih := ih _ _ hr
          constructor
          · exact hih.1
          · constructor
            · intro
              exact Or.inr (by omega)
            · intro
              exact hih.2.mpr (Or.inl rfl)
      · have e1 : (if (((maze.getD ij.1 []).getD ij.2 dfltCell).type
            == MazeCellType.Start) = true then 1 else 0) = 0 := by
          have : (((maze.getD ij.1 []).getD ij.2 dfltCell).type
              == MazeCellType.Start) = false := by
            simpa using hS
          rw [this]
          rfl
        have e2 : (if (((maze.getD ij.1 []).getD ij.2 dfltCell).type
            == MazeCellType.Goal) = true then 1 else 0) = 0 := by
          have : (((maze.getD ij.1 []).getD ij.2 dfltCell).type
              == MazeCellType.Goal) = false := by
            simpa using hG
          rw [this]
          rfl
        rw [e1, e2, Nat.add_zero, Nat.add_zero]
        have hstep : scanStep maze acc ij = .ok acc := by
          unfold scanStep
          rw [if_neg hS, if_neg hG]
        rw [hstep] at hr
        exact ih _ _ hr

theorem cells_of_pairs (maze : MazeData) (w : Nat)
    (hrect : ∀ row ∈ maze, row.length = w) :
    ((List.range maze.length).flatMap fun i =>
        (List.range w).map fun j => (maze.getD i []).getD j dfltCell) =
      maze.flatten := by
  induction maze with
  | nil => rfl
  | cons row rows ih =>
    rw [List.length_cons, List.range_succ_eq_map, List.flatMap_cons, List.flatMap_map]
    have hrow : (List.range w).map (fun j => ((row :: rows).getD 0 []).getD j dfltCell)
        = row := by
      have hw : w = row.length := (hrect row (List.mem_cons_self _ _)).symm
      subst hw
      exact getD_range_map row dfltCell
    rw [hrow, List.flatten_cons]
    refine congrArg (row ++ ·) ?_
    have hsucc : ∀ i : Nat, ((row :: rows).getD (i + 1) []) = rows.getD i [] :=
      fun _ => rfl
    have : ((List.range rows.length).flatMap fun a =>
        (List.range w).map fun j => ((row :: rows).getD (a + 1) []).getD j dfltCell) =
        ((List.range rows.length).flatMap fun a =>
          (List.range w).map fun j => (rows.getD a []).getD j dfltCell) := by
      refine congrArg _ ?_
      funext a
      rw [hsucc a]
    rw [show (fun a => (List.range w).map fun j =>
        ((row :: rows).getD (Nat.succ a) []).getD j dfltCell) =
        (fun a => (List.range w).map fun j =>
          ((row :: rows).getD (a + 1) []).getD j dfltCell) from rfl]
    rw [this]
    exact ih fun r hr => hrect r (List.mem_cons_of_mem _ hr)

/-- C8: constructing the search engine errors exactly when the grid does
not have exactly one Start and exactly one Goal cell; and no error of any
kind — in particular no topology error — is raised by later step calls
(every invocation of the `next` closure succeeds). -/
theorem C8_topology_errors (maze : MazeData)
    (_hne : maze ≠ [])
    (hrect : ∀ row ∈ maze, row.length = (maze.headD []).length) :
    ((∃ mm, Maze.make maze = .ok mm) ↔
      (countType maze MazeCellType.Start = 1 ∧
        countType maze MazeCellType.Goal = 1)) ∧
    ∀ (m : Maze) (s : SolveState), stepE m s = .ok (step m s) := by
  refine ⟨?_, fun m s => stepE_eq_step m s⟩
  have hcells :
      ((List.range maze.length).flatMap fun i =>
          (List.range (maze.headD []).length).map fun j => (i, j)).map
        (fun ij : Nat × Nat => (maze.getD ij.1 []).getD ij.2 dfltCell) =
      maze.flatten := by
    rw [List.map_flatMap]
    have : ∀ i : Nat,
        (((List.range (maze.headD []).length).map fun j => (i, j)).map
          fun ij : Nat × Nat => (maze.getD ij.1 []).getD ij.2 dfltCell) =
        ((List.range (maze.headD []).length).map
          fun j => (maze.getD i []).getD j dfltCell) := by
      intro i
      rw [List.map_map]
      rfl
    calc ((List.range maze.length).flatMap fun i =>
            ((List.range (maze.headD []).length).map fun j => (i, j)).map
              fun ij : Nat × Nat => (maze.getD ij.1 []).getD ij.2 dfltCell)
        = ((List.range maze.length).flatMap fun i =>
            (List.range (maze.headD []).length).map
              fun j => (maze.getD i []).getD j dfltCell) := by
          refine congrArg _ ?_
          funext i
          exact this i
      _ = maze.flatten := cells_of_pairs maze _ hrect
  have hcount : ∀ ty : MazeCellType,
      (((List.range maze.length).flatMap fun i =>
          (List.range (maze.headD []).length).map fun j => (i, j)).map
        (fun ij : Nat × Nat => (maze.getD ij.1 []).getD ij.2 dfltCell)).countP
        (fun c => c.type == ty) = countType maze ty := by
    intro ty
    rw [hcells, List.countP_flatten]
    rfl
  show (∃ mm, Except.bind _ _ = .ok mm) ↔ _
  cases hfold :
      (((List.range maze.length).flatMap fun i =>
        (List.range (maze.headD []).length).map fun j => (i, j)).foldlM
        (scanStep maze) (none, none)) with
  | error e =>
    constructor
    · rintro ⟨mm, hmm⟩
      exact Except.noConfusion hmm
    · rintro ⟨h1, h2⟩
      exfalso
      have hiff := (scanFold_ok_iff maze
        ((List.range maze.length).flatMap fun i =>
          (List.range (maze.headD []).length).map fun j => (i, j)) (none, none)).mpr
      rw [hfold] at hiff
      have hex := hiff (by
        constructor
        · show (0 : Nat) + _ ≤ 1
          rw [hcount MazeCellType.Start]
          omega
        · show (0 : Nat) + _ ≤ 1
          rw [hcount MazeCellType.Goal]
          omega)
      obtain ⟨r, hr⟩ := hex
      cases hr
  | ok r =>
    have hok : ∃ rr, (((List.range maze.length).flatMap fun i =>
        (List.range (maze.headD []).length).map fun j => (i, j)).foldlM
        (scanStep maze) ((none : Option State), (none : Option State))) = .ok rr :=
      ⟨r, hfold⟩
    have hle := (scanFold_ok_iff maze _ (none, none)).mp hok
    rw [hcount MazeCellType.Start, hcount MazeCellType.Goal] at hle
    simp only [Option.isSome_none, Bool.toNat_false, Nat.zero_add] at hle
    have hsome := scanFold_isSome maze _ (none, none) r hfold
    rw [hcount MazeCellType.Start, hcount MazeCellType.Goal] at hsome
    simp only [Option.isSome_none, Bool.false_eq_true, false_or] at hsome
    rcases r with ⟨s?, g?⟩
    cases s? with
    | none =>
      constructor
      · rintro ⟨mm, hmm⟩
        exact Except.noConfusion hmm
      · rintro ⟨h1, -⟩
        exfalso
        have hpos : (0 : Nat) < countType maze MazeCellType.Start := by omega
        have h := hsome.1.mpr hpos
        simp at h
    | some s0 =>
      cases g? with
      | none =>
        constructor
        · rintro ⟨mm, hmm⟩
          exact Except.noConfusion hmm
        · rintro ⟨-, h2⟩
          exfalso
          have hpos : (0 : Nat) < countType maze MazeCellType.Goal := by omega
          have h := hsome.2.mpr hpos
          simp at h
      | some g0 =>
        constructor
        · rintro -
          have h1 : (0 : Nat) < countType maze MazeCellType.Start := hsome.1.mp rfl
          have h2 : (0 : Nat) < countType maze MazeCellType.Goal := hsome.2.mp rfl
          exact ⟨by omega, by omega⟩
        · rintro -
          exact ⟨⟨maze.length, (maze.headD []).length, s0, g0⟩, rfl⟩

/-- C8 (witness): the characterization at the concrete 2×2 grid, which has
exactly one Start and one Goal. -/
theorem C8_topology_errors_witness :
    ((∃ mm, Maze.make mzC10 = .ok mm) ↔
      (countType mzC10 MazeCellType.Start = 1 ∧
        countType mzC10 MazeCellType.Goal = 1)) ∧
    ∀ (m : Maze) (s : SolveState), stepE m s = .ok (step m s) :=
  C8_topology_errors mzC10 (by decide) (by decide)

/-! ## Binary heap index arithmetic and swap lemmas -/

theorem parentIdx_lt {i : Nat} (h : 0 < i) : parentIdx i < i := by
  unfold parentIdx
  omega

theorem parentIdx_eq_iff {i k : Nat} (h : 0 < i) :
    parentIdx i = k ↔ (i = 2 * k + 1 ∨ i = 2 * k + 2) := by
  unfold parentIdx
  omega

theorem get?_set' (l : List α) (i : Nat) (a : α) (k : Nat) :
    (l.set i a).get? k = if k = i ∧ i < l.length then some a else l.get? k := by
  induction l generalizing i k with
  | nil => cases i <;> cases k <;> simp
  | cons x xs ih =>
    cases i with
    | zero =>
      cases k with
      | zero => simp
      | succ k => simp
    | succ i =>
      cases k with
      | zero => simp
      | succ k =>
        rw [List.set_cons_succ, List.get?_cons_succ, List.get?_cons_succ, ih]
        simp only [List.length_cons]
        by_cases hk : k = i ∧ i < xs.length
        · rw [if_pos hk, if_pos (by omega)]
        · rw [if_neg hk, if_neg (by omega)]

theorem length_swapIdx (l : List α) (i j : Nat) :
    (swapIdx l i j).length = l.length := by
  unfold swapIdx
  cases hi : l.get? i with
  | none => rfl
  | some a =>
    cases hj : l.get? j with
    | none => rfl
    | some b => simp

theorem get?_swapIdx (l : List α) (i j : Nat) (hi : i < l.length) (hj : j < l.length)
    (k : Nat) :
    (swapIdx l i j).get? k = l.get? (if k = i then j else if k = j then i else k) := by
  obtain ⟨a, ha⟩ : ∃ a, l.get? i = some a := by
    rw [List.get?_eq_get hi]
    exact ⟨_, rfl⟩
  obtain ⟨b, hb⟩ : ∃ b, l.get? j = some b := by
    rw [List.get?_eq_get hj]
    exact ⟨_, rfl⟩
  unfold swapIdx
  rw [ha, hb, get?_set', get?_set', List.length_set]
  by_cases hkj : k = j
  · subst hkj
    rw [if_pos ⟨rfl, hj⟩]
    by_cases hki : k = i
    · subst hki
      rw [if_pos rfl]
      rw [ha] at hb
      cases hb
      exact ha.symm
    · rw [if_neg hki, if_pos rfl]
      exact ha.symm
  · rw [if_neg (by exact fun hc => hkj hc.1)]
    by_cases hki : k = i
    · subst hki
      rw [if_pos ⟨rfl, hi⟩, if_pos rfl]
      exact hb.symm
    · rw [if_neg (by exact fun hc => hki hc.1), if_neg hki, if_neg hkj]

theorem greaterAt_of_get? {cmp : α → α → Bool} {l : List α} {i j : Nat} {a b : α}
    (h1 : l.get? i = some a) (h2 : l.get? j = some b) :
    greaterAt cmp l i j = cmp a b := by
  unfold greaterAt
  rw [h1, h2]

theorem greaterAt_swapIdx (cmp : α → α → Bool) (l : List α) (i j : Nat)
    (hi : i < l.length) (hj : j < l.length) (x y : Nat) :
    greaterAt cmp (swapIdx l i j) x y =
      greaterAt cmp l (if x = i then j else if x = j then i else x)
        (if y = i then j else if y = j then i else y) := by
  unfold greaterAt
  rw [get?_swapIdx l i j hi hj x, get?_swapIdx l i j hi hj y]

theorem greaterAt_true_get? {cmp : α → α → Bool} {l : List α} {i j : Nat}
    (h : greaterAt cmp l i j = true) :
    ∃ a b, l.get? i = some a ∧ l.get? j = some b ∧ cmp a b = true := by
  unfold greaterAt at h
  cases hi : l.get? i with
  | none =>
    rw [hi] at h
    cases h
  | some a =>
    cases hj : l.get? j with
    | none =>
      rw [hi, hj] at h
      cases h
    | some b =>
      rw [hi, hj] at h
      exact ⟨a, b, rfl, rfl, h⟩

theorem greaterAt_append_left (cmp : α → α → Bool) (l l₂ : List α) (i j : Nat)
    (hi : i < l.length) (hj : j < l.length) :
    greaterAt cmp (l ++ l₂) i j = greaterAt cmp l i j := by
  unfold greaterAt
  rw [List.get?_append hi, List.get?_append hj]

theorem get?_dropLast (l : List α) (i : Nat) (h : i < l.length - 1) :
    l.dropLast.get? i = l.get? i := by
  induction l generalizing i with
  | nil => rfl
  | cons x xs ih =>
    cases xs with
    | nil => simp at h
    | cons y ys =>
      cases i with
      | zero => rfl
      | succ i =>
        rw [List.dropLast_cons_of_ne_nil (by simp), List.get?_cons_succ,
          List.get?_cons_succ]
        exact ih i (by simpa using h)

/-! ## Sift-up and sift-down restore the heap property -/

theorem siftUpLoop_heapProp (cmp : α → α → Bool)
    (hasym : ∀ a b, cmp a b = true → cmp b a = false)
    (htr : ∀ a b c, cmp a b = true → cmp b c = true → cmp a c = true)
    (hneg : ∀ a b c, cmp a b = false → cmp b c = false → cmp a c = false) :
    ∀ (fuel : Nat) (l : List α) (k : Nat), k < l.length → k ≤ fuel →
      UpInv cmp l k → HeapProp cmp (siftUpLoop cmp l k fuel) := by
  intro fuel
  induction fuel with
  | zero =>
    intro l k hk hf hinv
    have hk0 : k = 0 := Nat.le_zero.mp hf
    subst hk0
    show HeapProp cmp l
    intro i hi0 hil
    exact hinv.1 i hi0 hil (by omega)
  | succ fuel ih =>
    intro l k hk hf hinv
    rw [siftUpLoop]
    by_cases hg : 0 < k ∧ greaterAt cmp l k (parentIdx k) = true
    · rw [if_pos hg]
      obtain ⟨hk0, hgr⟩ := hg
      have hp_lt : parentIdx k < k := parentIdx_lt hk0
      have hp_len : parentIdx k < l.length := Nat.lt_trans hp_lt hk
      obtain ⟨vk, vp, hvk, hvp, hcmp⟩ := greaterAt_true_get? hgr
      apply ih (swapIdx l k (parentIdx k)) (parentIdx k)
      · rw [length_swapIdx]
        exact hp_len
      · omega
      · constructor
        · intro i hi0 hil hip
          rw [length_swapIdx] at hil
          rw [greaterAt_swapIdx cmp l k (parentIdx k) hk hp_len]
          have hpi_lt : parentIdx i < i := parentIdx_lt hi0
          by_cases hik : i = k
          · subst hik
            rw [if_pos rfl, if_neg (by omega), if_pos rfl]
            rw [greaterAt_of_get? hvp hvk]
            exact hasym _ _ hcmp
          · rw [if_neg hik, if_neg hip]
            by_cases h1 : parentIdx i = k
            · rw [if_pos h1]
              exact hinv.2 hk0 i hil h1
            · rw [if_neg h1]
              by_cases h2 : parentIdx i = parentIdx k
              · rw [if_pos h2]
                obtain ⟨vi, hvi⟩ : ∃ v, l.get? i = some v := by
                  rw [List.get?_eq_get hil]
                  exact ⟨_, rfl⟩
                have hold := hinv.1 i hi0 hil hik
                rw [h2, greaterAt_of_get? hvi hvp] at hold
                rw [greaterAt_of_get? hvi hvk]
                cases hb : cmp vi vk with
                | false => rfl
                | true => exact absurd (htr _ _ _ hb hcmp) (by rw [hold]; simp)
              · rw [if_neg h2]
                exact hinv.1 i hi0 hil hik
        · intro hp0 i hil hpi
          rw [length_swapIdx] at hil
          rw [greaterAt_swapIdx cmp l k (parentIdx k) hk hp_len]
          have hi0 : 0 < i := by
            by_contra hc
            have h0 : i = 0 := by omega
            subst h0
            unfold parentIdx at hpi hp0
            omega
          have hpi_lt : parentIdx i < i := parentIdx_lt hi0
          have hpp_lt : parentIdx (parentIdx k) < parentIdx k := parentIdx_lt hp0
          have hpp_len : parentIdx (parentIdx k) < l.length := by omega
          obtain ⟨vpp, hvpp⟩ : ∃ v, l.get? (parentIdx (parentIdx k)) = some v := by
            rw [List.get?_eq_get hpp_len]
            exact ⟨_, rfl⟩
          by_cases hik : i = k
          · rw [if_pos hik, if_neg (by omega), if_neg (by omega)]
            exact hinv.1 (parentIdx k) hp0 hp_len (by omega)
          · rw [if_neg hik, if_neg (by omega), if_neg (by omega), if_neg (by omega)]
            obtain ⟨vi, hvi⟩ : ∃ v, l.get? i = some v := by
              rw [List.get?_eq_get hil]
              exact ⟨_, rfl⟩
            have hold1 := hinv.1 i hi0 hil hik
            rw [hpi, greaterAt_of_get? hvi hvp] at hold1
            have hold2 := hinv.1 (parentIdx k) hp0 hp_len (by omega)
            rw [greaterAt_of_get? hvp hvpp] at hold2
            rw [greaterAt_of_get? hvi hvpp]
            exact hneg _ _ _ hold1 hold2
    · rw [if_neg hg]
      intro i hi0 hil
      by_cases hik : i = k
      · subst hik
        cases hb : greaterAt cmp l i (parentIdx i) with
        | false => rfl
        | true => exact absurd ⟨hi0, hb⟩ hg
      · exact hinv.1 i hi0 hil hik

/-- One sift-down swap step preserves the sift-down invariant. -/
theorem downSwap_inv (cmp : α → α → Bool) (l : List α) (k m : Nat)
    (hk_len : k < l.length) (hm_len : m < l.length)
    (hpm : parentIdx m = k) (hkm : k < m)
    (ha : greaterAt cmp l k m = false)
    (hsib : ∀ c, 0 < c → c < l.length → parentIdx c = k → c ≠ m →
      greaterAt cmp l c m = false)
    (hinv : DownInv cmp l k) :
    DownInv cmp (swapIdx l k m) m := by
  have hkm_ne : m ≠ k := by omega
  constructor
  · intro i hi0 hil hpim
    rw [length_swapIdx] at hil
    rw [greaterAt_swapIdx cmp l k m hk_len hm_len]
    have hpi_lt : parentIdx i < i := parentIdx_lt hi0
    by_cases him : i = m
    · rw [him, hpm] at hpi_lt ⊢
      rw [if_neg hkm_ne, if_pos rfl, if_pos rfl]
      exact ha
    · by_cases hik : i = k
      · have hk0 : 0 < k := by omega
        have hppk : parentIdx k < k := parentIdx_lt hk0
        rw [hik]
        rw [if_pos rfl, if_neg (by omega), if_neg (by omega)]
        exact hinv.2 hk0 m hm_len hpm
      · rw [if_neg hik, if_neg him]
        by_cases h1 : parentIdx i = k
        · rw [if_pos h1]
          exact hsib i hi0 hil h1 him
        · rw [if_neg h1, if_neg hpim]
          exact hinv.1 i hi0 hil h1
  · intro hm0 j hjl hpj
    rw [length_swapIdx] at hjl
    rw [greaterAt_swapIdx cmp l k m hk_len hm_len]
    have hj0 : 0 < j := by
      by_contra hc
      have h0 : j = 0 := by omega
      subst h0
      unfold parentIdx at hpj
      omega
    have hpj_lt : parentIdx j < j := parentIdx_lt hj0
    rw [hpm]
    rw [if_neg (by omega), if_neg (by omega), if_pos rfl]
    have h := hinv.1 j hj0 hjl (by omega)
    rw [hpj] at h
    exact h

theorem siftDownLoop_heapProp (cmp : α → α → Bool)
    (hasym : ∀ a b, cmp a b = true → cmp b a = false)
    (htr : ∀ a b c, cmp a b = true → cmp b c = true → cmp a c = true) :
    ∀ (fuel : Nat) (l : List α) (k : Nat), l.length ≤ k + fuel →
      DownInv cmp l k → HeapProp cmp (siftDownLoop cmp l k fuel) := by
  intro fuel
  induction fuel with
  | zero =>
    intro l k hf hinv
    show HeapProp cmp l
    intro i hi0 hil
    apply hinv.1 i hi0 hil
    intro hpk
    rw [parentIdx_eq_iff hi0] at hpk
    omega
  | succ fuel ih =>
    intro l k hf hinv
    rw [siftDownLoop]
    by_cases hg : (leftIdx k < l.length ∧ greaterAt cmp l (leftIdx k) k = true) ∨
        (rightIdx k < l.length ∧ greaterAt cmp l (rightIdx k) k = true)
    · rw [if_pos hg]
      have hk_len : k < l.length := by
        unfold leftIdx rightIdx at hg
        rcases hg with ⟨h, -⟩ | ⟨h, -⟩ <;> omega
      obtain ⟨vx, hvx⟩ : ∃ v, l.get? k = some v := by
        rw [List.get?_eq_get hk_len]
        exact ⟨_, rfl⟩
      by_cases hmc : rightIdx k < l.length ∧ greaterAt cmp l (rightIdx k) (leftIdx k) = true
      · rw [if_pos hmc]
        obtain ⟨hr_len, hrl⟩ := hmc
        have hl_len : leftIdx k < l.length := by
          unfold leftIdx rightIdx at *
          omega
        obtain ⟨vcr, vcl, hvcr, hvcl, hcrl⟩ := greaterAt_true_get? hrl
        have hkm : k < rightIdx k := by
          unfold rightIdx
          omega
        apply ih
        · rw [length_swapIdx]
          unfold rightIdx
          omega
        · apply downSwap_inv cmp l k (rightIdx k) hk_len hr_len ?_ hkm ?_ ?_ hinv
          · rw [parentIdx_eq_iff (by unfold rightIdx; omega)]
            unfold rightIdx
            omega
          · rw [greaterAt_of_get? hvx hvcr]
            cases hb : cmp vx vcr with
            | false => rfl
            | true =>
              exfalso
              rcases hg with ⟨-, hgl⟩ | ⟨-, hgr⟩
              · rw [greaterAt_of_get? hvcl hvx] at hgl
                exact absurd (htr _ _ _ hgl hb) (by rw [hasym _ _ hcrl]; simp)
              · rw [greaterAt_of_get? hvcr hvx] at hgr
                exact absurd hb (by rw [hasym _ _ hgr]; simp)
          · intro c hc0 hcl hpc hcm
            rw [parentIdx_eq_iff hc0] at hpc
            have hcleft : c = leftIdx k := by
              unfold rightIdx at hcm
              unfold leftIdx
              omega
            rw [hcleft, greaterAt_of_get? hvcl hvcr]
            exact hasym _ _ hcrl
      · rw [if_neg hmc]
        have hl_len : leftIdx k < l.length := by
          rcases hg with ⟨h, -⟩ | ⟨h, -⟩
          · exact h
          · unfold leftIdx rightIdx at *
            omega
        obtain ⟨vcl, hvcl⟩ : ∃ v, l.get? (leftIdx k) = some v := by
          rw [List.get?_eq_get hl_len]
          exact ⟨_, rfl⟩
        have hkm : k < leftIdx k := by
          unfold leftIdx
          omega
        apply ih
        · rw [length_swapIdx]
          unfold leftIdx
          omega
        · apply downSwap_inv cmp l k (leftIdx k) hk_len hl_len ?_ hkm ?_ ?_ hinv
          · rw [parentIdx_eq_iff (by unfold leftIdx; omega)]
            unfold leftIdx
            omega
          · rw [greaterAt_of_get? hvx hvcl]
            cases hb : cmp vx vcl with
            | false => rfl
            | true =>
              exfalso
              rcases hg with ⟨-, hgl⟩ | ⟨hr_len, hgr⟩
              · rw [greaterAt_of_get? hvcl hvx] at hgl
                exact absurd hb (by rw [hasym _ _ hgl]; simp)
              · obtain ⟨vcr, vx', hvcr, hvx', hcrx⟩ := greaterAt_true_get? hgr
                rw [hvx] at hvx'
                cases hvx'
                refine hmc ⟨hr_len, ?_⟩
                rw [greaterAt_of_get? hvcr hvcl]
                exact htr _ _ _ hcrx hb
          · intro c hc0 hcl hpc hcm
            rw [parentIdx_eq_iff hc0] at hpc
            have hcright : c = rightIdx k := by
              unfold leftIdx at hcm
              unfold rightIdx
              omega
            rw [hcright] at hcl ⊢
            cases hb : greaterAt cmp l (rightIdx k) (leftIdx k) with
            | false => rfl
            | true => exact absurd ⟨hcl, hb⟩ hmc

    · rw [if_neg hg]
      intro i hi0 hil
      by_cases hpk : parentIdx i = k
      · cases hb : greaterAt cmp l i (parentIdx i) with
        | false => rfl
        | true =>
          exfalso
          apply hg
          rw [hpk] at hb
          rw [parentIdx_eq_iff hi0] at hpk
          rcases hpk with h | h
          · left
            have hli : leftIdx k = i := by
              unfold leftIdx
              omega
            rw [hli]
            exact ⟨hil, hb⟩
          · right
            have hri : rightIdx k = i := by
              unfold rightIdx
              omega
            rw [hri]
            exact ⟨hil, hb⟩
      · exact hinv.1 i hi0 hil hpk

theorem greaterAt_dropLast (cmp : α → α → Bool) (l : List α) (x y : Nat)
    (hx : x < l.length - 1) (hy : y < l.length - 1) :
    greaterAt cmp l.dropLast x y = greaterAt cmp l x y := by
  unfold greaterAt
  rw [get?_dropLast _ _ hx, get?_dropLast _ _ hy]

/-- `push` preserves the heap property. -/
theorem heapPush_heapProp (cmp : α → α → Bool)
    (hasym : ∀ a b, cmp a b = true → cmp b a = false)
    (htr : ∀ a b c, cmp a b = true → cmp b c = true → cmp a c = true)
    (hneg : ∀ a b c, cmp a b = false → cmp b c = false → cmp a c = false)
    (l : List α) (v : α) (h : HeapProp cmp l) :
    HeapProp cmp (heapPush cmp l v) := by
  unfold heapPush
  have hlen : (l ++ [v]).length = l.length + 1 := by simp
  apply siftUpLoop_heapProp cmp hasym htr hneg
  · rw [hlen]
    omega
  · exact Nat.le_refl _
  · constructor
    · intro i hi0 hil hik
      rw [hlen] at hil hik
      have hil' : i < l.length := by omega
      have hpi : parentIdx i < i := parentIdx_lt hi0
      rw [greaterAt_append_left cmp l [v] i (parentIdx i) hil' (by omega)]
      exact h i hi0 hil'
    · intro hk0 i hil hpi
      exfalso
      rw [hlen] at hil hpi
      have hi0 : 0 < i := by
        by_contra hc
        have h0 : i = 0 := by omega
        subst h0
        unfold parentIdx at hpi
        omega
      rw [parentIdx_eq_iff hi0] at hpi
      omega

/-- `pop` preserves the heap property. -/
theorem heapPop_heapProp (cmp : α → α → Bool)
    (hasym : ∀ a b, cmp a b = true → cmp b a = false)
    (htr : ∀ a b c, cmp a b = true → cmp b c = true → cmp a c = true)
    (l : List α) (h : HeapProp cmp l) :
    HeapProp cmp (heapPop cmp l).2 := by
  unfold heapPop
  apply siftDownLoop_heapProp cmp hasym htr
  · omega
  · constructor
    · intro i hi0 hil hpi0
      by_cases hlen : 0 < l.length - 1
      · rw [if_pos hlen] at hil ⊢
        have hlen2 : 2 ≤ l.length := by omega
        have hil2 : i < l.length - 1 := by
          rw [List.length_dropLast, length_swapIdx] at hil
          exact hil
        have hpi_lt : parentIdx i < i := parentIdx_lt hi0
        have hl0 : (0 : Nat) < l.length := by omega
        have hll : l.length - 1 < l.length := by omega
        rw [greaterAt_dropLast cmp _ i (parentIdx i)
          (by rw [length_swapIdx]; exact hil2)
          (by rw [length_swapIdx]; omega)]
        rw [greaterAt_swapIdx cmp l 0 (l.length - 1) hl0 hll]
        rw [if_neg (by omega), if_neg (by omega), if_neg (by omega),
          if_neg (by omega)]
        exact h i hi0 (by omega)
      · rw [if_neg hlen] at hil
        rw [List.length_dropLast] at hil
        omega
    · intro h0
      exact absurd h0 (Nat.lt_irrefl 0)

/-- C9: over any strict comparator (irreflexive, transitive, and with
transitive incomparability, as with the numeric `f(a) < f(b)` comparators
the program uses), the heap array satisfies the heap property after any
sequence of push and pop operations: no element is ranked strictly before
its parent.  Moreover `pop` returns the current root of the array. -/
theorem C9_heap_property (cmp : α → α → Bool)
    (hirr : ∀ a, cmp a a = false)
    (htr : ∀ a b c, cmp a b = true → cmp b c = true → cmp a c = true)
    (hneg : ∀ a b c, cmp a b = false → cmp b c = false → cmp a c = false) :
    (∀ ops : List (HeapOp α), HeapProp cmp (runHeapOps cmp ops)) ∧
    (∀ l : List α, (heapPop cmp l).1 = l.get? 0) := by
  have hasym : ∀ a b, cmp a b = true → cmp b a = false := by
    intro a b hab
    cases hba : cmp b a with
    | false => rfl
    | true => exact absurd (htr _ _ _ hab hba) (by rw [hirr a]; simp)
  constructor
  · have haux : ∀ (ops : List (HeapOp α)) (l : List α), HeapProp cmp l →
        HeapProp cmp (ops.foldl (applyHeapOp cmp) l) := by
      intro ops
      induction ops with
      | nil => exact fun l hl => hl
      | cons op ops ih =>
        intro l hl
        rw [List.foldl_cons]
        apply ih
        cases op with
        | push v => exact heapPush_heapProp cmp hasym htr hneg l v hl
        | pop => exact heapPop_heapProp cmp hasym htr l hl
    intro ops
    apply haux
    intro i hi0 hil
    simp at hil
  · intro l
    rfl

/-- C9 (witness): the heap property after a concrete operation sequence
over the strict comparator `<` on naturals, and `pop` returning the root
of a concrete heap. -/
theorem C9_heap_property_witness :
    HeapProp natLtB (runHeapOps natLtB
      [HeapOp.push 3, HeapOp.push 1, HeapOp.push 2, HeapOp.pop, HeapOp.push 0]) ∧
    (heapPop natLtB [5, 7]).1 = some 5 := by
  have h := C9_heap_property natLtB ?hirr ?htr ?hneg
  case hirr =>
    intro a
    simp [natLtB]
  case htr =>
    intro a b c h1 h2
    simp only [natLtB, decide_eq_true_eq] at h1 h2 ⊢
    omega
  case hneg =>
    intro a b c h1 h2
    simp only [natLtB, decide_eq_false_iff_not] at h1 h2 ⊢
    omega
  exact ⟨h.1 _, (h.2 [5, 7]).trans rfl⟩

/-! ## The frontier as a multiset of nodes -/

theorem cons_swap_perm (x b : α) (xs : List α) (j : Nat) (h : xs.get? j = some b) :
    (x :: xs).Perm (b :: xs.set j x) := by
  induction xs generalizing j x with
  | nil => cases j <;> cases h
  | cons y t ih =>
    cases j with
    | zero =>
      rw [List.get?_cons_zero] at h
      cases h
      exact List.Perm.swap _ x t
    | succ j =>
      rw [List.get?_cons_succ] at h
      have h1 : (x :: y :: t).Perm (y :: x :: t) := List.Perm.swap y x t
      have h2 : (y :: x :: t).Perm (y :: b :: t.set j x) := List.Perm.cons y (ih _ _ h)
      have h3 : (y :: b :: t.set j x).Perm (b :: y :: t.set j x) := List.Perm.swap b y _
      exact (h1.trans h2).trans h3

theorem set_set_perm (l : List α) (i j : Nat) (a b : α)
    (hi : l.get? i = some a) (hj : l.get? j = some b) :
    ((l.set i b).set j a).Perm l := by
  induction l generalizing i j with
  | nil => cases i <;> cases hi
  | cons x xs ih =>
    cases i with
    | zero =>
      rw [List.get?_cons_zero] at hi
      cases hi
      cases j with
      | zero =>
        rw [List.get?_cons_zero] at hj
        cases hj
        exact List.Perm.refl _
      | succ j =>
        rw [List.get?_cons_succ] at hj
        exact (cons_swap_perm _ b xs j hj).symm
    | succ i =>
      rw [List.get?_cons_succ] at hi
      cases j with
      | zero =>
        rw [List.get?_cons_zero] at hj
        cases hj
        exact (cons_swap_perm _ a xs i hi).symm
      | succ j =>
        rw [List.get?_cons_succ] at hj
        exact List.Perm.cons x (ih i j hi hj)

theorem swapIdx_perm (l : List α) (i j : Nat) : (swapIdx l i j).Perm l := by
  unfold swapIdx
  cases hi : l.get? i with
  | none => exact List.Perm.refl l
  | some a =>
    cases hj : l.get? j with
    | none => exact List.Perm.refl l
    | some b => exact set_set_perm l i j a b hi hj

theorem siftUpLoop_perm (cmp : α → α → Bool) :
    ∀ (fuel : Nat) (l : List α) (k : Nat), (siftUpLoop cmp l k fuel).Perm l := by
  intro fuel
  induction fuel with
  | zero => exact fun l k => List.Perm.refl l
  | succ fuel ih =>
    intro l k
    rw [siftUpLoop]
    by_cases hg : 0 < k ∧ greaterAt cmp l k (parentIdx k) = true
    · rw [if_pos hg]
      exact (ih _ _).trans (swapIdx_perm l k (parentIdx k))
    · rw [if_neg hg]

theorem siftDownLoop_perm (cmp : α → α → Bool) :
    ∀ (fuel : Nat) (l : List α) (k : Nat), (siftDownLoop cmp l k fuel).Perm l := by
  intro fuel
  induction fuel with
  | zero => exact fun l k => List.Perm.refl l
  | succ fuel ih =>
    intro l k
    rw [siftDownLoop]
    by_cases hg : (leftIdx k < l.length ∧ greaterAt cmp l (leftIdx k) k = true) ∨
        (rightIdx k < l.length ∧ greaterAt cmp l (rightIdx k) k = true)
    · rw [if_pos hg]
      exact (ih _ _).trans (swapIdx_perm l k _)
    · rw [if_neg hg]

theorem heapPush_perm (cmp : α → α → Bool) (l : List α) (v : α) :
    (heapPush cmp l v).Perm (v :: l) := by
  unfold heapPush
  exact (siftUpLoop_perm cmp _ _ _).trans (List.perm_append_singleton v l)

theorem getLast?_eq_get?_own (l : List α) : l.getLast? = l.get? (l.length - 1) := by
  induction l with
  | nil => rfl
  | cons x xs ih =>
    cases xs with
    | nil => rfl
    | cons y ys =>
      rw [List.getLast?_cons_cons, ih]
      rfl

theorem heapPop_spec (cmp : α → α → Bool) (l : List α) (h : l ≠ []) :
    ∃ v, l.get? 0 = some v ∧ (heapPop cmp l).1 = some v ∧
      l.Perm (v :: (heapPop cmp l).2) := by
  have hlen : 0 < l.length := List.length_pos.mpr h
  obtain ⟨v, hv⟩ : ∃ v, l.get? 0 = some v := by
    rw [List.get?_eq_get hlen]
    exact ⟨_, rfl⟩
  refine ⟨v, hv, by unfold heapPop; rw [hv], ?_⟩
  show l.Perm (v :: siftDownLoop cmp _ 0 _)
  by_cases h2 : 0 < l.length - 1
  · rw [if_pos h2]
    have hl' : l.length - 1 < l.length := by omega
    set l' := swapIdx l 0 (l.length - 1) with hl'def
    have hperm : l'.Perm l := swapIdx_perm l 0 (l.length - 1)
    have hlen' : l'.length = l.length := length_swapIdx l 0 (l.length - 1)
    have hne' : l' ≠ [] := by
      intro hc
      rw [hc] at hlen'
      simp at hlen'
      omega
    have hget : l'.get? (l.length - 1) = some v := by
      show (swapIdx l 0 (l.length - 1)).get? (l.length - 1) = some v
      rw [get?_swapIdx l 0 (l.length - 1) hlen hl' (l.length - 1)]
      rw [if_neg (by omega), if_pos rfl]
      exact hv
    have hlast : l'.getLast hne' = v := by
      have h1 : l'.getLast? = l'.get? (l'.length - 1) := getLast?_eq_get?_own l'
      rw [List.getLast?_eq_getLast l' hne', hlen', hget] at h1
      exact Option.some_injective _ h1
    have e2 : l' = l'.dropLast ++ [v] := by
      rw [← hlast]
      exact (List.dropLast_append_getLast hne').symm
    have e12 : l.Perm (l'.dropLast ++ [v]) := by
      rw [← e2]
      exact hperm.symm
    have e3 : (l'.dropLast ++ [v]).Perm (v :: l'.dropLast) :=
      List.perm_append_singleton v _
    have e4 : (v :: l'.dropLast).Perm
        (v :: siftDownLoop cmp l'.dropLast 0 l'.dropLast.length) :=
      List.Perm.cons v (siftDownLoop_perm cmp _ _ _).symm
    exact (e12.trans e3).trans e4
  · rw [if_neg h2]
    have hlen1 : l.length = 1 := by omega
    obtain ⟨x, hx⟩ : ∃ x, l = [x] := by
      cases l with
      | nil => simp at hlen1
      | cons x xs =>
        cases xs with
        | nil => exact ⟨x, rfl⟩
        | cons y ys => simp at hlen1
    subst hx
    cases hv
    exact List.Perm.refl _

theorem nodes_add (f : Frontier) (n : Node) :
    (f.add n).nodes.Perm (n :: f.nodes) := by
  cases f with
  | stack l => exact List.perm_append_singleton n l
  | queue l => exact List.perm_append_singleton n l
  | greedy h => exact heapPush_perm greedyCmp h n
  | astar h => exact heapPush_perm aStarCmp h n

theorem nodes_empty_iff (f : Frontier) : f.empty = true ↔ f.nodes = [] := by
  cases f <;> simp [Frontier.empty, Frontier.nodes]

theorem remove_spec (f : Frontier) (h : f.empty = false) :
    ∃ nd f', f.remove = (some nd, f') ∧ f.nodes.Perm (nd :: f'.nodes) := by
  have hne : f.nodes ≠ [] := by
    intro hc
    rw [← nodes_empty_iff] at hc
    rw [hc] at h
    cases h
  cases f with
  | stack l =>
    have hc : ¬((l.length == 0) = true) := by
      simpa [Frontier.empty] using h
    refine ⟨l.getLast hne, Frontier.stack l.dropLast, ?_, ?_⟩
    · unfold Frontier.remove
      simp only [Frontier.removeE]
      rw [if_neg hc, List.getLast?_eq_getLast l hne]
    · have hne2 : l ≠ [] := hne
      show l.Perm (l.getLast hne :: l.dropLast)
      nth_rewrite 1 [← List.dropLast_append_getLast hne2]
      exact List.perm_append_singleton _ _
  | queue l =>
    have hc : ¬((l.length == 0) = true) := by
      simpa [Frontier.empty] using h
    cases l with
    | nil => exact absurd rfl hne
    | cons x xs =>
      refine ⟨x, Frontier.queue xs, ?_, List.Perm.refl _⟩
      unfold Frontier.remove
      simp only [Frontier.removeE]
      rw [if_neg hc]
      rfl
  | greedy hp =>
    obtain ⟨v, hv0, hv1, hperm⟩ := heapPop_spec greedyCmp hp hne
    exact ⟨v, Frontier.greedy (heapPop greedyCmp hp).2,
      by unfold Frontier.remove; simp only [Frontier.removeE]
         unfold heapPop at hv1 ⊢; rw [hv1], hperm⟩
  | astar hp =>
    obtain ⟨v, hv0, hv1, hperm⟩ := heapPop_spec aStarCmp hp hne
    exact ⟨v, Frontier.astar (heapPop aStarCmp hp).2,
      by unfold Frontier.remove; simp only [Frontier.removeE]
         unfold heapPop at hv1 ⊢; rw [hv1], hperm⟩

theorem state_equals_iff (a b : State) : State.equals a b = true ↔ a = b := by
  unfold State.equals
  rw [Bool.and_eq_true, beq_iff_eq, beq_iff_eq]
  constructor
  · rintro ⟨h1, h2⟩
    exact Prod.ext h1 h2
  · rintro rfl
    exact ⟨rfl, rfl⟩

theorem containers_state_iff (f : Frontier) (s : State) :
    f.containers_state s = true ↔ ∃ n ∈ f.nodes, n.state = s := by
  have key : ∀ l : List Node,
      (l.find? fun x => State.equals x.state s).isSome = true ↔ ∃ n ∈ l, n.state = s := by
    intro l
    rw [List.find?_isSome]
    constructor
    · rintro ⟨x, hx, hxs⟩
      exact ⟨x, hx, (state_equals_iff _ _).mp hxs⟩
    · rintro ⟨x, hx, hxs⟩
      exact ⟨x, hx, (state_equals_iff _ _).mpr hxs⟩
  cases f with
  | stack l => exact key l
  | queue l => exact key l
  | greedy hp => exact key hp
  | astar hp => exact key hp

/-! ## Counting explored cells -/

theorem listModify_of_length_le (f : α → α) (n : Nat) (l : List α)
    (h : l.length ≤ n) : listModify f n l = l := by
  induction l generalizing n with
  | nil => cases n <;> rfl
  | cons a as ih =>
    cases n with
    | zero => exact absurd h (by simp)
    | succ n =>
      show a :: listModify f n as = a :: as
      rw [ih n (by simpa using h)]

theorem listModify_of_fix (f : α → α) (n : Nat) (l : List α) (a : α)
    (hget : l.get? n = some a) (hfix : f a = a) : listModify f n l = l := by
  induction l generalizing n with
  | nil => cases n <;> cases hget
  | cons x xs ih =>
    cases n with
    | zero =>
      rw [List.get?_cons_zero] at hget
      cases hget
      show f a :: xs = a :: xs
      rw [hfix]
    | succ n =>
      rw [List.get?_cons_succ] at hget
      show x :: listModify f n xs = x :: xs
      rw [ih n hget]

theorem countP_listModify (pb : α → Bool) (g : α → α) (n : Nat) (l : List α) (a : α)
    (hget : l.get? n = some a) :
    (listModify g n l).countP pb + (if pb a then 1 else 0) =
      l.countP pb + (if pb (g a) then 1 else 0) := by
  induction l generalizing n with
  | nil => cases n <;> cases hget
  | cons x xs ih =>
    cases n with
    | zero =>
      rw [List.get?_cons_zero] at hget
      cases hget
      show (g a :: xs).countP pb + _ = _
      rw [List.countP_cons, List.countP_cons]
      omega
    | succ n =>
      rw [List.get?_cons_succ] at hget
      show (x :: listModify g n xs).countP pb + _ = _
      rw [List.countP_cons, List.countP_cons]
      have := ih n hget
      omega

theorem sum_map_listModify (f : α → Nat) (g : α → α) (n : Nat) (l : List α) (a : α)
    (hget : l.get? n = some a) :
    ((listModify g n l).map f).sum + f a = (l.map f).sum + f (g a) := by
  induction l generalizing n with
  | nil => cases n <;> cases hget
  | cons x xs ih =>
    cases n with
    | zero =>
      rw [List.get?_cons_zero] at hget
      cases hget
      show ((g a :: xs).map f).sum + _ = _
      rw [List.map_cons, List.map_cons, List.sum_cons, List.sum_cons]
      omega
    | succ n =>
      rw [List.get?_cons_succ] at hget
      show ((x :: listModify g n xs).map f).sum + _ = _
      rw [List.map_cons, List.map_cons, List.sum_cons, List.sum_cons]
      have := ih n hget
      omega

/-- A lookup that hits a real cell pins down the row. -/
theorem cellAt?_eq_some_elim (maze : MazeData) (p : State) (c : MazeCell)
    (h : cellAt? maze p = some c) :
    (0 ≤ p.1 ∧ 0 ≤ p.2) ∧ ∃ row, maze.get? p.1.toNat = some row ∧
      row.get? p.2.toNat = some c := by
  by_cases hp : 0 ≤ p.1 ∧ 0 ≤ p.2
  · refine ⟨hp, ?_⟩
    rw [cellAt?_eq_get? maze p hp] at h
    cases hrow : maze.get? p.1.toNat with
    | none =>
      rw [hrow] at h
      cases h
    | some row =>
      rw [hrow] at h
      exact ⟨row, rfl, h⟩
  · unfold cellAt? at h
    rw [if_neg hp] at h
    cases h

theorem modifyCellAt_of_none (maze : MazeData) (p : State) (f : MazeCell → MazeCell)
    (h : cellAt? maze p = none) : modifyCellAt maze p f = maze := by
  unfold modifyCellAt
  by_cases hp : 0 ≤ p.1 ∧ 0 ≤ p.2
  · rw [if_pos hp]
    rw [cellAt?_eq_get? maze p hp] at h
    cases hrow : maze.get? p.1.toNat with
    | none =>
      refine listModify_of_length_le _ _ _ ?_
      by_contra hlt
      push_neg at hlt
      rw [List.get?_eq_get hlt] at hrow
      cases hrow
    | some row =>
      rw [hrow] at h
      simp only [Option.getD_some] at h
      refine listModify_of_fix _ _ _ row hrow ?_
      refine listModify_of_length_le _ _ _ ?_
      by_contra hlt
      push_neg at hlt
      rw [List.get?_eq_get hlt] at h
      cases h
  · rw [if_neg hp]

theorem exploredCount_modifyCellAt (maze : MazeData) (p : State)
    (f : MazeCell → MazeCell) (c : MazeCell) (h : cellAt? maze p = some c) :
    exploredCount (modifyCellAt maze p f) +
      (if c.state == MazeCellState.Explored then 1 else 0) =
    exploredCount maze +
      (if (f c).state == MazeCellState.Explored then 1 else 0) := by
  obtain ⟨hp, row, hrow, hcell⟩ := cellAt?_eq_some_elim maze p c h
  unfold modifyCellAt exploredCount
  rw [if_pos hp]
  have hinner : (listModify f p.2.toNat row).countP
        (fun c => c.state == MazeCellState.Explored) +
        (if c.state == MazeCellState.Explored then 1 else 0) =
      row.countP (fun c => c.state == MazeCellState.Explored) +
        (if (f c).state == MazeCellState.Explored then 1 else 0) :=
    countP_listModify _ f p.2.toNat row c hcell
  have houter : ((listModify (fun row => listModify f p.2.toNat row)
          p.1.toNat maze).map
        (fun row => row.countP fun c => c.state == MazeCellState.Explored)).sum +
        row.countP (fun c => c.state == MazeCellState.Explored) =
      (maze.map
        (fun row => row.countP fun c => c.state == MazeCellState.Explored)).sum +
        (listModify f p.2.toNat row).countP
          (fun c => c.state == MazeCellState.Explored) :=
    sum_map_listModify _ _ p.1.toNat maze row hrow
  omega

theorem exploredCount_setCellLabel (maze : MazeData) (p : State) (lab : String) :
    exploredCount (setCellLabel maze p lab) = exploredCount maze := by
  cases h : cellAt? maze p with
  | none => rw [setCellLabel, modifyCellAt_of_none maze p _ h]
  | some c =>
    have := exploredCount_modifyCellAt maze p
      (fun c => { c with label := some lab }) c h
    simpa using this

theorem exploredCount_setCellState_keep (maze : MazeData) (p : State)
    (cs : MazeCellState) (hcs : cs ≠ MazeCellState.Explored)
    (h : getCellState maze p ≠ MazeCellState.Explored) :
    exploredCount (setCellState maze p cs) = exploredCount maze := by
  cases hc : cellAt? maze p with
  | none => rw [setCellState, modifyCellAt_of_none maze p _ hc]
  | some c =>
    have hst : c.state ≠ MazeCellState.Explored := by
      rw [getCellState_eq, hc] at h
      exact h
    have key : exploredCount (setCellState maze p cs) +
          (if c.state == MazeCellState.Explored then 1 else 0) =
        exploredCount maze + (if cs == MazeCellState.Explored then 1 else 0) :=
      exploredCount_modifyCellAt maze p (fun c => { c with state := cs }) c hc
    have e1 : (c.state == MazeCellState.Explored) = false := by
      simpa using hst
    have e2 : (cs == MazeCellState.Explored) = false := by
      simpa using hcs
    rw [e1, e2] at key
    omega

theorem exploredCount_setCellState_explored (maze : MazeData) (p : State)
    (c : MazeCell) (hc : cellAt? maze p = some c)
    (hst : c.state ≠ MazeCellState.Explored) :
    exploredCount (setCellState maze p MazeCellState.Explored) =
      exploredCount maze + 1 := by
  have key : exploredCount (setCellState maze p MazeCellState.Explored) +
        (if c.state == MazeCellState.Explored then 1 else 0) =
      exploredCount maze +
        (if MazeCellState.Explored == MazeCellState.Explored then 1 else 0) :=
    exploredCount_modifyCellAt maze p
      (fun c => { c with state := MazeCellState.Explored }) c hc
  have e1 : (c.state == MazeCellState.Explored) = false := by
    simpa using hst
  rw [e1] at key
  simp at key
  omega

theorem exploredCount_le_totalCells (maze : MazeData) :
    exploredCount maze ≤ totalCells maze := by
  unfold exploredCount totalCells
  induction maze with
  | nil => exact Nat.le_refl 0
  | cons row rows ih =>
    rw [List.map_cons, List.map_cons, List.sum_cons, List.sum_cons]
    exact Nat.add_le_add (List.countP_le_length _) ih

theorem totalCells_congr (maze₁ maze₂ : MazeData)
    (h : typesOf maze₁ = typesOf maze₂) : totalCells maze₁ = totalCells maze₂ := by
  have key : ∀ maze : MazeData, (typesOf maze).map List.length =
      maze.map List.length := by
    intro maze
    unfold typesOf
    rw [List.map_map]
    refine List.map_congr_left fun row _ => ?_
    simp
  unfold totalCells
  rw [← key maze₁, ← key maze₂, h]

/-! ## The cell-type layout determines `typeAt` -/

theorem typeAt_eq_typesOf (maze : MazeData) (t : State) :
    typeAt maze t =
      if 0 ≤ t.1 ∧ 0 ≤ t.2 then
        ((typesOf maze).getD t.1.toNat []).getD t.2.toNat MazeCellType.Space
      else MazeCellType.Space := by
  by_cases ht : 0 ≤ t.1 ∧ 0 ≤ t.2
  · rw [if_pos ht, typeAt_eq_getD maze t ht]
    unfold typesOf
    rw [show ([] : List MazeCellType) = List.map MazeCell.type [] from rfl,
      List.getD_map, show MazeCellType.Space = dfltCell.type from rfl, List.getD_map]
  · rw [if_neg ht]
    unfold typeAt cellAt?
    rw [if_neg ht]
    rfl

theorem typeAt_congr {maze₁ maze₂ : MazeData} (h : typesOf maze₁ = typesOf maze₂)
    (t : State) : typeAt maze₁ t = typeAt maze₂ t := by
  rw [typeAt_eq_typesOf, typeAt_eq_typesOf, h]

/-- On a grid with fresh marks, no cell reads `Frontier` or `Explored`. -/
theorem freshMarks_getCellState (maze : MazeData) (h : FreshMarks maze) (p : State) :
    getCellState maze p ≠ MazeCellState.Frontier ∧
      getCellState maze p ≠ MazeCellState.Explored := by
  rw [getCellState_eq]
  cases hc : cellAt? maze p with
  | none => exact ⟨by decide, by decide⟩
  | some c =>
    obtain ⟨-, row, hrow, hcell⟩ := cellAt?_eq_some_elim maze p c hc
    have hrm : row ∈ maze := List.get?_mem hrow
    have hcm : c ∈ row := List.get?_mem hcell
    exact h row hrm c hcm

/-! ## Paths, adjacency and distances -/

theorem adjacentP_symm {m : Maze} {maze : MazeData} {a b : State}
    (h : AdjacentP m maze a b) : AdjacentP m maze b a := by
  obtain ⟨ha, hb, hwa, hwb, hd⟩ := h
  refine ⟨hb, ha, hwb, hwa, ?_⟩
  unfold calcManhattanDistance at hd ⊢
  omega

theorem adjacent_mem_candidate {m : Maze} {maze : MazeData} {a b : State}
    (h : AdjacentP m maze a b) : ∃ act, (act, b) ∈ candidateList a := by
  obtain ⟨-, -, -, -, hd⟩ := h
  unfold calcManhattanDistance at hd
  have hb : b = (a.1 - 1, a.2) ∨ b = (a.1 + 1, a.2) ∨
      b = (a.1, a.2 - 1) ∨ b = (a.1, a.2 + 1) := by
    rcases b with ⟨b1, b2⟩
    rcases a with ⟨a1, a2⟩
    simp only [Prod.mk.injEq]
    simp only at hd
    omega
  unfold candidateList
  rcases hb with hb | hb | hb | hb
  · exact ⟨Action.Up, by rw [hb]; simp⟩
  · exact ⟨Action.Down, by rw [hb]; simp⟩
  · exact ⟨Action.Left, by rw [hb]; simp⟩
  · exact ⟨Action.Right, by rw [hb]; simp⟩

theorem candidate_manhattan {a b : State} {act : Action}
    (h : (act, b) ∈ candidateList a) : calcManhattanDistance a b = 1 := by
  unfold candidateList at h
  unfold calcManhattanDistance
  simp only [List.mem_cons, List.mem_singleton, Prod.mk.injEq,
    List.not_mem_nil, or_false] at h
  rcases h with ⟨-, hb⟩ | ⟨-, hb⟩ | ⟨-, hb⟩ | ⟨-, hb⟩
  · subst hb
    show (a.1 - (a.1 - 1)).natAbs + (a.2 - a.2).natAbs = 1
    omega
  · subst hb
    show (a.1 - (a.1 + 1)).natAbs + (a.2 - a.2).natAbs = 1
    omega
  · subst hb
    show (a.1 - a.1).natAbs + (a.2 - (a.2 - 1)).natAbs = 1
    omega
  · subst hb
    show (a.1 - a.1).natAbs + (a.2 - (a.2 + 1)).natAbs = 1
    omega

theorem pathLen_zero {m : Maze} {maze : MazeData} {a b : State}
    (h : PathLen m maze a b 0) : a = b := by
  cases h
  rfl

theorem pathLen_src {m : Maze} {maze : MazeData} {a b : State} {k : Nat}
    (h : PathLen m maze a b k) :
    InBoundsP m a ∧ typeAt maze a ≠ MazeCellType.Wall := by
  cases h with
  | refl _ h₁ h₂ => exact ⟨h₁, h₂⟩
  | cons _ t _ _ hadj _ => exact ⟨hadj.1, hadj.2.2.1⟩

theorem pathLen_dst {m : Maze} {maze : MazeData} {a b : State} {k : Nat}
    (h : PathLen m maze a b k) :
    InBoundsP m b ∧ typeAt maze b ≠ MazeCellType.Wall := by
  induction h with
  | refl _ h₁ h₂ => exact ⟨h₁, h₂⟩
  | cons _ _ _ _ _ _ ih => exact ih

theorem pathLen_snoc {m : Maze} {maze : MazeData} {a b c : State} {k : Nat}
    (h : PathLen m maze a b k) (hadj : AdjacentP m maze b c) :
    PathLen m maze a c (k + 1) := by
  induction h with
  | refl s _ _ =>
    exact PathLen.cons s c c 0 hadj (PathLen.refl c hadj.2.1 hadj.2.2.2.1)
  | cons s t u j hadj₀ _ ih =>
    exact PathLen.cons s t c (j + 1) hadj₀ (ih hadj)

theorem pathLen_snoc_inv {m : Maze} {maze : MazeData} :
    ∀ {k : Nat} {a b : State}, PathLen m maze a b (k + 1) →
      ∃ t, PathLen m maze a t k ∧ AdjacentP m maze t b := by
  intro k
  induction k with
  | zero =>
    intro a b h
    cases h with
    | cons _ t _ _ hadj hp =>
      have := pathLen_zero hp
      subst this
      exact ⟨a, PathLen.refl a hadj.1 hadj.2.2.1, hadj⟩
  | succ k ih =>
    intro a b h
    cases h with
    | cons _ t _ _ hadj hp =>
      obtain ⟨u, hu, hadj'⟩ := ih hp
      exact ⟨u, PathLen.cons a t u k hadj hu, hadj'⟩

theorem dist_exists {m : Maze} {maze : MazeData} {a b : State} {k : Nat}
    (h : PathLen m maze a b k) : ∃ d, IsDistance m maze a b d ∧ d ≤ k := by
  have hne : {j | PathLen m maze a b j}.Nonempty := ⟨k, h⟩
  refine ⟨sInf {j | PathLen m maze a b j}, ⟨Nat.sInf_mem hne, ?_⟩, Nat.sInf_le h⟩
  exact fun j hj => Nat.sInf_le hj

theorem dist_unique {m : Maze} {maze : MazeData} {a b : State} {d d' : Nat}
    (h : IsDistance m maze a b d) (h' : IsDistance m maze a b d') : d = d' :=
  Nat.le_antisymm (h.2 h'.1) (h'.2 h.1)

theorem manhattan_le_pathLen {m : Maze} {maze : MazeData} {a b : State} {k : Nat}
    (h : PathLen m maze a b k) : calcManhattanDistance a b ≤ k := by
  induction h with
  | refl s _ _ =>
    unfold calcManhattanDistance
    simp
  | cons s t u j hadj _ ih =>
    have h1 : calcManhattanDistance s t = 1 := hadj.2.2.2.2
    unfold calcManhattanDistance at h1 ih ⊢
    omega

/-- A node with a valid parent chain yields a path of `pathCost` moves from
the start to its state. -/
theorem chain_pathLen {m : Maze} {maze : MazeData} :
    ∀ n : Node, ChainOK m maze n → PathLen m maze m.start n.state n.pathCost
  | .mk st none a md c, h => by
    obtain ⟨hst, hc, hib, hw⟩ := h
    subst hst
    subst hc
    exact PathLen.refl _ hib hw
  | .mk st (some p) a md c, h => by
    obtain ⟨hib, hw, hadj, hc, hp⟩ := h
    have ih := chain_pathLen p hp
    subst hc
    exact pathLen_snoc ih hadj

/-- The reconstructed path of a valid chain has `pathCost` edges, that is
`pathCost + 1` states. -/
theorem chainStates_length {m : Maze} {maze : MazeData} :
    ∀ n : Node, ChainOK m maze n → (chainStates n).length = n.pathCost + 1
  | .mk st none a md c, h => by
    obtain ⟨-, hc, -, -⟩ := h
    subst hc
    rfl
  | .mk st (some p) a md c, h => by
    obtain ⟨-, -, -, hc, hp⟩ := h
    have ih := chainStates_length p hp
    subst hc
    show (chainStates p).length + 1 = p.pathCost + 1 + 1
    omega

theorem listPathB_pathLen (m : Maze) (maze : MazeData) :
    ∀ (l : List State) (a b : State), listPathB m maze (a :: l) = true →
      (a :: l).getLast (by simp) = b → PathLen m maze a b l.length := by
  intro l
  induction l with
  | nil =>
    intro a b h hb
    simp only [List.getLast_singleton] at hb
    subst hb
    unfold listPathB at h
    rw [Bool.and_eq_true, decide_eq_true_iff, decide_eq_true_iff] at h
    exact PathLen.refl a h.1 h.2
  | cons t rest ih =>
    intro a b h hb
    unfold listPathB at h
    rw [Bool.and_eq_true, decide_eq_true_iff] at h
    have hlast : (t :: rest).getLast (by simp) = b := by
      rw [← hb]
      exact (List.getLast_cons _).symm
    exact PathLen.cons a t b rest.length h.1 (ih t b h.2 hlast)

/-! ## The neighbor list and adjacency -/

theorem mem_neighbors_iff (m : Maze) (maze : MazeData) (s : State)
    (a : Action) (t : State) :
    (a, t) ∈ neighbors m maze s ↔
      ((a, t) ∈ candidateList s ∧ InBoundsP m t ∧
        typeAt maze t ≠ MazeCellType.Wall) := by
  unfold neighbors
  rw [List.mem_filter]
  refine and_congr_right fun _ => ?_
  show (if t.1 < 0 ∨ (m.height : Int) ≤ t.1 then false
    else if t.2 < 0 ∨ (m.width : Int) ≤ t.2 then false
    else decide (((maze.getD t.1.toNat []).getD t.2.toNat dfltCell).type
      ≠ MazeCellType.Wall)) = true ↔ _
  by_cases h1 : t.1 < 0 ∨ (m.height : Int) ≤ t.1
  · rw [if_pos h1]
    constructor
    · intro hf
      exact absurd hf (by simp)
    · rintro ⟨hib, -⟩
      exfalso
      unfold InBoundsP at hib
      omega
  · rw [if_neg h1]
    by_cases h2 : t.2 < 0 ∨ (m.width : Int) ≤ t.2
    · rw [if_pos h2]
      constructor
      · intro hf
        exact absurd hf (by simp)
      · rintro ⟨hib, -⟩
        exfalso
        unfold InBoundsP at hib
        omega
    · rw [if_neg h2, decide_eq_true_iff,
        ← typeAt_eq_getD maze t ⟨by omega, by omega⟩]
      constructor
      · intro hty
        exact ⟨⟨by omega, by omega, by omega, by omega⟩, hty⟩
      · rintro ⟨-, hty⟩
        exact hty

/-- Spec-side adjacency over the initial layout coincides with membership
in the neighbor list computed over any maze with the same layout. -/
theorem adjacent_iff_neighbors {m : Maze} {maze0 maze1 : MazeData}
    (h : typesOf maze1 = typesOf maze0) {x : State}
    (hxib : InBoundsP m x) (hxw : typeAt maze0 x ≠ MazeCellType.Wall)
    (p : State) :
    AdjacentP m maze0 x p ↔ ∃ a, (a, p) ∈ neighbors m maze1 x := by
  constructor
  · intro hadj
    obtain ⟨act, hmem⟩ := adjacent_mem_candidate hadj
    refine ⟨act, (mem_neighbors_iff m maze1 x act p).mpr ⟨hmem, hadj.2.1, ?_⟩⟩
    rw [typeAt_congr h p]
    exact hadj.2.2.2.1
  · rintro ⟨act, hmem⟩
    obtain ⟨hcand, hib, hw⟩ := (mem_neighbors_iff m maze1 x act p).mp hmem
    rw [typeAt_congr h p] at hw
    exact ⟨hxib, hib, hxw, hw, candidate_manhattan hcand⟩

theorem containers_state_eq_false_iff (f : Frontier) (s : State) :
    f.containers_state s = false ↔ ∀ n ∈ f.nodes, n.state ≠ s := by
  rw [← Bool.not_eq_true, containers_state_iff]
  push_neg
  rfl

/-- The state of every candidate differs from the state itself. -/
theorem candidate_ne_self {a b : State} {act : Action}
    (h : (act, b) ∈ candidateList a) : b ≠ a := by
  intro hb
  have := candidate_manhattan h
  subst hb
  unfold calcManhattanDistance at this
  omega

theorem candidateList_states_nodup (s : State) :
    ((candidateList s).map Prod.snd).Nodup := by
  rcases s with ⟨r, c⟩
  show List.Nodup [(r - 1, c), (r + 1, c), (r, c - 1), (r, c + 1)]
  refine List.nodup_cons.mpr ⟨?_, List.nodup_cons.mpr ⟨?_,
    List.nodup_cons.mpr ⟨?_, List.nodup_singleton _⟩⟩⟩
  · intro h
    simp only [List.mem_cons, List.mem_singleton, List.not_mem_nil, or_false,
      Prod.mk.injEq] at h
    rcases h with ⟨h1, h2⟩ | ⟨h1, h2⟩ | ⟨h1, h2⟩ <;> omega
  · intro h
    simp only [List.mem_cons, List.mem_singleton, List.not_mem_nil, or_false,
      Prod.mk.injEq] at h
    rcases h with ⟨h1, h2⟩ | ⟨h1, h2⟩ <;> omega
  · intro h
    simp only [List.mem_singleton, Prod.mk.injEq] at h
    rcases h with ⟨h1, h2⟩
    omega

theorem mem_grid_states (h w : Nat) (p : State) (h1 : 0 ≤ p.1)
    (h2 : p.1 < (h : Int)) (h3 : 0 ≤ p.2) (h4 : p.2 < (w : Int)) :
    p ∈ (List.range h).flatMap fun i =>
      (List.range w).map fun j => (Int.ofNat i, Int.ofNat j) := by
  rw [List.mem_flatMap]
  have hm1 : p.1.toNat ∈ List.range h := List.mem_range.mpr (by omega)
  have hm2 : p.2.toNat ∈ List.range w := List.mem_range.mpr (by omega)
  refine ⟨p.1.toNat, hm1, ?_⟩
  rw [List.mem_map]
  refine ⟨p.2.toNat, hm2, ?_⟩
  rcases p with ⟨pr, pc⟩
  simp only at h1 h3 ⊢
  rw [show Int.ofNat pr.toNat = (pr.toNat : Int) from rfl,
    show Int.ofNat pc.toNat = (pc.toNat : Int) from rfl,
    Int.toNat_of_nonneg h1, Int.toNat_of_nonneg h3]

theorem mem_nonWallCells {m : Maze} {maze : MazeData} {p : State}
    (hib : InBoundsP m p) (hw : typeAt maze p ≠ MazeCellType.Wall) :
    p ∈ nonWallCells m maze := by
  obtain ⟨h1, h2, h3, h4⟩ := hib
  unfold nonWallCells
  rw [List.mem_filter]
  refine ⟨mem_grid_states m.height m.width p h1 h2 h3 h4, by simpa using hw⟩

theorem chain_head {m : Maze} {maze : MazeData} (n : Node) (h : ChainOK m maze n) :
    InBoundsP m n.state ∧ typeAt maze n.state ≠ MazeCellType.Wall := by
  cases n with
  | mk st p a md c =>
    cases p with
    | none => exact ⟨h.2.2.1, h.2.2.2⟩
    | some p => exact ⟨h.1, h.2.1⟩

theorem frontier_size_bound {m : Maze} {maze : MazeData} (ns : List Node)
    (hnd : (ns.map Node.state).Nodup)
    (hok : ∀ n ∈ ns, ChainOK m maze n) :
    ns.length ≤ (nonWallCells m maze).length := by
  have hsub : (ns.map Node.state) ⊆ nonWallCells m maze := by
    intro p hp
    rw [List.mem_map] at hp
    obtain ⟨n, hn, hps⟩ := hp
    obtain ⟨hib, hw⟩ := chain_head n (hok n hn)
    rw [← hps]
    exact mem_nonWallCells hib hw
  have := (List.subperm_of_subset hnd hsub).length_le
  rw [List.length_map] at this
  exact this

/-! ## The neighbor-expansion loop -/

theorem cellAt?_isSome_modifyCellAt (maze : MazeData) (s t : State)
    (f : MazeCell → MazeCell) :
    (cellAt? (modifyCellAt maze s f) t).isSome = (cellAt? maze t).isSome := by
  rw [cellAt?_modifyCellAt]
  by_cases h : t = s
  · rw [if_pos h]
    cases cellAt? maze t <;> rfl
  · rw [if_neg h]

theorem cellAt?_isSome_setCellState (maze : MazeData) (s t : State)
    (cs : MazeCellState) :
    (cellAt? (setCellState maze s cs) t).isSome = (cellAt? maze t).isSome :=
  cellAt?_isSome_modifyCellAt maze s t _

theorem cellAt?_isSome_setCellLabel (maze : MazeData) (s t : State) (lab : String) :
    (cellAt? (setCellLabel maze s lab) t).isSome = (cellAt? maze t).isSome :=
  cellAt?_isSome_modifyCellAt maze s t _

theorem nodes_mem_add (f : Frontier) (n x : Node) :
    x ∈ (f.add n).nodes ↔ x = n ∨ x ∈ f.nodes := by
  rw [(nodes_add f n).mem_iff, List.mem_cons]

theorem containers_state_add_false (f : Frontier) (n : Node) (p : State) :
    (f.add n).containers_state p = false ↔
      n.state ≠ p ∧ f.containers_state p = false := by
  rw [containers_state_eq_false_iff, containers_state_eq_false_iff]
  constructor
  · intro h
    exact ⟨h n ((nodes_mem_add f n n).mpr (Or.inl rfl)),
      fun x hx => h x ((nodes_mem_add f n x).mpr (Or.inr hx))⟩
  · rintro ⟨h1, h2⟩ x hx
    rcases (nodes_mem_add f n x).mp hx with rfl | hx
    · exact h1
    · exact h2 x hx

/-- Complete characterization of the neighbor-expansion loop of the `next`
closure: the resulting frontier carries a list of children — one for each
candidate state not already in the frontier and not marked `Explored` —
each a fresh node parented at the expanded node with cost one more; the
children's states are distinct; exactly the children's cells get marked
`Frontier` and nothing else changes; the count of `Explored` cells is
untouched; and on a queue the children are appended at the back in
order. -/
theorem expand_spec (m : Maze) (node : Node) :
    ∀ (l : List (Action × State)) (mz : MazeData) (fr : Frontier),
      (l.map Prod.snd).Nodup →
      (∀ c ∈ l, (cellAt? mz c.2).isSome = true) →
      ∃ kids : List Node,
        ((l.foldl (expandOne m node) (mz, fr)).2.nodes.Perm (kids ++ fr.nodes)) ∧
        (∀ k ∈ kids, ∃ act, (act, k.state) ∈ l ∧
          k = Node.mk k.state (some node) (some act)
            (calcManhattanDistance k.state m.goal) (node.pathCost + 1)) ∧
        ((kids.map Node.state).Nodup) ∧
        (∀ p : State, p ∈ kids.map Node.state ↔
          (p ∈ l.map Prod.snd ∧ fr.containers_state p = false ∧
            getCellState mz p ≠ MazeCellState.Explored)) ∧
        (∀ p : State, getCellState (l.foldl (expandOne m node) (mz, fr)).1 p =
          if p ∈ kids.map Node.state then MazeCellState.Frontier
          else getCellState mz p) ∧
        (exploredCount (l.foldl (expandOne m node) (mz, fr)).1 =
          exploredCount mz) ∧
        (∀ q : List Node, fr = Frontier.queue q →
          (l.foldl (expandOne m node) (mz, fr)).2 = Frontier.queue (q ++ kids)) := by
  intro l
  induction l with
  | nil =>
    intro mz fr hnd hcells
    refine ⟨[], List.Perm.refl _, by simp, List.nodup_nil, fun p => by simp,
      fun p => by simp, rfl, ?_⟩
    intro q hq
    rw [List.foldl_nil, hq]
    simp
  | cons c rest ih =>
    intro mz fr hnd hcells
    rw [List.map_cons, List.nodup_cons] at hnd
    obtain ⟨hc_notin, hnd'⟩ := hnd
    rw [List.foldl_cons]
    by_cases hcond : fr.containers_state c.2 = false ∧
        getCellState mz c.2 ≠ MazeCellState.Explored
    · -- the candidate becomes a child node
      set child : Node := Node.mk c.2 (some node) (some c.1)
        (calcManhattanDistance c.2 m.goal) (node.pathCost + 1) with hchild
      set lab : String := (fr.add child).getLabel child with hlab
      set mz' : MazeData :=
        setCellState (setCellLabel mz c.2 lab) c.2 MazeCellState.Frontier with hmz'
      have hstep : expandOne m node (mz, fr) c = (mz', fr.add child) := by
        dsimp only [expandOne]
        rw [if_pos hcond]
        rfl
      rw [hstep]
      have hsome : (cellAt? mz c.2).isSome = true :=
        hcells c (List.mem_cons_self c rest)
      have hmz'_self : getCellState mz' c.2 = MazeCellState.Frontier := by
        rw [hmz']
        refine getCellState_setCellState_self _ _ _ ?_
        rw [cellAt?_isSome_setCellLabel]
        exact hsome
      have hmz'_ne : ∀ p : State, p ≠ c.2 → getCellState mz' p = getCellState mz p := by
        intro p hp
        rw [hmz', getCellState_setCellState_ne _ _ _ _ hp, getCellState_setCellLabel]
      have hcells' : ∀ c' ∈ rest, (cellAt? mz' c'.2).isSome = true := by
        intro c' hc'
        rw [hmz', cellAt?_isSome_setCellState, cellAt?_isSome_setCellLabel]
        exact hcells c' (List.mem_cons_of_mem c hc')
      obtain ⟨kids', hperm, hkind, hnodup, hiff, hmarks, hcount, hqueue⟩ :=
        ih mz' (fr.add child) hnd' hcells'
      have hkids'_sub : ∀ p : State, p ∈ kids'.map Node.state →
          p ∈ rest.map Prod.snd := fun p hp => ((hiff p).mp hp).1
      have hc2_notin_kids' : c.2 ∉ kids'.map Node.state := fun hmem =>
        hc_notin (hkids'_sub c.2 hmem)
      refine ⟨child :: kids', ?_, ?_, ?_, ?_, ?_, ?_, ?_⟩
      · -- the frontier holds the children plus the previous nodes
        have h1 : (rest.foldl (expandOne m node) (mz', fr.add child)).2.nodes.Perm
            (kids' ++ (fr.add child).nodes) := hperm
        have h2 : (kids' ++ (fr.add child).nodes).Perm
            (kids' ++ (child :: fr.nodes)) :=
          List.Perm.append_left kids' (nodes_add fr child)
        have h3 : (kids' ++ (child :: fr.nodes)).Perm
            ((child :: kids') ++ fr.nodes) := List.perm_middle
        exact (h1.trans h2).trans h3
      · -- every child comes from a candidate
        intro k hk
        rcases List.mem_cons.mp hk with rfl | hk
        · exact ⟨c.1, List.mem_cons_self c rest, rfl⟩
        · obtain ⟨act, hmem, hkeq⟩ := hkind k hk
          exact ⟨act, List.mem_cons_of_mem c hmem, hkeq⟩
      · -- distinct child states
        rw [List.map_cons, List.nodup_cons]
        exact ⟨hc2_notin_kids', hnodup⟩
      · -- exactness of the child set
        intro p
        rw [List.map_cons, List.mem_cons, List.map_cons, List.mem_cons]
        by_cases hp : p = c.2
        · subst hp
          constructor
          · intro h
            exact ⟨Or.inl rfl, hcond.1, hcond.2⟩
          · intro h
            exact Or.inl rfl
        · have hpc : ¬(p = child.state) := hp
          have hpc' : child.state ≠ p := fun h => hp h.symm
          constructor
          · rintro (h | h)
            · exact absurd h hpc
            · obtain ⟨h1, h2, h3⟩ := (hiff p).mp h
              refine ⟨Or.inr h1, ?_, ?_⟩
              · exact ((containers_state_add_false fr child p).mp h2).2
              · rw [hmz'_ne p hp] at h3
                exact h3
          · rintro ⟨h1 | h1, h2, h3⟩
            · exact absurd h1 hp
            · refine Or.inr ((hiff p).mpr ⟨h1, ?_, ?_⟩)
              · exact (containers_state_add_false fr child p).mpr ⟨hpc', h2⟩
              · rw [hmz'_ne p hp]
                exact h3
      · -- the marks after the loop
        intro p
        rw [hmarks p]
        by_cases hin : p ∈ kids'.map Node.state
        · have hin2 : p ∈ (child :: kids').map Node.state := by
            rw [List.map_cons]
            exact List.mem_cons_of_mem _ hin
          rw [if_pos hin, if_pos hin2]
        · rw [if_neg hin]
          by_cases hp : p = c.2
          · subst hp
            have hin2 : c.2 ∈ (child :: kids').map Node.state := by
              rw [List.map_cons]
              exact List.mem_cons.mpr (Or.inl rfl)
            rw [if_pos hin2]
            exact hmz'_self
          · have hin2 : p ∉ (child :: kids').map Node.state := by
              rw [List.map_cons, List.mem_cons]
              rintro (h | h)
              · exact hp h
              · exact hin h
            rw [if_neg hin2]
            exact hmz'_ne p hp
      · -- the explored count is untouched
        rw [hcount, hmz', exploredCount_setCellState_keep, exploredCount_setCellLabel]
        · intro h
          cases h
        · rw [getCellState_setCellLabel]
          exact hcond.2
      · -- on a queue the children are appended in order
        intro q hq
        subst hq
        have hadd : (Frontier.queue q).add child = Frontier.queue (q ++ [child]) := rfl
        rw [hadd] at hqueue ⊢
        rw [hqueue (q ++ [child]) rfl, List.append_assoc]
        rfl
    · -- the candidate is skipped
      have hstep : expandOne m node (mz, fr) c = (mz, fr) := by
        dsimp only [expandOne]
        rw [if_neg hcond]
      rw [hstep]

      obtain ⟨kids', hperm, hkind, hnodup, hiff, hmarks, hcount, hqueue⟩ :=
        ih mz fr hnd' fun c' hc' => hcells c' (List.mem_cons_of_mem c hc')
      refine ⟨kids', hperm, ?_, hnodup, ?_, hmarks, hcount, hqueue⟩
      · intro k hk
        obtain ⟨act, hmem, hkeq⟩ := hkind k hk
        exact ⟨act, List.mem_cons_of_mem c hmem, hkeq⟩
      · intro p
        rw [hiff p, List.map_cons, List.mem_cons]
        by_cases hp : p = c.2
        · subst hp
          constructor
          · rintro ⟨h1, h2, h3⟩
            exact absurd h1 hc_notin
          · rintro ⟨-, h2, h3⟩
            exact absurd ⟨h2, h3⟩ hcond
        · constructor
          · rintro ⟨h1, h2, h3⟩
            exact ⟨Or.inr h1, h2, h3⟩
          · rintro ⟨h1 | h1, h2, h3⟩
            · exact absurd h1 hp
            · exact ⟨h1, h2, h3⟩

/-! ## One full step of the search while the popped node is not the goal -/

theorem adjacent_ne {m : Maze} {maze : MazeData} {a b : State}
    (h : AdjacentP m maze a b) : b ≠ a := by
  intro hb
  have hd := h.2.2.2.2
  subst hb
  unfold calcManhattanDistance at hd
  omega

theorem cellAt?_isSome_of_state_ne (maze : MazeData) (p : State)
    (h : getCellState maze p ≠ MazeCellState.Unexplored) :
    (cellAt? maze p).isSome = true := by
  rw [getCellState_eq] at h
  cases hc : cellAt? maze p with
  | none =>
    rw [hc] at h
    exact absurd rfl h
  | some c => rfl

theorem cellAt?_isSome_congr {maze₁ maze₂ : MazeData}
    (h : typesOf maze₁ = typesOf maze₂) (p : State) :
    (cellAt? maze₁ p).isSome = (cellAt? maze₂ p).isSome := by
  have key : ∀ maze : MazeData,
      ((typesOf maze).getD p.1.toNat []).length = (maze.getD p.1.toNat []).length := by
    intro maze
    unfold typesOf
    rw [show ([] : List MazeCellType) = List.map MazeCell.type [] from rfl,
      List.getD_map, List.length_map]
  have hlen : (maze₁.getD p.1.toNat []).length = (maze₂.getD p.1.toNat []).length := by
    rw [← key maze₁, ← key maze₂, h]
  unfold cellAt?
  by_cases hp : 0 ≤ p.1 ∧ 0 ≤ p.2
  · rw [if_pos hp, if_pos hp]
    by_cases hlt : p.2.toNat < (maze₁.getD p.1.toNat []).length
    · rw [List.get?_eq_get hlt, List.get?_eq_get (hlen ▸ hlt)]
      rfl
    · have h1 : (maze₁.getD p.1.toNat []).get? p.2.toNat = none :=
        List.get?_eq_none.mpr (by omega)
      have h2 : (maze₂.getD p.1.toNat []).get? p.2.toNat = none :=
        List.get?_eq_none.mpr (by omega)
      rw [h1, h2]
  · rw [if_neg hp, if_neg hp]

theorem cellAt?_isSome_of_inBounds {m : Maze} {maze : MazeData}
    (hh : maze.length = m.height)
    (hrect : ∀ row ∈ maze, row.length = m.width) {p : State}
    (hib : InBoundsP m p) : (cellAt? maze p).isSome = true := by
  obtain ⟨h1, h2, h3, h4⟩ := hib
  rw [cellAt?_eq_get? maze p ⟨h1, h3⟩]
  have hr : p.1.toNat < maze.length := by omega
  rw [List.get?_eq_get hr]
  simp only [Option.getD_some]
  have hrl : (maze.get ⟨p.1.toNat, hr⟩).length = m.width :=
    hrect _ (maze.get_mem _ _)
  have hc : p.2.toNat < (maze.get ⟨p.1.toNat, hr⟩).length := by
    rw [hrl]
    omega
  rw [List.get?_eq_get hc]
  rfl

theorem step_expand (m : Maze) (maze0 : MazeData) (s : SolveState) (x : Node)
    (f' : Frontier)
    (hh : maze0.length = m.height)
    (hrect : ∀ row ∈ maze0, row.length = m.width)
    (hInv : SearchInv m maze0 s)
    (hne : s.frontier.empty = false)
    (hrem : s.frontier.remove = (some x, f'))
    (hperm : s.frontier.nodes.Perm (x :: f'.nodes))
    (hxg : x.state ≠ m.goal) :
    SearchInv m maze0 (step m s) ∧
    (step m s).solutionType = s.solutionType ∧
    (step m s).solution = s.solution ∧
    (step m s).numExplored = s.numExplored + 1 ∧
    exploredCount (step m s).maze = exploredCount s.maze + 1 ∧
    (∀ p : State, DiscoveredAt s.maze p → DiscoveredAt (step m s).maze p) ∧
    (∀ n' ∈ (step m s).frontier.nodes,
      n' ∈ s.frontier.nodes ∨ ¬ DiscoveredAt s.maze n'.state) ∧
    (∀ q : State, AdjacentP m maze0 x.state q → DiscoveredAt (step m s).maze q) ∧
    ∃ kids : List Node,
      (step m s).frontier.nodes.Perm (kids ++ f'.nodes) ∧
      (∀ k ∈ kids, k.pathCost = x.pathCost + 1) ∧
      (∀ p : State, p ∈ kids.map Node.state ↔
        AdjacentP m maze0 x.state p ∧ ¬ DiscoveredAt s.maze p) ∧
      (∀ q0 : List Node, s.frontier = Frontier.queue q0 →
        ∃ tail, q0 = x :: tail ∧ f' = Frontier.queue tail ∧
          (step m s).frontier = Frontier.queue (tail ++ kids)) := by
  -- facts about the popped node
  have hxmem : x ∈ s.frontier.nodes :=
    hperm.mem_iff.mpr (List.mem_cons_self _ _)
  have hxok : ChainOK m maze0 x := hInv.chain x hxmem
  obtain ⟨hxib, hxw⟩ := chain_head x hxok
  have hfrmark : getCellState s.maze x.state = MazeCellState.Frontier :=
    (hInv.marks x.state).mpr ⟨x, hxmem, rfl⟩
  -- the state sets of the frontier before and after the pop
  have hmapperm : (s.frontier.nodes.map Node.state).Perm
      (x.state :: f'.nodes.map Node.state) := by
    have := hperm.map Node.state
    simpa using this
  have hnds : (x.state :: f'.nodes.map Node.state).Nodup :=
    hmapperm.nodup_iff.mp hInv.nodupStates
  have hxnotf' : x.state ∉ f'.nodes.map Node.state := (List.nodup_cons.mp hnds).1
  have hndf' : (f'.nodes.map Node.state).Nodup := (List.nodup_cons.mp hnds).2
  have hmem_f'_s : ∀ n ∈ f'.nodes, n ∈ s.frontier.nodes := fun n hn =>
    hperm.mem_iff.mpr (List.mem_cons_of_mem x hn)
  -- reduce the step function
  have hemp : ¬(s.frontier.empty = true) := by
    rw [hne]
    exact Bool.false_ne_true
  have hbeq : ¬(State.equals x.state m.goal = true) := fun h =>
    hxg ((state_equals_iff _ _).mp h)
  set maze1 : MazeData := setCellState s.maze x.state MazeCellState.Explored
    with hmaze1
  set nbrs : List (Action × State) := neighbors m maze1 x.state with hnbrs
  set mf : MazeData × Frontier := nbrs.foldl (expandOne m x) (maze1, f') with hmf
  have hsrep : step m s =
      { maze := mf.1, frontier := mf.2, numExplored := s.numExplored + 1,
        solutionType := s.solutionType, solution := s.solution } := by
    unfold step
    rw [if_neg hemp, hrem]
    dsimp only
    rw [if_neg hbeq]
  rw [hsrep]
  dsimp only
  -- the types are unchanged
  have htypes1 : typesOf maze1 = typesOf maze0 := by
    rw [hmaze1, typesOf_setCellState]
    exact hInv.types
  have htypes2 : typesOf mf.1 = typesOf maze0 := by
    rw [hmf, typesOf_expand_foldl]
    exact htypes1
  -- the cell of the popped node and the marks on `maze1`
  have hsomex : (cellAt? s.maze x.state).isSome = true :=
    cellAt?_isSome_of_state_ne s.maze x.state (by rw [hfrmark]; intro h; cases h)
  have hmaze1_self : getCellState maze1 x.state = MazeCellState.Explored := by
    rw [hmaze1]
    exact getCellState_setCellState_self _ _ _ hsomex
  have hmaze1_ne : ∀ p : State, p ≠ x.state →
      getCellState maze1 p = getCellState s.maze p := by
    intro p hp
    rw [hmaze1]
    exact getCellState_setCellState_ne _ _ _ _ hp
  -- expand the neighbor loop
  have hnd : (nbrs.map Prod.snd).Nodup := by
    refine List.Nodup.sublist ?_ (candidateList_states_nodup x.state)
    exact List.Sublist.map Prod.snd (List.filter_sublist _)
  have hcells : ∀ c ∈ nbrs, (cellAt? maze1 c.2).isSome = true := by
    intro c hc
    obtain ⟨-, hib, -⟩ := (mem_neighbors_iff m maze1 x.state c.1 c.2).mp
      (by rw [hnbrs] at hc; exact hc)
    rw [cellAt?_isSome_congr htypes1 c.2]
    exact cellAt?_isSome_of_inBounds hh hrect hib
  obtain ⟨kids, hkperm, hkind, hknodup, hkiff, hkmarks, hkcount, hkqueue⟩ :=
    expand_spec m x nbrs maze1 f' hnd hcells
  -- children in specification terms
  have hkiff' : ∀ p : State, p ∈ kids.map Node.state ↔
      AdjacentP m maze0 x.state p ∧ ¬ DiscoveredAt s.maze p := by
    intro p
    rw [hkiff p]
    constructor
    · rintro ⟨h1, h2, h3⟩
      obtain ⟨⟨act, pp⟩, hmem, hpp⟩ := List.mem_map.mp h1
      have hmem' : (act, p) ∈ neighbors m maze1 x.state := by
        rw [← hnbrs]
        simpa [← hpp] using hmem
      have hadj : AdjacentP m maze0 x.state p :=
        (adjacent_iff_neighbors htypes1 hxib hxw p).mpr ⟨act, hmem'⟩
      have hpx : p ≠ x.state := adjacent_ne hadj
      refine ⟨hadj, ?_⟩
      rintro (hd | hd)
      · obtain ⟨n, hn, hns⟩ := (hInv.marks p).mp hd
        have hn' : n ∈ x :: f'.nodes := hperm.mem_iff.mp hn
        rcases List.mem_cons.mp hn' with rfl | hn'
        · exact hpx hns.symm
        · exact (containers_state_eq_false_iff f' p).mp h2 n hn' hns
      · rw [hmaze1_ne p hpx] at h3
        exact h3 hd
    · rintro ⟨hadj, hnd⟩
      have hpx : p ≠ x.state := adjacent_ne hadj
      obtain ⟨act, hmem⟩ := (adjacent_iff_neighbors htypes1 hxib hxw p).mp hadj
      refine ⟨?_, ?_, ?_⟩
      · rw [hnbrs]
        exact List.mem_map.mpr ⟨(act, p), hmem, rfl⟩
      · rw [containers_state_eq_false_iff]
        intro n hn hns
        refine hnd (Or.inl ((hInv.marks p).mpr ⟨n, hmem_f'_s n hn, hns⟩))
      · rw [hmaze1_ne p hpx]
        intro hexp
        exact hnd (Or.inr hexp)
  have hkid_ne_x : x.state ∉ kids.map Node.state := by
    intro hmem
    exact adjacent_ne ((hkiff' x.state).mp hmem).1 rfl
  -- the final marks in terms of the pre-step maze
  have hfinmarks : ∀ p : State, getCellState mf.1 p =
      if p ∈ kids.map Node.state then MazeCellState.Frontier
      else if p = x.state then MazeCellState.Explored
      else getCellState s.maze p := by
    intro p
    have h0 : getCellState mf.1 p =
        if p ∈ kids.map Node.state then MazeCellState.Frontier
        else getCellState maze1 p := hkmarks p
    rw [h0]
    by_cases hk : p ∈ kids.map Node.state
    · rw [if_pos hk, if_pos hk]
    · rw [if_neg hk, if_neg hk]
      by_cases hp : p = x.state
      · subst hp
        rw [if_pos rfl]
        exact hmaze1_self
      · rw [if_neg hp]
        exact hmaze1_ne p hp
  -- discovery is monotone across the step
  have hmono : ∀ p : State, DiscoveredAt s.maze p → DiscoveredAt mf.1 p := by
    intro p hd
    rw [DiscoveredAt, hfinmarks p]
    by_cases hk : p ∈ kids.map Node.state
    · rw [if_pos hk]
      exact Or.inl rfl
    · rw [if_neg hk]
      by_cases hp : p = x.state
      · rw [if_pos hp]
        exact Or.inr rfl
      · rw [if_neg hp]
        exact hd
  -- all neighbors of the popped state are discovered afterwards
  have hadj_disc : ∀ q : State, AdjacentP m maze0 x.state q →
      DiscoveredAt mf.1 q := by
    intro q hadj
    by_cases hd : DiscoveredAt s.maze q
    · exact hmono q hd
    · have hk : q ∈ kids.map Node.state := (hkiff' q).mpr ⟨hadj, hd⟩
      rw [DiscoveredAt, hfinmarks q, if_pos hk]
      exact Or.inl rfl
  -- the membership of the new frontier
  have hkperm' : mf.2.nodes.Perm (kids ++ f'.nodes) := hkperm
  have hmem_new : ∀ n, n ∈ mf.2.nodes ↔ n ∈ kids ∨ n ∈ f'.nodes := by
    intro n
    rw [hkperm'.mem_iff, List.mem_append]
  refine ⟨?_, rfl, rfl, rfl, ?_, hmono, ?_, hadj_disc, kids, ?_, ?_, hkiff', ?_⟩
  · -- the search invariant is preserved
    refine ⟨htypes2, ?_, ?_, ?_, ?_, ?_⟩
    · -- chains
      intro n hn
      rcases (hmem_new n).mp hn with hn | hn
      · obtain ⟨act, hmem, hkeq⟩ := hkind n hn
        have hadj : AdjacentP m maze0 x.state n.state ∧
            ¬ DiscoveredAt s.maze n.state :=
          (hkiff' n.state).mp (List.mem_map.mpr ⟨n, hn, rfl⟩)
        rw [hkeq]
        exact ⟨hadj.1.2.1, hadj.1.2.2.2.1, hadj.1, rfl, hxok⟩
      · exact hInv.chain n (hmem_f'_s n hn)
    · -- distinct states
      have hsp : (mf.2.nodes.map Node.state).Perm
          ((kids ++ f'.nodes).map Node.state) := hkperm'.map Node.state
      rw [hsp.nodup_iff, List.map_append, List.nodup_append]
      refine ⟨hknodup, hndf', ?_⟩
      intro p hp hp'
      have hnd : ¬ DiscoveredAt s.maze p := ((hkiff' p).mp hp).2
      obtain ⟨n, hn, hns⟩ := List.mem_map.mp hp'
      exact hnd (Or.inl ((hInv.marks p).mpr ⟨n, hmem_f'_s n hn, hns⟩))
    · -- the `Frontier` marks match the frontier
      intro p
      rw [hfinmarks p]
      by_cases hk : p ∈ kids.map Node.state
      · rw [if_pos hk]
        obtain ⟨n, hn, hns⟩ := List.mem_map.mp hk
        simp only [true_iff]
        exact ⟨n, (hmem_new n).mpr (Or.inl hn), hns⟩
      · rw [if_neg hk]
        by_cases hp : p = x.state
        · subst hp
          rw [if_pos rfl]
          constructor
          · intro h
            cases h
          · rintro ⟨n, hn, hns⟩
            rcases (hmem_new n).mp hn with hn | hn
            · exact absurd (hns ▸ List.mem_map.mpr ⟨n, hn, rfl⟩) hk
            · exact absurd (hns ▸ List.mem_map.mpr ⟨n, hn, rfl⟩) hxnotf'
        · rw [if_neg hp, hInv.marks p]
          constructor
          · rintro ⟨n, hn, hns⟩
            have hn' : n ∈ x :: f'.nodes := hperm.mem_iff.mp hn
            rcases List.mem_cons.mp hn' with rfl | hn'
            · exact absurd hns.symm hp
            · exact ⟨n, (hmem_new n).mpr (Or.inr hn'), hns⟩
          · rintro ⟨n, hn, hns⟩
            rcases (hmem_new n).mp hn with hn | hn
            · exact absurd (hns ▸ List.mem_map.mpr ⟨n, hn, rfl⟩) hk
            · exact ⟨n, hmem_f'_s n hn, hns⟩
    · -- explored cells are closed under discovery
      intro p hp
      rw [hfinmarks p] at hp
      by_cases hk : p ∈ kids.map Node.state
      · rw [if_pos hk] at hp
        cases hp
      · rw [if_neg hk] at hp
        by_cases hpx : p = x.state
        · subst hpx
          refine ⟨hxib, hxw, hxg, ?_⟩
          intro q hadj
          exact hadj_disc q hadj
        · rw [if_neg hpx] at hp
          obtain ⟨hib, hw, hgl, hnbr⟩ := hInv.expl p hp
          exact ⟨hib, hw, hgl, fun q hadj => hmono q (hnbr q hadj)⟩
    · -- the start has been discovered
      exact hmono m.start hInv.startDisc
  · -- the count of explored cells grows by one
    obtain ⟨c, hc, hcs⟩ : ∃ c, cellAt? s.maze x.state = some c ∧
        c.state = MazeCellState.Frontier := by
      rw [getCellState_eq] at hfrmark
      cases hc : cellAt? s.maze x.state with
      | none =>
        rw [hc] at hfrmark
        cases hfrmark
      | some c =>
        rw [hc] at hfrmark
        exact ⟨c, rfl, hfrmark⟩
    have h1 : exploredCount maze1 = exploredCount s.maze + 1 := by
      rw [hmaze1]
      exact exploredCount_setCellState_explored s.maze x.state c hc
        (by rw [hcs]; intro h; cases h)
    have h2 : exploredCount mf.1 = exploredCount maze1 := hkcount
    rw [h2, h1]
  · -- no state is re-added after being explored
    intro n hn
    rcases (hmem_new n).mp hn with hn | hn
    · exact Or.inr ((hkiff' n.state).mp (List.mem_map.mpr ⟨n, hn, rfl⟩)).2
    · exact Or.inl (hmem_f'_s n hn)
  · -- the new frontier is the children plus the rest
    exact hkperm'
  · -- children cost one more than the popped node
    intro k hk
    obtain ⟨act, hmem, hkeq⟩ := hkind k hk
    rw [hkeq]
    rfl
  · -- the queue evolution
    intro q0 hq0
    have hremq : (Frontier.queue q0).remove = (q0.head?, Frontier.queue q0.tail) := by
      have hneq : ¬((q0.length == 0) = true) := by
        rw [hq0] at hne
        simpa [Frontier.empty] using hne
      unfold Frontier.remove
      simp only [Frontier.removeE]
      rw [if_neg hneq]
    rw [hq0, hremq] at hrem
    have hhead : q0.head? = some x := congrArg Prod.fst hrem
    have htail : f' = Frontier.queue q0.tail := (congrArg Prod.snd hrem).symm
    cases q0 with
    | nil => cases hhead
    | cons y tail =>
      have hyx : y = x := by
        rw [List.head?_cons] at hhead
        exact Option.some_injective _ hhead
      subst hyx
      refine ⟨tail, rfl, by simpa using htail, ?_⟩
      exact hkqueue tail (by simpa using htail)

/-! ## What the Maze constructor guarantees about start and goal -/

theorem scanFold_found (maze : MazeData) (ps : List (Nat × Nat)) :
    ∀ acc r : Option State × Option State,
      ps.foldlM (scanStep maze) acc = .ok r →
      (∀ st, r.1 = some st → acc.1 = some st ∨ ∃ ij ∈ ps,
        st = ((ij.1 : Int), (ij.2 : Int)) ∧
        ((maze.getD ij.1 []).getD ij.2 dfltCell).type = MazeCellType.Start) ∧
      (∀ st, r.2 = some st → acc.2 = some st ∨ ∃ ij ∈ ps,
        st = ((ij.1 : Int), (ij.2 : Int)) ∧
        ((maze.getD ij.1 []).getD ij.2 dfltCell).type = MazeCellType.Goal) := by
  induction ps with
  | nil =>
    intro acc r hr
    simp only [List.foldlM_nil] at hr
    cases hr
    exact ⟨fun st h => Or.inl h, fun st h => Or.inl h⟩
  | cons ij ps ih =>
    intro acc r hr
    rw [List.foldlM_cons] at hr
    by_cases hS : ((maze.getD ij.1 []).getD ij.2 dfltCell).type = MazeCellType.Start
    · rcases acc with ⟨s?, g?⟩
      cases s? with
      | some s₀ =>
        have hstep : scanStep maze (some s₀, g?) ij = .error "只能有一个起点" := by
          unfold scanStep
          rw [if_pos hS]
        rw [hstep] at hr
        exact Except.noConfusion hr
      | none =>
        have hstep : scanStep maze ((none : Option State), g?) ij =
            .ok (some ((ij.1 : Int), (ij.2 : Int)), g?) := by
          unfold scanStep
          rw [if_pos hS]
        rw [hstep] at hr
        obtain ⟨ih1, ih2⟩ := ih _ _ hr
        constructor
        · intro st hst
          rcases ih1 st hst with h | ⟨ij', hij', h1, h2⟩
          · refine Or.inr ⟨ij, List.mem_cons_self _ _, ?_, hS⟩
            exact (Option.some_injective _ h).symm
          · exact Or.inr ⟨ij', List.mem_cons_of_mem _ hij', h1, h2⟩
        · intro st hst
          rcases ih2 st hst with h | ⟨ij', hij', h1, h2⟩
          · exact Or.inl h
          · exact Or.inr ⟨ij', List.mem_cons_of_mem _ hij', h1, h2⟩
    · by_cases hG : ((maze.getD ij.1 []).getD ij.2 dfltCell).type = MazeCellType.Goal
      · rcases acc with ⟨s?, g?⟩
        cases g? with
        | some g₀ =>
          have hstep : scanStep maze (s?, some g₀) ij = .error "只能有一个终点" := by
            unfold scanStep
            rw [if_neg hS, if_pos hG]
          rw [hstep] at hr
          exact Except.noConfusion hr
        | none =>
          have hstep : scanStep maze (s?, (none : Option State)) ij =
              .ok (s?, some ((ij.1 : Int), (ij.2 : Int))) := by
            unfold scanStep
            rw [if_neg hS, if_pos hG]
          rw [hstep] at hr
          obtain ⟨ih1, ih2⟩ := ih _ _ hr
          constructor
          · intro st hst
            rcases ih1 st hst with h | ⟨ij', hij', h1, h2⟩
            · exact Or.inl h
            · exact Or.inr ⟨ij', List.mem_cons_of_mem _ hij', h1, h2⟩
          · intro st hst
            rcases ih2 st hst with h | ⟨ij', hij', h1, h2⟩
            · refine Or.inr ⟨ij, List.mem_cons_self _ _, ?_, hG⟩
              exact (Option.some_injective _ h).symm
            · exact Or.inr ⟨ij', List.mem_cons_of_mem _ hij', h1, h2⟩
      · have hstep : scanStep maze acc ij = .ok acc := by
          unfold scanStep
          rw [if_neg hS, if_neg hG]
        rw [hstep] at hr
        obtain ⟨ih1, ih2⟩ := ih _ _ hr
        constructor
        · intro st hst
          rcases ih1 st hst with h | ⟨ij', hij', h1, h2⟩
          · exact Or.inl h
          · exact Or.inr ⟨ij', List.mem_cons_of_mem _ hij', h1, h2⟩
        · intro st hst
          rcases ih2 st hst with h | ⟨ij', hij', h1, h2⟩
          · exact Or.inl h
          · exact Or.inr ⟨ij', List.mem_cons_of_mem _ hij', h1, h2⟩

theorem mem_pairs_bound {h w : Nat} {ij : Nat × Nat}
    (hmem : ij ∈ (List.range h).flatMap fun i => (List.range w).map fun j => (i, j)) :
    ij.1 < h ∧ ij.2 < w := by
  rw [List.mem_flatMap] at hmem
  obtain ⟨i, hi, hmem⟩ := hmem
  rw [List.mem_map] at hmem
  obtain ⟨j, hj, hij⟩ := hmem
  rw [List.mem_range] at hi hj
  rw [← hij]
  exact ⟨hi, hj⟩

/-- The `Maze` constructor records the grid dimensions and finds a real
in-bounds Start cell and Goal cell. -/
theorem make_spec (maze0 : MazeData) (m : Maze) (hmk : Maze.make maze0 = .ok m) :
    m.height = maze0.length ∧ m.width = (maze0.headD []).length ∧
      MazeFacts m maze0 := by
  unfold Maze.make at hmk
  dsimp only at hmk
  cases hfold : ((List.range maze0.length).flatMap fun i =>
      (List.range (maze0.headD []).length).map fun j => (i, j)).foldlM
      (scanStep maze0) (none, none) with
  | error e =>
    rw [hfold] at hmk
    exact Except.noConfusion hmk
  | ok r =>
    rw [hfold] at hmk
    rcases r with ⟨s?, g?⟩
    cases s? with
    | none => exact Except.noConfusion hmk
    | some st =>
      cases g? with
      | none => exact Except.noConfusion hmk
      | some gl =>
        have hm : Maze.mk maze0.length (maze0.headD []).length st gl = m := by
          injection hmk
        subst hm
        refine ⟨rfl, rfl, ?_⟩
        obtain ⟨hf1, hf2⟩ := scanFold_found maze0 _ _ _ hfold
        have hs := hf1 st rfl
        have hg := hf2 gl rfl
        rcases hs with hs | ⟨ij, hij, hst, hty⟩
        · exact Option.noConfusion hs
        · rcases hg with hg | ⟨ij', hij', hgl, hty'⟩
          · exact Option.noConfusion hg
          · obtain ⟨hib1, hib2⟩ := mem_pairs_bound hij
            obtain ⟨hib1', hib2'⟩ := mem_pairs_bound hij'
            have hsIB : InBoundsP (Maze.mk maze0.length (maze0.headD []).length st gl)
                st := by
              rw [hst]
              refine ⟨Int.natCast_nonneg _, ?_, Int.natCast_nonneg _, ?_⟩
              · show (ij.1 : Int) < (maze0.length : Int)
                exact_mod_cast hib1
              · show (ij.2 : Int) < ((maze0.headD []).length : Int)
                exact_mod_cast hib2
            have hgIB : InBoundsP (Maze.mk maze0.length (maze0.headD []).length st gl)
                gl := by
              rw [hgl]
              refine ⟨Int.natCast_nonneg _, ?_, Int.natCast_nonneg _, ?_⟩
              · show (ij'.1 : Int) < (maze0.length : Int)
                exact_mod_cast hib1'
              · show (ij'.2 : Int) < ((maze0.headD []).length : Int)
                exact_mod_cast hib2'
            refine ⟨hsIB, ?_, hgIB, ?_⟩
            · rw [hst, typeAt_eq_getD _ _ ⟨Int.natCast_nonneg _, Int.natCast_nonneg _⟩]
              simpa using hty
            · rw [hgl, typeAt_eq_getD _ _ ⟨Int.natCast_nonneg _, Int.natCast_nonneg _⟩]
              simpa using hty'

/-! ## Initialization and the demoRunner loop -/

theorem exploredCount_eq_zero (maze : MazeData) (h : FreshMarks maze) :
    exploredCount maze = 0 := by
  unfold exploredCount
  refine List.sum_eq_zero ?_
  intro x hx
  rw [List.mem_map] at hx
  obtain ⟨row, hrow, hr⟩ := hx
  rw [← hr, List.countP_eq_zero]
  intro c hc hcc
  exact (h row hrow c hc).2 (by simpa using hcc)

theorem solveInit_inv (m : Maze) (maze0 : MazeData) (kind : FrontierKind)
    (hM : MazeFacts m maze0) (hfresh : FreshMarks maze0)
    (hh : maze0.length = m.height)
    (hrect : ∀ row ∈ maze0, row.length = m.width) :
    SearchInv m maze0 (solveInit m maze0 kind) ∧
    (solveInit m maze0 kind).solutionType = SolutionType.Continue ∧
    exploredCount (solveInit m maze0 kind).maze = 0 ∧
    (solveInit m maze0 kind).frontier.nodes =
      [Node.mk m.start none none (calcManhattanDistance m.start m.goal) 0] := by
  have hnodes : (solveInit m maze0 kind).frontier.nodes =
      [Node.mk m.start none none (calcManhattanDistance m.start m.goal) 0] := by
    cases kind <;> rfl
  have hsw : typeAt maze0 m.start ≠ MazeCellType.Wall := by
    rw [hM.stype]
    intro h
    cases h
  have hsome : (cellAt? maze0 m.start).isSome = true :=
    cellAt?_isSome_of_inBounds hh hrect hM.sb
  have hself : getCellState (solveInit m maze0 kind).maze m.start =
      MazeCellState.Frontier := getCellState_setCellState_self _ _ _ hsome
  have hne : ∀ p : State, p ≠ m.start →
      getCellState (solveInit m maze0 kind).maze p = getCellState maze0 p :=
    fun p hp => getCellState_setCellState_ne _ _ _ _ hp
  refine ⟨⟨?_, ?_, ?_, ?_, ?_, ?_⟩, rfl, ?_, hnodes⟩
  · exact typesOf_setCellState maze0 m.start MazeCellState.Frontier
  · intro n hn
    rw [hnodes] at hn
    rcases List.mem_cons.mp hn with rfl | hn
    · exact ⟨rfl, rfl, hM.sb, hsw⟩
    · cases hn
  · rw [hnodes]
    exact List.nodup_singleton _
  · intro p
    rw [hnodes]
    by_cases hp : p = m.start
    · subst hp
      rw [hself]
      simp only [true_iff]
      exact ⟨Node.mk m.start none none (calcManhattanDistance m.start m.goal) 0,
        List.mem_singleton.mpr rfl, rfl⟩
    · rw [hne p hp]
      constructor
      · intro h
        exact absurd h (freshMarks_getCellState maze0 hfresh p).1
      · rintro ⟨n, hn, hns⟩
        rw [List.mem_singleton] at hn
        subst hn
        exact absurd hns.symm hp
  · intro p hp
    by_cases hps : p = m.start
    · subst hps
      rw [hself] at hp
      cases hp
    · rw [hne p hps] at hp
      exact absurd hp (freshMarks_getCellState maze0 hfresh p).2
  · exact Or.inl hself
  · show exploredCount (setCellState maze0 m.start MazeCellState.Frontier) = 0
    rw [exploredCount_setCellState_keep maze0 m.start MazeCellState.Frontier
      (by intro h; cases h) (freshMarks_getCellState maze0 hfresh m.start).2]
    exact exploredCount_eq_zero maze0 hfresh

theorem demoRunnerStep_terminal (m : Maze) (s : SolveState)
    (h : s.solutionType ≠ SolutionType.Continue) : demoRunnerStep m s = s := by
  unfold demoRunnerStep
  rw [if_neg h]

theorem runDemo_terminal (m : Maze) :
    ∀ (n : Nat) (s : SolveState), s.solutionType ≠ SolutionType.Continue →
      runDemo m n s = s := by
  intro n
  induction n with
  | zero => exact fun s _ => rfl
  | succ n ih =>
    intro s h
    show runDemo m n (demoRunnerStep m s) = s
    rw [demoRunnerStep_terminal m s h]
    exact ih s h

theorem runDemo_succ_outer (m : Maze) :
    ∀ (n : Nat) (s : SolveState),
      runDemo m (n + 1) s = demoRunnerStep m (runDemo m n s) := by
  intro n
  induction n with
  | zero => exact fun s => rfl
  | succ n ih =>
    intro s
    show runDemo m (n + 1) (demoRunnerStep m s) = _
    rw [ih (demoRunnerStep m s)]
    rfl

/-- The three possible behaviours of one `demoRunner` tick from a running
state: declare `NoSolution` on an empty frontier, pop the goal and stop
with `FoundSolution`, or pop a non-goal node and expand it. -/
theorem demo_step_cases (m : Maze) (maze0 : MazeData) (s : SolveState)
    (hcont : s.solutionType = SolutionType.Continue) :
    (s.frontier.empty = true ∧
      demoRunnerStep m s = { s with solutionType := SolutionType.NoSolution }) ∨
    (∃ x f', s.frontier.empty = false ∧ s.frontier.remove = (some x, f') ∧
      x ∈ s.frontier.nodes ∧ s.frontier.nodes.Perm (x :: f'.nodes) ∧
      x.state = m.goal ∧
      (demoRunnerStep m s).solutionType = SolutionType.FoundSolution ∧
      (demoRunnerStep m s).solution = some x ∧
      (demoRunnerStep m s).frontier = f') ∨
    (∃ x f', s.frontier.empty = false ∧ s.frontier.remove = (some x, f') ∧
      x ∈ s.frontier.nodes ∧ s.frontier.nodes.Perm (x :: f'.nodes) ∧
      x.state ≠ m.goal ∧ demoRunnerStep m s = step m s) := by
  have hdemo : demoRunnerStep m s = step m s := by
    unfold demoRunnerStep
    rw [if_pos hcont]
  cases hemp : s.frontier.empty with
  | true =>
    refine Or.inl ⟨rfl, ?_⟩
    rw [hdemo]
    unfold step
    rw [if_pos hemp]
  | false =>
    obtain ⟨x, f', hrem, hperm⟩ := remove_spec s.frontier hemp
    have hxmem : x ∈ s.frontier.nodes :=
      hperm.mem_iff.mpr (List.mem_cons_self _ _)
    by_cases hg : x.state = m.goal
    · refine Or.inr (Or.inl ⟨x, f', rfl, hrem, hxmem, hperm, hg, ?_, ?_, ?_⟩) <;>
        (rw [hdemo]
         unfold step
         rw [if_neg (by rw [hemp]; exact Bool.false_ne_true), hrem]
         dsimp only
         rw [if_pos ((state_equals_iff _ _).mpr hg)])
    · exact Or.inr (Or.inr ⟨x, f', rfl, hrem, hxmem, hperm, hg, hdemo⟩)

/-- While the grid is connected, the frontier can never be empty in a
running state that satisfies the invariant. -/
theorem no_empty_when_connected (m : Maze) (maze0 : MazeData) (s : SolveState)
    (hInv : SearchInv m maze0 s)
    (hconn : ∃ k, PathLen m maze0 m.start m.goal k)
    (hemp : s.frontier.empty = true) : False := by
  have hnof : ∀ p : State, getCellState s.maze p ≠ MazeCellState.Frontier := by
    intro p hp
    obtain ⟨n, hn, -⟩ := (hInv.marks p).mp hp
    rw [(nodes_empty_iff _).mp hemp] at hn
    cases hn
  have hstart : getCellState s.maze m.start = MazeCellState.Explored := by
    rcases hInv.startDisc with h | h
    · exact absurd h (hnof m.start)
    · exact h
  obtain ⟨k, hpath⟩ := hconn
  have walk : ∀ (k : Nat) (p : State), PathLen m maze0 p m.goal k →
      getCellState s.maze p = MazeCellState.Explored → False := by
    intro k
    induction k with
    | zero =>
      intro p hp hexp
      have := pathLen_zero hp
      subst this
      exact (hInv.expl _ hexp).2.2.1 rfl
    | succ k ih =>
      intro p hp hexp
      cases hp with
      | cons _ t _ _ hadj hp' =>
        rcases (hInv.expl p hexp).2.2.2 t hadj with h | h
        · exact hnof t h
        · exact ih t hp' h
  exact walk k m.start hpath hstart

/-! ## The run invariant across demoRunner ticks -/

theorem runInv_step (m : Maze) (maze0 : MazeData) (s : SolveState)
    (hh : maze0.length = m.height)
    (hrect : ∀ row ∈ maze0, row.length = m.width)
    (h : RunInv m maze0 s) :
    RunInv m maze0 (demoRunnerStep m s) ∧
    (∀ n' ∈ (demoRunnerStep m s).frontier.nodes,
      n' ∈ s.frontier.nodes ∨
        getCellState s.maze n'.state ≠ MazeCellState.Explored) ∧
    ((demoRunnerStep m s).solutionType = SolutionType.Continue →
      s.solutionType = SolutionType.Continue ∧
      exploredCount (demoRunnerStep m s).maze = exploredCount s.maze + 1) := by
  obtain ⟨hcInv, hchain, hnodup, hfound⟩ := h
  by_cases hcont : s.solutionType = SolutionType.Continue
  · have hInv := hcInv hcont
    rcases demo_step_cases m maze0 s hcont with
      ⟨hemp, hrep⟩ |
      ⟨x, f', hemp, hrem, hxmem, hperm, hg, hty, hsol, hfr⟩ |
      ⟨x, f', hemp, hrem, hxmem, hperm, hg, hdemo⟩
    · rw [hrep]
      refine ⟨⟨?_, hchain, hnodup, ?_⟩, fun n' hn' => Or.inl hn', ?_⟩
      · intro hc
        cases hc
      · intro hc
        cases hc
      · intro hc
        cases hc
    · -- the goal is popped: FoundSolution
      have hsub : ∀ n ∈ f'.nodes, n ∈ s.frontier.nodes := fun n hn =>
        hperm.mem_iff.mpr (List.mem_cons_of_mem x hn)
      have hndf' : (f'.nodes.map Node.state).Nodup := by
        have hmapperm : (s.frontier.nodes.map Node.state).Perm
            (x.state :: f'.nodes.map Node.state) := by
          have := hperm.map Node.state
          simpa using this
        exact (List.nodup_cons.mp (hmapperm.nodup_iff.mp hnodup)).2
      refine ⟨⟨?_, ?_, ?_, ?_⟩, ?_, ?_⟩
      · intro hc
        rw [hty] at hc
        cases hc
      · intro n hn
        rw [hfr] at hn
        exact hchain n (hsub n hn)
      · rw [hfr]
        exact hndf'
      · intro _
        exact ⟨x, hsol, hg, hchain x hxmem⟩
      · intro n' hn'
        rw [hfr] at hn'
        exact Or.inl (hsub n' hn')
      · intro hc
        rw [hty] at hc
        cases hc
    · -- a non-goal node is popped and expanded
      obtain ⟨hInv', hty, hsol, hnum, hcnt, hmono, hreadd, hadjd, -⟩ :=
        step_expand m maze0 s x f' hh hrect hInv hemp hrem hperm hg
      rw [hdemo]
      refine ⟨⟨fun _ => hInv', hInv'.chain, hInv'.nodupStates, ?_⟩, ?_, ?_⟩
      · intro hc
        rw [hty, hcont] at hc
        cases hc
      · intro n' hn'
        rcases hreadd n' hn' with h | h
        · exact Or.inl h
        · exact Or.inr fun hexp => h (Or.inr hexp)
      · intro _
        exact ⟨hcont, hcnt⟩
  · rw [demoRunnerStep_terminal m s hcont]
    exact ⟨⟨hcInv, hchain, hnodup, hfound⟩, fun n' hn' => Or.inl hn',
      fun hc => absurd hc hcont⟩

theorem runDemo_inv (m : Maze) (maze0 : MazeData)
    (hh : maze0.length = m.height)
    (hrect : ∀ row ∈ maze0, row.length = m.width) :
    ∀ (n : Nat) (s : SolveState), RunInv m maze0 s →
      RunInv m maze0 (runDemo m n s) := by
  intro n
  induction n with
  | zero => exact fun s h => h
  | succ n ih =>
    intro s h
    exact ih (demoRunnerStep m s) (runInv_step m maze0 s hh hrect h).1

theorem runDemo_count (m : Maze) (maze0 : MazeData)
    (hh : maze0.length = m.height)
    (hrect : ∀ row ∈ maze0, row.length = m.width) :
    ∀ (n : Nat) (s : SolveState), RunInv m maze0 s →
      (runDemo m n s).solutionType = SolutionType.Continue →
      exploredCount s.maze + n ≤ exploredCount (runDemo m n s).maze := by
  intro n
  induction n with
  | zero => exact fun s _ _ => Nat.le_refl _
  | succ n ih =>
    intro s h hcont
    show exploredCount s.maze + (n + 1) ≤
      exploredCount (runDemo m n (demoRunnerStep m s)).maze
    by_cases hs' : (demoRunnerStep m s).solutionType = SolutionType.Continue
    · obtain ⟨-, hcnt⟩ := (runInv_step m maze0 s hh hrect h).2.2 hs'
      have hR' := (runInv_step m maze0 s hh hrect h).1
      have := ih (demoRunnerStep m s) hR' hcont
      rw [hcnt] at this
      omega
    · have hcont' : (runDemo m n (demoRunnerStep m s)).solutionType =
          SolutionType.Continue := hcont
      rw [runDemo_terminal m n (demoRunnerStep m s) hs'] at hcont'
      exact absurd hcont' hs'

/-- On exhaustion of the explored-cell budget the run is no longer in the
`Continue` state. -/
theorem runDemo_terminates (m : Maze) (maze0 : MazeData)
    (hh : maze0.length = m.height)
    (hrect : ∀ row ∈ maze0, row.length = m.width)
    (s0 : SolveState) (hR : RunInv m maze0 s0)
    (hc0 : exploredCount s0.maze = 0) :
    (runDemo m (totalCells maze0 + 1) s0).solutionType ≠
      SolutionType.Continue := by
  intro hcont
  have hcount := runDemo_count m maze0 hh hrect (totalCells maze0 + 1) s0 hR hcont
  rw [hc0, Nat.zero_add] at hcount
  have hfin := runDemo_inv m maze0 hh hrect (totalCells maze0 + 1) s0 hR
  have htypes : typesOf (runDemo m (totalCells maze0 + 1) s0).maze =
      typesOf maze0 := (hfin.1 hcont).types
  have hle : exploredCount (runDemo m (totalCells maze0 + 1) s0).maze ≤
      totalCells maze0 := by
    have h1 := exploredCount_le_totalCells
      (runDemo m (totalCells maze0 + 1) s0).maze
    rw [totalCells_congr _ _ htypes] at h1
    exact h1
  omega

/-- On a connected grid a running state never turns into `NoSolution`. -/
theorem runDemo_not_nosolution (m : Maze) (maze0 : MazeData)
    (hh : maze0.length = m.height)
    (hrect : ∀ row ∈ maze0, row.length = m.width)
    (hconn : ∃ k, PathLen m maze0 m.start m.goal k) :
    ∀ (n : Nat) (s : SolveState), RunInv m maze0 s →
      s.solutionType ≠ SolutionType.NoSolution →
      (runDemo m n s).solutionType ≠ SolutionType.NoSolution := by
  intro n
  induction n with
  | zero => exact fun s _ h => h
  | succ n ih =>
    intro s h hns
    refine ih (demoRunnerStep m s) (runInv_step m maze0 s hh hrect h).1 ?_
    by_cases hcont : s.solutionType = SolutionType.Continue
    · rcases demo_step_cases m maze0 s hcont with
        ⟨hemp, -⟩ |
        ⟨x, f', hemp, hrem, hxmem, hperm, hg, hty, hsol, hfr⟩ |
        ⟨x, f', hemp, hrem, hxmem, hperm, hg, hdemo⟩
      · exact absurd hemp fun he =>
          no_empty_when_connected m maze0 s (h.1 hcont) hconn he
      · rw [hty]
        intro hc
        cases hc
      · obtain ⟨-, hty, -⟩ :=
          step_expand m maze0 s x f' hh hrect (h.1 hcont) hemp hrem hperm hg
        rw [hdemo, hty, hcont]
        intro hc
        cases hc
    · rw [demoRunnerStep_terminal m s hcont]
      exact hns

/-- The stepper never produces the `Pending` outcome. -/
theorem runDemo_not_pending (m : Maze) (maze0 : MazeData) :
    ∀ (n : Nat) (s : SolveState),
      s.solutionType ≠ SolutionType.Pending →
      (runDemo m n s).solutionType ≠ SolutionType.Pending := by
  intro n
  induction n with
  | zero => exact fun s h => h
  | succ n ih =>
    intro s h
    refine ih (demoRunnerStep m s) ?_
    by_cases hcont : s.solutionType = SolutionType.Continue
    · rcases demo_step_cases m maze0 s hcont with
        ⟨hemp, hrep⟩ |
        ⟨x, f', hemp, hrem, hxmem, hperm, hg, hty, hsol, hfr⟩ |
        ⟨x, f', hemp, hrem, hxmem, hperm, hg, hdemo⟩
      · rw [hrep]
        intro hc
        cases hc
      · rw [hty]
        intro hc
        cases hc
      · have hty2 : (step m s).solutionType = s.solutionType := by
          unfold step
          rw [if_neg (by rw [hemp]; exact Bool.false_ne_true), hrem]
          dsimp only
          rw [if_neg fun hb => hg ((state_equals_iff _ _).mp hb)]
        rw [hdemo, hty2, hcont]
        intro hc
        cases hc
    · rw [demoRunnerStep_terminal m s hcont]
      exact h

/-! ## The queue invariant across demoRunner ticks -/

theorem pairwise_cost_of_const (c : Nat) (l : List Node)
    (h : ∀ k ∈ l, k.pathCost = c) :
    l.Pairwise fun a b => a.pathCost ≤ b.pathCost := by
  induction l with
  | nil => exact List.Pairwise.nil
  | cons a l ih =>
    refine List.pairwise_cons.mpr ⟨?_, ih fun k hk => h k (List.mem_cons_of_mem a hk)⟩
    intro b hb
    rw [h a (List.mem_cons_self a l), h b (List.mem_cons_of_mem a hb)]

theorem pairwise_head_le (l : List Node)
    (h : l.Pairwise fun a b => a.pathCost ≤ b.pathCost) (hd : Node)
    (hh : l.head? = some hd) : ∀ n ∈ l, hd.pathCost ≤ n.pathCost := by
  cases l with
  | nil => cases hh
  | cons a l =>
    rw [List.head?_cons] at hh
    cases hh
    intro n hn
    rcases List.mem_cons.mp hn with rfl | hn
    · exact Nat.le_refl _
    · exact (List.pairwise_cons.mp h).1 n hn

theorem runInvQ_step (m : Maze) (maze0 : MazeData) (s : SolveState)
    (hh : maze0.length = m.height)
    (hrect : ∀ row ∈ maze0, row.length = m.width)
    (hconn : ∃ k, PathLen m maze0 m.start m.goal k)
    (h : RunInvQ m maze0 s) : RunInvQ m maze0 (demoRunnerStep m s) := by
  obtain ⟨hcInv, hfound, hns⟩ := h
  by_cases hcont : s.solutionType = SolutionType.Continue
  · obtain ⟨hInv, q, hQ⟩ := hcInv hcont

    rcases demo_step_cases m maze0 s hcont with
      ⟨hemp, -⟩ |
      ⟨x, f', hemp, hrem, hxmem, hperm, hg, hty, hsol, hfr⟩ |
      ⟨x, f', hemp, hrem, hxmem, hperm, hg, hdemo⟩
    · exact (no_empty_when_connected m maze0 s hInv hconn hemp).elim
    · -- the goal is popped
      refine ⟨?_, ?_, ?_⟩
      · intro hc
        rw [hty] at hc
        cases hc
      · intro _
        have hxq : x ∈ q := by
          rw [hQ.isQueue] at hxmem
          exact hxmem
        have hdist := hQ.dist x hxq
        rw [hg] at hdist
        exact ⟨x, hsol, hg, hInv.chain x hxmem, hdist⟩
      · rw [hty]
        exact ⟨fun hc => SolutionType.noConfusion hc,
          fun hc => SolutionType.noConfusion hc⟩
    · -- a non-goal node is popped and expanded
      obtain ⟨hInv', hty, hsol, hnum, hcnt, hmono, hreadd, hadjd, kids, hkperm,
        hkcost, hkiff, hkq⟩ :=
        step_expand m maze0 s x f' hh hrect hInv hemp hrem hperm hg
      obtain ⟨tail, hqx, hf'q, hfr'⟩ := hkq q hQ.isQueue
      rw [hdemo]
      -- facts about the old queue
      have hxmemq : x ∈ q := by
        rw [hqx]
        exact List.mem_cons_self _ _
      have htail_mem : ∀ a ∈ tail, a ∈ q := by
        rw [hqx]
        exact fun a ha => List.mem_cons_of_mem x ha
      have hdx : IsDistance m maze0 m.start x.state x.pathCost := hQ.dist x hxmemq
      have hmono_q := hQ.mono
      rw [hqx] at hmono_q
      have hmono_xt : ∀ a ∈ tail, x.pathCost ≤ a.pathCost :=
        (List.pairwise_cons.mp hmono_q).1
      have htail_pw := (List.pairwise_cons.mp hmono_q).2
      have hheadx : ∀ hd ∈ q.head?, hd = x := by
        intro hd hmem
        rw [hqx, List.head?_cons] at hmem
        exact (Option.some_injective _ (Option.mem_def.mp hmem)).symm
      -- facts about the children
      have hkid_state : ∀ k ∈ kids, AdjacentP m maze0 x.state k.state ∧
          ¬ DiscoveredAt s.maze k.state := fun k hk =>
        (hkiff k.state).mp (List.mem_map.mpr ⟨k, hk, rfl⟩)
      have hkid_dist : ∀ k ∈ kids,
          IsDistance m maze0 m.start k.state (x.pathCost + 1) := by
        intro k hk
        obtain ⟨hadj, hndisc⟩ := hkid_state k hk
        refine ⟨pathLen_snoc hdx.1 hadj, ?_⟩
        intro j hj
        by_contra hlt
        push_neg at hlt
        obtain ⟨d, hd, hdle⟩ := dist_exists hj
        refine hndisc (hQ.level k.state d hd ?_)
        intro hd0 hmem
        rw [hheadx hd0 hmem]
        omega
      -- the new queue
      have hmono_new : (tail ++ kids).Pairwise
          fun a b => a.pathCost ≤ b.pathCost := by
        rw [List.pairwise_append]
        refine ⟨htail_pw, pairwise_cost_of_const (x.pathCost + 1) kids hkcost, ?_⟩
        intro a ha b hb
        rw [hkcost b hb]
        have := hQ.gap x hxmemq a (htail_mem a ha)
        omega
      have hdist_new : ∀ n ∈ tail ++ kids,
          IsDistance m maze0 m.start n.state n.pathCost := by
        intro n hn
        rcases List.mem_append.mp hn with hn | hn
        · exact hQ.dist n (htail_mem n hn)
        · rw [hkcost n hn]
          exact hkid_dist n hn
      have hgap_new : ∀ a ∈ tail ++ kids, ∀ b ∈ tail ++ kids,
          b.pathCost ≤ a.pathCost + 1 := by
        intro a ha b hb
        rcases List.mem_append.mp ha with ha | ha <;>
          rcases List.mem_append.mp hb with hb | hb
        · exact hQ.gap a (htail_mem a ha) b (htail_mem b hb)
        · rw [hkcost b hb]
          have := hmono_xt a ha
          omega
        · rw [hkcost a ha]
          have := hQ.gap x hxmemq b (htail_mem b hb)
          omega
        · rw [hkcost a ha, hkcost b hb]
          omega
      have hnodes_new : (step m s).frontier.nodes = tail ++ kids := by
        rw [hfr']
        rfl
      have hlevel_new : ∀ c : Nat, ∀ p : State,
          IsDistance m maze0 m.start p c →
          (∀ hd ∈ (tail ++ kids).head?, c ≤ hd.pathCost) →
          DiscoveredAt (step m s).maze p := by
        intro c
        induction c using Nat.strong_induction_on with
        | _ c ihc =>
          intro p hdc hcond
          by_cases hc : c ≤ x.pathCost
          · refine hmono p (hQ.level p c hdc ?_)
            intro hd0 hmem
            rw [hheadx hd0 hmem]
            exact hc
          · push_neg at hc
            have hpm' : PathLen m maze0 m.start p (c - 1 + 1) := by
              have hceq : c - 1 + 1 = c := by omega
              rw [hceq]
              exact hdc.1
            obtain ⟨t, hpt, hadj⟩ := pathLen_snoc_inv hpm'
            obtain ⟨d', hd', hd'le⟩ := dist_exists hpt
            have hdisc_t : DiscoveredAt (step m s).maze t := by
              refine ihc d' (by omega) t hd' ?_
              intro hd0 hmem
              have := hcond hd0 hmem
              omega
            rcases hdisc_t with hf | he
            · obtain ⟨n, hn, hns⟩ := (hInv'.marks t).mp hf
              rw [hnodes_new] at hn
              have hdist_n : IsDistance m maze0 m.start t n.pathCost := by
                have := hdist_new n hn
                rw [hns] at this
                exact this
              have hneq : n.pathCost = d' := dist_unique hdist_n hd'
              obtain ⟨hd0, hh0⟩ : ∃ hd0, (tail ++ kids).head? = some hd0 := by
                cases hq' : tail ++ kids with
                | nil =>
                  rw [hq'] at hn
                  cases hn
                | cons a l => exact ⟨a, rfl⟩
              have h1 : hd0.pathCost ≤ n.pathCost :=
                pairwise_head_le _ hmono_new hd0 hh0 n hn
              have h2 : c ≤ hd0.pathCost := hcond hd0 (Option.mem_def.mpr hh0)
              omega
            · exact (hInv'.expl t he).2.2.2 p hadj
      refine ⟨?_, ?_, ?_⟩
      · intro _
        exact ⟨hInv', tail ++ kids,
          ⟨hfr', hmono_new, hgap_new, hdist_new, fun p c => hlevel_new c p⟩⟩
      · intro hc
        rw [hty, hcont] at hc
        cases hc
      · rw [hty, hcont]
        exact ⟨fun hc => SolutionType.noConfusion hc,
          fun hc => SolutionType.noConfusion hc⟩
  · rw [demoRunnerStep_terminal m s hcont]
    exact ⟨hcInv, hfound, hns⟩

theorem runDemoQ_inv (m : Maze) (maze0 : MazeData)
    (hh : maze0.length = m.height)
    (hrect : ∀ row ∈ maze0, row.length = m.width)
    (hconn : ∃ k, PathLen m maze0 m.start m.goal k) :
    ∀ (n : Nat) (s : SolveState), RunInvQ m maze0 s →
      RunInvQ m maze0 (runDemo m n s) := by
  intro n
  induction n with
  | zero => exact fun s h => h
  | succ n ih =>
    intro s h
    exact ih (demoRunnerStep m s) (runInvQ_step m maze0 s hh hrect hconn h)

/-! ## The run-level claims -/

/-- C3: for every grid accepted by the `Maze` constructor (with fresh
marks and rectangular rows) and every one of the four frontier
strategies, the `demoRunner` tick sequence reaches a terminal outcome
within `totalCells + 1` ticks; moreover at every tick the frontier never
holds two nodes with the same state, its size is bounded by the number of
non-Wall cells, and a node is only added to the frontier while its state's
cell is not marked `Explored`. -/
theorem C3_termination (maze0 : MazeData) (m : Maze) (kind : FrontierKind)
    (hmk : Maze.make maze0 = .ok m)
    (hrect : ∀ row ∈ maze0, row.length = (maze0.headD []).length)
    (hfresh : FreshMarks maze0) :
    ∃ n, n ≤ totalCells maze0 + 1 ∧
      (runDemo m n (solveInit m maze0 kind)).solutionType ≠
        SolutionType.Continue ∧
      ∀ k : Nat,
        ((runDemo m k (solveInit m maze0 kind)).frontier.nodes.map
          Node.state).Nodup ∧
        (runDemo m k (solveInit m maze0 kind)).frontier.nodes.length ≤
          (nonWallCells m maze0).length ∧
        ∀ n' ∈ (runDemo m (k + 1) (solveInit m maze0 kind)).frontier.nodes,
          n' ∈ (runDemo m k (solveInit m maze0 kind)).frontier.nodes ∨
            getCellState (runDemo m k (solveInit m maze0 kind)).maze n'.state ≠
              MazeCellState.Explored := by
  obtain ⟨hh', hw, hM⟩ := make_spec maze0 m hmk
  have hh : maze0.length = m.height := hh'.symm
  have hrect' : ∀ row ∈ maze0, row.length = m.width := by
    intro row hr
    rw [hw]
    exact hrect row hr
  obtain ⟨hInv0, hty0, hcnt0, hnodes0⟩ := solveInit_inv m maze0 kind hM hfresh hh hrect'
  have hR0 : RunInv m maze0 (solveInit m maze0 kind) := by
    refine ⟨fun _ => hInv0, hInv0.chain, hInv0.nodupStates, ?_⟩
    intro hf
    rw [hty0] at hf
    cases hf
  refine ⟨totalCells maze0 + 1, Nat.le_refl _,
    runDemo_terminates m maze0 hh hrect' _ hR0 hcnt0, ?_⟩
  intro k
  have hRk := runDemo_inv m maze0 hh hrect' k _ hR0
  refine ⟨hRk.2.2.1, ?_, ?_⟩
  · exact frontier_size_bound _ hRk.2.2.1 hRk.2.1
  · rw [runDemo_succ_outer m k (solveInit m maze0 kind)]
    exact (runInv_step m maze0 _ hh hrect' hRk).2.1

/-- C3 (witness): the guarantees at the concrete 2×2 grid `"AB\n  "` with
the Stack strategy. -/
theorem C3_termination_witness :
    Maze.make mzC10 = .ok mC10 ∧
    (∀ row ∈ mzC10, row.length = (mzC10.headD []).length) ∧
    FreshMarks mzC10 ∧
    (∃ n, n ≤ totalCells mzC10 + 1 ∧
      (runDemo mC10 n (solveInit mC10 mzC10 FrontierKind.stack)).solutionType ≠
        SolutionType.Continue ∧
      ∀ k : Nat,
        ((runDemo mC10 k (solveInit mC10 mzC10
          FrontierKind.stack)).frontier.nodes.map Node.state).Nodup ∧
        (runDemo mC10 k (solveInit mC10 mzC10
          FrontierKind.stack)).frontier.nodes.length ≤
          (nonWallCells mC10 mzC10).length ∧
        ∀ n' ∈ (runDemo mC10 (k + 1) (solveInit mC10 mzC10
            FrontierKind.stack)).frontier.nodes,
          n' ∈ (runDemo mC10 k (solveInit mC10 mzC10
            FrontierKind.stack)).frontier.nodes ∨
            getCellState (runDemo mC10 k (solveInit mC10 mzC10
              FrontierKind.stack)).maze n'.state ≠ MazeCellState.Explored) :=
  ⟨rfl, by decide, by decide,
    C3_termination mzC10 mC10 FrontierKind.stack rfl (by decide) (by decide)⟩

/-- C2: on a connected grid accepted by the constructor, the Queue (BFS)
strategy ends in `FoundSolution` and the recorded solution node's
`pathCost` — the number of edges of the reconstructed parent-chain path —
is the true minimum number of edges between Start and Goal. -/
theorem C2_bfs_shortest_path (maze0 : MazeData) (m : Maze)
    (hmk : Maze.make maze0 = .ok m)
    (hrect : ∀ row ∈ maze0, row.length = (maze0.headD []).length)
    (hfresh : FreshMarks maze0)
    (hconn : ∃ k, PathLen m maze0 m.start m.goal k) :
    ∃ n, n ≤ totalCells maze0 + 1 ∧
      (runDemo m n (solveInit m maze0 FrontierKind.queue)).solutionType =
        SolutionType.FoundSolution ∧
      ∃ nd, (runDemo m n (solveInit m maze0 FrontierKind.queue)).solution =
          some nd ∧ nd.state = m.goal ∧
        IsDistance m maze0 m.start m.goal nd.pathCost ∧
        PathLen m maze0 m.start m.goal nd.pathCost ∧
        (chainStates nd).length = nd.pathCost + 1 := by
  obtain ⟨hh', hw, hM⟩ := make_spec maze0 m hmk
  have hh : maze0.length = m.height := hh'.symm
  have hrect' : ∀ row ∈ maze0, row.length = m.width := by
    intro row hr
    rw [hw]
    exact hrect row hr
  have hsw : typeAt maze0 m.start ≠ MazeCellType.Wall := by
    rw [hM.stype]
    intro h
    cases h
  obtain ⟨hInv0, hty0, hcnt0, hnodes0⟩ :=
    solveInit_inv m maze0 FrontierKind.queue hM hfresh hh hrect'
  have hR0 : RunInv m maze0 (solveInit m maze0 FrontierKind.queue) := by
    refine ⟨fun _ => hInv0, hInv0.chain, hInv0.nodupStates, ?_⟩
    intro hf
    rw [hty0] at hf
    cases hf
  have hQ0 : RunInvQ m maze0 (solveInit m maze0 FrontierKind.queue) := by
    refine ⟨?_, ?_, ?_, ?_⟩
    · intro _
      refine ⟨hInv0,
        [Node.mk m.start none none (calcManhattanDistance m.start m.goal) 0],
        ⟨rfl, List.pairwise_singleton _ _, ?_, ?_, ?_⟩⟩
      · intro a ha b hb
        rw [List.mem_singleton] at ha hb
        subst ha
        subst hb
        exact Nat.le_succ _
      · intro n hn
        rw [List.mem_singleton] at hn
        subst hn
        exact ⟨PathLen.refl m.start hM.sb hsw, fun j hj => Nat.zero_le j⟩
      · intro p c hdc hcond
        have hc0 : c ≤ 0 :=
          hcond (Node.mk m.start none none (calcManhattanDistance m.start m.goal) 0)
            (Option.mem_def.mpr rfl)
        have hc0' : c = 0 := Nat.le_zero.mp hc0
        subst hc0'
        have hps := pathLen_zero hdc.1
        rw [← hps]
        exact hInv0.startDisc
    · intro hf
      rw [hty0] at hf
      cases hf
    · rw [hty0]
      exact fun hc => SolutionType.noConfusion hc
    · rw [hty0]
      exact fun hc => SolutionType.noConfusion hc
  have hterm := runDemo_terminates m maze0 hh hrect' _ hR0 hcnt0
  have hQfin := runDemoQ_inv m maze0 hh hrect' hconn (totalCells maze0 + 1) _ hQ0
  refine ⟨totalCells maze0 + 1, Nat.le_refl _, ?_⟩
  have hfoundTy : (runDemo m (totalCells maze0 + 1)
      (solveInit m maze0 FrontierKind.queue)).solutionType =
      SolutionType.FoundSolution := by
    cases hty : (runDemo m (totalCells maze0 + 1)
        (solveInit m maze0 FrontierKind.queue)).solutionType with
    | Pending => exact absurd hty hQfin.2.2.2
    | NoSolution => exact absurd hty hQfin.2.2.1
    | Continue => exact absurd hty hterm
    | FoundSolution => rfl
  obtain ⟨nd, hsol, hst, hchain, hdist⟩ := hQfin.2.1 hfoundTy
  refine ⟨hfoundTy, nd, hsol, hst, hdist, ?_, chainStates_length nd hchain⟩
  have := chain_pathLen nd hchain
  rw [hst] at this
  exact this

/-- C2 (witness): BFS optimality at the concrete 2×2 grid `"AB\n  "`. -/
theorem C2_bfs_shortest_path_witness :
    Maze.make mzC10 = .ok mC10 ∧
    (∀ row ∈ mzC10, row.length = (mzC10.headD []).length) ∧
    FreshMarks mzC10 ∧
    (∃ k, PathLen mC10 mzC10 mC10.start mC10.goal k) ∧
    (∃ n, n ≤ totalCells mzC10 + 1 ∧
      (runDemo mC10 n (solveInit mC10 mzC10 FrontierKind.queue)).solutionType =
        SolutionType.FoundSolution ∧
      ∃ nd, (runDemo mC10 n (solveInit mC10 mzC10
          FrontierKind.queue)).solution = some nd ∧ nd.state = mC10.goal ∧
        IsDistance mC10 mzC10 mC10.start mC10.goal nd.pathCost ∧
        PathLen mC10 mzC10 mC10.start mC10.goal nd.pathCost ∧
        (chainStates nd).length = nd.pathCost + 1) := by
  have hpath : PathLen mC10 mzC10 mC10.start mC10.goal 1 :=
    listPathB_pathLen mC10 mzC10 [((0 : Int), (1 : Int))]
      ((0 : Int), (0 : Int)) ((0 : Int), (1 : Int)) (by decide) rfl
  exact ⟨rfl, by decide, by decide, ⟨1, hpath⟩,
    C2_bfs_shortest_path mzC10 mC10 rfl (by decide) (by decide) ⟨1, hpath⟩⟩

set_option maxRecDepth 200000 in
/-- C1 (counterexample): on the 8×3 grid `mzCE` — constructed by the
`Maze` constructor, fresh, and connected — the A* run ends in
`FoundSolution` with a solution node of `pathCost` 10 (a reconstructed
path of 11 cells), although the true minimum number of edges between
Start and Goal is 8: a frontier node is never updated when its state is
rediscovered with a smaller cost, so A* can return a suboptimal path. -/
theorem C1_counterexample :
    Maze.make mzCE = .ok mCE ∧
    FreshMarks mzCE ∧
    (runDemo mCE 30 (solveInit mCE mzCE FrontierKind.astar)).solutionType =
      SolutionType.FoundSolution ∧
    ((runDemo mCE 30 (solveInit mCE mzCE FrontierKind.astar)).solution.map
      Node.pathCost) = some 10 ∧
    ((runDemo mCE 30 (solveInit mCE mzCE FrontierKind.astar)).solution.map
      (fun nd => (chainStates nd).length)) = some 11 ∧
    IsDistance mCE mzCE mCE.start mCE.goal 8 := by
  refine ⟨rfl, by decide, rfl, rfl, rfl, ?_, ?_⟩
  · show PathLen mCE mzCE mCE.start mCE.goal 8
    exact listPathB_pathLen mCE mzCE
      [((2 : Int), (0 : Int)), ((3 : Int), (0 : Int)), ((4 : Int), (0 : Int)),
        ((5 : Int), (0 : Int)), ((6 : Int), (0 : Int)), ((7 : Int), (0 : Int)),
        ((7 : Int), (1 : Int)), ((7 : Int), (2 : Int))]
      ((1 : Int), (0 : Int)) ((7 : Int), (2 : Int)) (by decide) rfl
  · intro j hj
    have hle := manhattan_le_pathLen hj
    have hm : calcManhattanDistance mCE.start mCE.goal = 8 := by decide
    rw [hm] at hle
    exact hle

/-- C1 (amended): on a connected grid accepted by the constructor, the A*
run ends in `FoundSolution` and the reconstructed parent-chain path is a
valid path from Start to Goal whose length (`pathCost` edges) is at least
the true minimum — but, as the counterexample shows, not always equal to
it, because the frontier is never updated when a state is rediscovered
with a smaller path cost. -/
theorem C1_astar_completeness (maze0 : MazeData) (m : Maze)
    (hmk : Maze.make maze0 = .ok m)
    (hrect : ∀ row ∈ maze0, row.length = (maze0.headD []).length)
    (hfresh : FreshMarks maze0)
    (hconn : ∃ k, PathLen m maze0 m.start m.goal k) :
    ∃ n, n ≤ totalCells maze0 + 1 ∧
      (runDemo m n (solveInit m maze0 FrontierKind.astar)).solutionType =
        SolutionType.FoundSolution ∧
      ∃ nd, (runDemo m n (solveInit m maze0 FrontierKind.astar)).solution =
          some nd ∧ nd.state = m.goal ∧
        PathLen m maze0 m.start m.goal nd.pathCost ∧
        (chainStates nd).length = nd.pathCost + 1 ∧
        ∀ d, IsDistance m maze0 m.start m.goal d → d ≤ nd.pathCost := by
  obtain ⟨hh', hw, hM⟩ := make_spec maze0 m hmk
  have hh : maze0.length = m.height := hh'.symm
  have hrect' : ∀ row ∈ maze0, row.length = m.width := by
    intro row hr
    rw [hw]
    exact hrect row hr
  obtain ⟨hInv0, hty0, hcnt0, hnodes0⟩ :=
    solveInit_inv m maze0 FrontierKind.astar hM hfresh hh hrect'
  have hR0 : RunInv m maze0 (solveInit m maze0 FrontierKind.astar) := by
    refine ⟨fun _ => hInv0, hInv0.chain, hInv0.nodupStates, ?_⟩
    intro hf
    rw [hty0] at hf
    cases hf
  have hterm := runDemo_terminates m maze0 hh hrect' _ hR0 hcnt0
  have hnn := runDemo_not_nosolution m maze0 hh hrect' hconn
    (totalCells maze0 + 1) _ hR0 (by rw [hty0]; exact fun hc => SolutionType.noConfusion hc)
  have hnp := runDemo_not_pending m maze0 (totalCells maze0 + 1) _
    (by rw [hty0]; exact fun hc => SolutionType.noConfusion hc)
  have hRfin := runDemo_inv m maze0 hh hrect' (totalCells maze0 + 1) _ hR0
  refine ⟨totalCells maze0 + 1, Nat.le_refl _, ?_⟩
  have hfoundTy : (runDemo m (totalCells maze0 + 1)
      (solveInit m maze0 FrontierKind.astar)).solutionType =
      SolutionType.FoundSolution := by
    cases hty : (runDemo m (totalCells maze0 + 1)
        (solveInit m maze0 FrontierKind.astar)).solutionType with
    | Pending => exact absurd hty hnp
    | NoSolution => exact absurd hty hnn
    | Continue => exact absurd hty hterm
    | FoundSolution => rfl
  obtain ⟨nd, hsol, hst, hchain⟩ := hRfin.2.2.2 hfoundTy
  have hplen := chain_pathLen nd hchain
  rw [hst] at hplen
  exact ⟨hfoundTy, nd, hsol, hst, hplen, chainStates_length nd hchain,
    fun d hd => hd.2 hplen⟩

/-- C1 (amended, witness): the A* completeness guarantee at the concrete
2×2 grid `"AB\n  "`. -/
theorem C1_astar_completeness_witness :
    Maze.make mzC10 = .ok mC10 ∧
    (∀ row ∈ mzC10, row.length = (mzC10.headD []).length) ∧
    FreshMarks mzC10 ∧
    (∃ k, PathLen mC10 mzC10 mC10.start mC10.goal k) ∧
    (∃ n, n ≤ totalCells mzC10 + 1 ∧
      (runDemo mC10 n (solveInit mC10 mzC10 FrontierKind.astar)).solutionType =
        SolutionType.FoundSolution ∧
      ∃ nd, (runDemo mC10 n (solveInit mC10 mzC10
          FrontierKind.astar)).solution = some nd ∧ nd.state = mC10.goal ∧
        PathLen mC10 mzC10 mC10.start mC10.goal nd.pathCost ∧
        (chainStates nd).length = nd.pathCost + 1 ∧
        ∀ d, IsDistance mC10 mzC10 mC10.start mC10.goal d → d ≤ nd.pathCost) := by
  have hpath : PathLen mC10 mzC10 mC10.start mC10.goal 1 :=
    listPathB_pathLen mC10 mzC10 [((0 : Int), (1 : Int))]
      ((0 : Int), (0 : Int)) ((0 : Int), (1 : Int)) (by decide) rfl
  exact ⟨rfl, by decide, by decide, ⟨1, hpath⟩,
    C1_astar_completeness mzC10 mC10 rfl (by decide) (by decide) ⟨1, hpath⟩⟩

end SearchDemo
